import Mathlib

/-!
# eedi3: scanline reconstruction by a minimum-cost displacement path

A shallow embedding of `interpLineFP`, `interpLineHP` and of the vcheck pass of
`eedi3::GetFrame` (`eedi3/eedi3.cpp`), followed by theorems about them.

Conventions of the embedding.

* C `int` values are `Int`; no intermediate of the code leaves the 32-bit range on
  8-bit samples, so no wrap-around is modelled except at stores into `unsigned char`
  (`toU8`).
* `float`/`double` quantities are rationals. The costs of the path solver are exact, and
  its saturation `min(y, FLT_MAX*0.9)` is kept on exact values. The sum `alpha+beta` of the
  constructor and the blend of the vcheck pass are rounded operation by operation
  (`toFloat`, `toDouble`); the blend is also given with exact arithmetic (`blendWeight`,
  `vcheckPixel`, `vcheckRow`) for the statements that take it so.
* A pointer into a padded plane is a function from the (possibly negative) offset to the
  sample read there.
* Loops are left folds over the loop variable (`forUp`, `forDown`); arrays are functions
  of the flat index, written with `Function.update`.
* The full-pixel and the half-pixel solver are the same text up to the number of
  displacement units per pixel (`1` or `2`) and the factor on the continuity penalty
  (`1` or `0.5f`); the shared text is embedded once, with these two as parameters.
-/

namespace Eedi3

/-! ## Machine-level helpers -/

/-- A scanline seen through a pointer: `r i` is the `unsigned char` at offset `i`. -/
abbrev Row := Int → Int

/-- Every sample of the row is an `unsigned char` value. -/
def IsU8 (r : Row) : Prop := ∀ i, 0 ≤ r i ∧ r i ≤ 255

/-- Store of an `int` into an `unsigned char`. -/
def toU8 (v : Int) : Int := v % 256

/-- Arithmetic right shift `a >> n` of an `int`. -/
def shr (a : Int) (n : Nat) : Int := a / 2 ^ n

/-- The constant `FLT_MAX` of `<cfloat>`, `(2^24 - 1) * 2^104`. -/
def FLT_MAX : ℚ := 340282346638528859811704183484516925440

/-- The guard `(float)min(y,FLT_MAX*0.9)` on exact values. -/
def satur (y : ℚ) : ℚ := min y (FLT_MAX * 0.9)

/-- The loop `for (int i=lo; i<=hi; ++i) body` as a fold over the state. -/
def forUp {σ : Type} (lo hi : Int) (body : Int → σ → σ) (init : σ) : σ :=
  (List.range (hi + 1 - lo).toNat).foldl (fun st (n : Nat) => body (lo + (n : Int)) st) init

/-- The loop `for (int i=hi; i>=lo; --i) body` as a fold over the state. -/
def forDown {σ : Type} (hi lo : Int) (body : Int → σ → σ) (init : σ) : σ :=
  (List.range (hi + 1 - lo).toNat).foldl (fun st (n : Nat) => body (hi - (n : Int)) st) init

/-- The clamp `min(max(v,0),255)`. -/
def clamp255 (v : Int) : Int := min (max v 0) 255

/-! ## IEEE 754 rounding

The operations on `float` and `double` that the constructor and the blend of the vcheck
pass perform are rounded one by one, each to the type of its operands (binary32 for
`float`, binary64 for `double`), to nearest with ties to even. Values are rationals: no
NaN, no infinity. -/

/-- Rounding of a rational to the nearest integer, a tie going to the even neighbour. -/
def roundEven (r : ℚ) : Int :=
  if r - ⌊r⌋ < 1 / 2 then ⌊r⌋
  else if 1 / 2 < r - ⌊r⌋ then ⌊r⌋ + 1
  else if ⌊r⌋ % 2 = 0 then ⌊r⌋ else ⌊r⌋ + 1

/-- Rounding to the nearest value of the binary floating-point format with `prec`
significand bits and least exponent `emin`, ties to even, with gradual underflow: the
value of one IEEE 754 operation whose exact result is `q`. The exponent is not bounded
above: a result beyond the largest finite number stays finite here. -/
def roundBin (prec : Nat) (emin : Int) (q : ℚ) : ℚ :=
  let e := max (Int.log 2 |q|) emin
  let ulp : ℚ := 2 ^ (e + 1 - (prec : Int))
  (roundEven (q / ulp) : ℚ) * ulp

/-- The value of a C expression of type `float` whose exact value is `q` (binary32). -/
def toFloat (q : ℚ) : ℚ := roundBin 24 (-126) q

/-- The value of a C expression of type `double` whose exact value is `q` (binary64). -/
def toDouble (q : ℚ) : ℚ := roundBin 53 (-1022) q

/-! ## Data -/

/-- The arguments `alpha, beta, gamma, nrad, mdis, ucubic, cost3` of `interpLineFP/HP`. -/
structure Params where
  alpha : ℚ
  beta : ℚ
  gamma : ℚ
  nrad : Int
  mdis : Int
  ucubic : Bool
  cost3 : Bool

/-- The four rows `srcp-3*pitch`, `srcp-pitch`, `srcp+pitch`, `srcp+3*pitch`. -/
structure Rows where
  src3p : Row
  src1p : Row
  src1n : Row
  src3n : Row

/-- The worker buffer `temp` as seen through `ccosts`, `pcosts`, `pbackt`, `fpath`,
with whatever it holds on entry; `idx0` is the indeterminate value of the local `idx`
before its first assignment. -/
structure Scratch where
  ccosts : Int → ℚ
  pcosts : Int → ℚ
  pbackt : Int → Int
  fpath : Int → Int
  idx0 : Int

/-- The output row `dstp` and the displacement-map row `dmap`. -/
structure Output where
  dstp : Row
  dmap : Int → Int

/-- The bound `min(min(x,width-1-x),mdis)` on the displacement at column `x`. -/
def umaxAt (width mdis x : Int) : Int := min (min x (width - 1 - x)) mdis

/-! ## Connection costs -/

/-- The window sum
`for k: s += abs(a3p[i+k]-a1p[j+k]) + abs(a1p[i+k]-a1n[j+k]) + abs(a1n[i+k]-a3n[j+k])`. -/
def sad (r : Rows) (nrad i j : Int) : Int :=
  forUp (-nrad) nrad (fun k s => s +
    (|r.src3p (i + k) - r.src1p (j + k)| +
     |r.src1p (i + k) - r.src1n (j + k)| +
     |r.src1n (i + k) - r.src3n (j + k)|)) 0

/-- Guard of the alternate cost `s1` in `interpLineFP`. -/
def s1CondFP (width x u : Int) : Prop := (u ≥ 0 ∧ x ≥ u * 2) ∨ (u ≤ 0 ∧ x < width + u * 2)

/-- Guard of the alternate cost `s2` in `interpLineFP`. -/
def s2CondFP (width x u : Int) : Prop := (u ≤ 0 ∧ x ≥ u * 2) ∨ (u ≥ 0 ∧ x < width + u * 2)

/-- Guard of the alternate cost `s1` in `interpLineHP`. -/
def s1CondHP (width x u : Int) : Prop := (u ≥ 0 ∧ x ≥ u) ∨ (u ≤ 0 ∧ x < width + u)

/-- Guard of the alternate cost `s2` in `interpLineHP`. -/
def s2CondHP (width x u : Int) : Prop := (u ≤ 0 ∧ x ≥ u) ∨ (u ≥ 0 ∧ x < width + u)

instance (width x u : Int) : Decidable (s1CondFP width x u) := by unfold s1CondFP; infer_instance
instance (width x u : Int) : Decidable (s2CondFP width x u) := by unfold s2CondFP; infer_instance
instance (width x u : Int) : Decidable (s1CondHP width x u) := by unfold s1CondHP; infer_instance
instance (width x u : Int) : Decidable (s2CondHP width x u) := by unfold s2CondHP; infer_instance

/-- The two lines `s1 = s1 >= 0 ? s1 : (s2 >= 0 ? s2 : s0); s2 = s2 >= 0 ? s2 : (s1 >= 0 ? s1 : s0);`
returning the sum `s0+s1+s2` that enters the cost. -/
def sum3 (s0 s1 s2 : Int) : Int :=
  let s1a := if s1 ≥ 0 then s1 else (if s2 ≥ 0 then s2 else s0)
  let s2a := if s2 ≥ 0 then s2 else (if s1a ≥ 0 then s1a else s0)
  s0 + s1a + s2a

/-- The value stored in `ccosts[x*tpitch+mdis+u]` by `interpLineFP`. -/
def ccostFP (p : Params) (r : Rows) (width x u : Int) : ℚ :=
  let s0 := sad r p.nrad (x + u) (x - u)
  let ip := shr (r.src1p (x + u) + r.src1n (x - u) + 1) 1
  let v := |r.src1p x - ip| + |r.src1n x - ip|
  if !p.cost3 then
    p.alpha * (s0 : ℚ) + p.beta * ((|u| : Int) : ℚ) + (1 - p.alpha - p.beta) * (v : ℚ)
  else
    let s1 : Int := if s1CondFP width x u then sad r p.nrad x (x - u * 2) else -1
    let s2 : Int := if s2CondFP width x u then sad r p.nrad (x + u * 2) x else -1
    p.alpha * ((sum3 s0 s1 s2 : Int) : ℚ) * 0.333333 + p.beta * ((|u| : Int) : ℚ)
      + (1 - p.alpha - p.beta) * (v : ℚ)

/-- The half-pel sample `(src[x]+src[x+1]+1)>>1`, stored as a byte. -/
def hpAvg (src : Row) (x : Int) : Int := toU8 (shr (src x + src (x + 1) + 1) 1)

/-- The half-pel sample
`min(max((36*(src[x]+src[x+1])-4*(src[x-1]+src[x+2])+32)>>6,0),255)`, stored as a byte. -/
def hpCubic (src : Row) (x : Int) : Int :=
  toU8 (clamp255 (shr (36 * (src x + src (x + 1)) - 4 * (src (x - 1) + src (x + 2)) + 32) 6))

/-- The loop "calculate half pel values". `mem` holds the bytes of the scratch buffer
addressed from `hp3p = (unsigned char*)fpath`, so that `hp1p[i]`, `hp1n[i]`, `hp3n[i]` are
the bytes `width+i`, `2*width+i`, `3*width+i`; the loop writes four bytes per column
`x = 0..width-2`, every other byte keeps what the buffer held. -/
def halfPelBytes (ucubic : Bool) (width : Int) (r : Rows) (mem : Row) : Row :=
  forUp 0 (width - 2) (fun x m =>
    if !ucubic ∨ (x = 0 ∨ x = width - 2) then
      Function.update (Function.update (Function.update (Function.update m
        x (hpAvg r.src3p x)) (width + x) (hpAvg r.src1p x))
        (width * 2 + x) (hpAvg r.src1n x)) (width * 3 + x) (hpAvg r.src3n x)
    else
      Function.update (Function.update (Function.update (Function.update m
        x (hpCubic r.src3p x)) (width + x) (hpCubic r.src1p x))
        (width * 2 + x) (hpCubic r.src1n x)) (width * 3 + x) (hpCubic r.src3n x))
    mem

/-- The four half-pel rows `hp3p`, `hp1p = hp3p+width`, `hp1n = hp1p+width`,
`hp3n = hp1n+width` as read after the loop "calculate half pel values". -/
def halfPelRows (ucubic : Bool) (width : Int) (r : Rows) (mem : Row) : Rows where
  src3p := fun i => halfPelBytes ucubic width r mem i
  src1p := fun i => halfPelBytes ucubic width r mem (width + i)
  src1n := fun i => halfPelBytes ucubic width r mem (width * 2 + i)
  src3n := fun i => halfPelBytes ucubic width r mem (width * 3 + i)

/-- The value stored in `ccosts[x*tpitch+mdis*2+u]` by `interpLineHP`; `h` are the
half-pel rows. -/
def ccostHP (p : Params) (r h : Rows) (width x u : Int) : ℚ :=
  let u2 := shr u 1
  let s0 := if u % 2 = 0 then sad r p.nrad (x + u2) (x - u2)
            else sad h p.nrad (x + u2) (x - u2 - 1)
  let ip := if u % 2 = 0 then shr (r.src1p (x + u2) + r.src1n (x - u2) + 1) 1
            else shr (h.src1p (x + u2) + h.src1n (x - u2 - 1) + 1) 1
  let v := |r.src1p x - ip| + |r.src1n x - ip|
  if !p.cost3 then
    p.alpha * (s0 : ℚ) + p.beta * ((|u| : Int) : ℚ) * 0.5 + (1 - p.alpha - p.beta) * (v : ℚ)
  else
    let s1 : Int := if s1CondHP width x u then sad r p.nrad x (x - u) else -1
    let s2 : Int := if s2CondHP width x u then sad r p.nrad (x + u) x else -1
    p.alpha * ((sum3 s0 s1 s2 : Int) : ℚ) * 0.333333 + p.beta * ((|u| : Int) : ℚ) * 0.5
      + (1 - p.alpha - p.beta) * (v : ℚ)

/-- The loop nest "calculate all connection costs": `sc` is the number of displacement
units per pixel (`1` in `interpLineFP`, `2` in `interpLineHP`), `cell x u` the value
computed for column `x` and displacement `u`. -/
def calcCosts (sc width mdis : Int) (cell : Int → Int → ℚ) (st : Scratch) : Scratch :=
  let tpitch := mdis * 2 * sc + 1
  forUp 0 (width - 1) (fun x st =>
    let umax := umaxAt width mdis x
    forUp (-umax * sc) (umax * sc) (fun u st =>
      { st with ccosts := Function.update st.ccosts (x * tpitch + mdis * sc + u) (cell x u) })
      st) st

/-! ## Path solver -/

/-- The innermost loop of "calculate path costs": scans the predecessors `v = lo..hi`
and returns `(bval, idx)`. `pen` is `1` in `interpLineFP` and `0.5f` in `interpLineHP`. -/
def bestPred (ppT : Int → ℚ) (gamma pen : ℚ) (off u lo hi idx0 : Int) : ℚ × Int :=
  forUp lo hi (fun v b =>
    let y := ppT (off + v) + gamma * ((|u - v| : Int) : ℚ) * pen
    let ccost := satur y
    if ccost < b.1 then (ccost, v) else b) (FLT_MAX, idx0)

/-- The loop nest "calculate path costs". -/
def calcPathCosts (sc : Int) (pen : ℚ) (width mdis : Int) (gamma : ℚ) (st : Scratch) :
    Scratch :=
  let tpitch := mdis * 2 * sc + 1
  let st := { st with pcosts := Function.update st.pcosts (mdis * sc) (st.ccosts (mdis * sc)) }
  forUp 1 (width - 1) (fun x st =>
    let umax := umaxAt width mdis x
    forUp (-umax * sc) (umax * sc) (fun u st =>
      let umax2 := min (min (x - 1) (width - x)) mdis
      let b := bestPred (fun i => st.pcosts ((x - 1) * tpitch + i)) gamma pen (mdis * sc) u
        (max (-umax2 * sc) (u - sc)) (min (umax2 * sc) (u + sc)) st.idx0
      let y := b.1 + st.ccosts (x * tpitch + mdis * sc + u)
      { st with
        pcosts := Function.update st.pcosts (x * tpitch + mdis * sc + u) (satur y)
        pbackt := Function.update st.pbackt ((x - 1) * tpitch + mdis * sc + u) b.2 })
      st) st

/-- The loop "backtrack". -/
def backtrack (sc width mdis : Int) (st : Scratch) : Scratch :=
  let tpitch := mdis * 2 * sc + 1
  let st := { st with fpath := Function.update st.fpath (width - 1) 0 }
  forDown (width - 2) 0 (fun x st =>
    { st with
      fpath := Function.update st.fpath x (st.pbackt (x * tpitch + mdis * sc + st.fpath (x + 1))) })
    st

/-! ## Interpolation -/

/-- The sample stored in `dstp[x]` by `interpLineFP` for displacement `dir`. -/
def interpPixelFP (ucubic : Bool) (r : Rows) (width x dir : Int) : Int :=
  let ad := |dir|
  if ucubic ∧ x ≥ ad * 3 ∧ x ≤ width - 1 - ad * 3 then
    toU8 (clamp255 (shr (36 * (r.src1p (x + dir) + r.src1n (x - dir))
      - 4 * (r.src3p (x + dir * 3) + r.src3n (x - dir * 3)) + 32) 6))
  else
    toU8 (shr (r.src1p (x + dir) + r.src1n (x - dir) + 1) 1)

/-- The sample stored in `dstp[x]` by `interpLineHP` for displacement `dir`. -/
def interpPixelHP (ucubic : Bool) (r : Rows) (width x dir : Int) : Int :=
  if dir % 2 = 0 then
    let d2 := shr dir 1
    let ad := |d2|
    if ucubic ∧ x ≥ ad * 3 ∧ x ≤ width - 1 - ad * 3 then
      toU8 (clamp255 (shr (36 * (r.src1p (x + d2) + r.src1n (x - d2))
        - 4 * (r.src3p (x + d2 * 3) + r.src3n (x - d2 * 3)) + 32) 6))
    else
      toU8 (shr (r.src1p (x + d2) + r.src1n (x - d2) + 1) 1)
  else
    let d20 := shr dir 1
    let d21 := shr (dir + 1) 1
    let d30 := shr (dir * 3) 1
    let d31 := shr (dir * 3 + 1) 1
    let ad := max |d30| |d31|
    if ucubic ∧ x ≥ ad ∧ x ≤ width - 1 - ad then
      let c0 := r.src3p (x + d30) + r.src3p (x + d31)
      let c1 := r.src1p (x + d20) + r.src1p (x + d21)
      let c2 := r.src1n (x - d20) + r.src1n (x - d21)
      let c3 := r.src3n (x - d30) + r.src3n (x - d31)
      toU8 (clamp255 (shr (36 * (c1 + c2) - 4 * (c0 + c3) + 64) 7))
    else
      toU8 (shr (r.src1p (x + d20) + r.src1p (x + d21) + r.src1n (x - d20)
        + r.src1n (x - d21) + 2) 2)

/-- The loop "interpolate": writes `dmap[x]` and `dstp[x]` for `x = 0..width-1`. -/
def interpolate (pixel : Int → Int → Int) (width : Int) (fpath : Int → Int) (out : Output) :
    Output :=
  forUp 0 (width - 1) (fun x o =>
    let dir := fpath x
    { dmap := Function.update o.dmap x dir
      dstp := Function.update o.dstp x (pixel x dir) }) out

/-! ## The two scanline functions -/

/-- Scratch state of `interpLineFP` after "backtrack". -/
def solveFP (r : Rows) (width : Int) (p : Params) (temp : Scratch) : Scratch :=
  backtrack 1 width p.mdis
    (calcPathCosts 1 1 width p.mdis p.gamma
      (calcCosts 1 width p.mdis (ccostFP p r width) temp))

/-- The function `interpLineFP`: `r` are the rows around `srcp`, `temp` the scratch buffer
on entry, `out` the rows `dstp` and `dmap` on entry. -/
def interpLineFP (r : Rows) (width : Int) (p : Params) (temp : Scratch) (out : Output) :
    Output :=
  interpolate (interpPixelFP p.ucubic r width) width (solveFP r width p temp).fpath out

/-- Scratch state of `interpLineHP` after "backtrack"; `mem` holds the bytes of the scratch
buffer addressed from `fpath`, as they are on entry. -/
def solveHP (r : Rows) (mem : Row) (width : Int) (p : Params) (temp : Scratch) : Scratch :=
  backtrack 2 width p.mdis
    (calcPathCosts 2 0.5 width p.mdis p.gamma
      (calcCosts 2 width p.mdis (ccostHP p r (halfPelRows p.ucubic width r mem) width) temp))

/-- The function `interpLineHP`: `r` are the rows around `srcp`, `temp` the scratch buffer
on entry seen through the four table pointers, `mem` its bytes seen through `hp3p`, `out`
the rows `dstp` and `dmap` on entry. -/
def interpLineHP (r : Rows) (mem : Row) (width : Int) (p : Params) (temp : Scratch)
    (out : Output) : Output :=
  interpolate (interpPixelHP p.ucubic r width) width (solveHP r mem width p temp).fpath out

/-! ## The vcheck pass of `eedi3::GetFrame` -/

/-- The members `vcheck`, `vthresh0`, `vthresh1`, `vthresh2`, `hp` read by the vcheck pass. -/
structure VParams where
  vcheck : Int
  vthresh0 : ℚ
  vthresh1 : ℚ
  vthresh2 : ℚ
  hp : Bool

/-- What the vcheck pass sees around one checked row: the pointers `dst3p .. dst3n` (with
`dstp` the row under check as it stands before the check), the row `scpp` of the secondary
clip (`none` for a null pointer), and the displacement-map rows `dstpd-dpitch`, `dstpd`,
`dstpd+dpitch`. -/
structure VRows where
  dst3p : Row
  dst2p : Row
  dst1p : Row
  dstp : Row
  dst1n : Row
  dst2n : Row
  dst3n : Row
  scpp : Option Row
  dmapT : Int → Int
  dmapC : Int → Int
  dmapB : Int → Int

/-- The conversion `(int)` of a `double`: truncation toward zero. -/
def truncToInt (q : ℚ) : Int := if 0 ≤ q then ⌊q⌋ else ⌈q⌉

/-- The centre estimate `cint` of column `x`. -/
def cintAt (w : VRows) (x : Int) : Int :=
  match w.scpp with
  | some scpp => scpp x
  | none => clamp255 (shr (36 * (w.dst1p x + w.dst1n x) - 4 * (w.dst3p x + w.dst3n x) + 32) 6)

/-- The quadruple `(it, ib, vt, vb)` for a whole-pixel offset `d` (full-pixel mode, and
half-pixel mode at even `dirc` with `d = dirc>>1`). -/
def tapsWhole (w : VRows) (x d : Int) : Int × Int × Int × Int :=
  (shr (w.dst2p (x + d) + w.dstp (x - d) + 1) 1,
   shr (w.dstp (x + d) + w.dst2n (x - d) + 1) 1,
   |w.dst2p (x + d) - w.dst1p (x + d)| + |w.dstp (x + d) - w.dst1p (x + d)|,
   |w.dst2n (x - d) - w.dst1n (x - d)| + |w.dstp (x - d) - w.dst1n (x - d)|)

/-- The quadruple `(it, ib, vt, vb)` in half-pixel mode at odd `dirc`. -/
def tapsHalf (w : VRows) (x dirc : Int) : Int × Int × Int × Int :=
  let d20 := shr dirc 1
  let d21 := shr (dirc + 1) 1
  let pa2p := w.dst2p (x + d20) + w.dst2p (x + d21) + 1
  let pa1p := w.dst1p (x + d20) + w.dst1p (x + d21) + 1
  let ps0 := w.dstp (x - d20) + w.dstp (x - d21) + 1
  let pa0 := w.dstp (x + d20) + w.dstp (x + d21) + 1
  let ps1n := w.dst1n (x - d20) + w.dst1n (x - d21) + 1
  let ps2n := w.dst2n (x - d20) + w.dst2n (x - d21) + 1
  (shr (pa2p + ps0) 2,
   shr (pa0 + ps2n) 2,
   shr (|pa2p - pa1p| + |pa0 - pa1p|) 1,
   shr (|ps2n - ps1n| + |ps0 - ps1n|) 1)

/-- The policy `vcheck == 1 ? min(a,b) : vcheck == 2 ? ((a+b+1)>>1) : max(a,b)`. -/
def mdiff (vcheck a b : Int) : Int :=
  if vcheck = 1 then min a b else if vcheck = 2 then shr (a + b + 1) 1 else max a b

/-- The blend weight `a` of a column that is not skipped, with the quotients taken
exactly. -/
def blendWeight (v : VParams) (w : VRows) (x : Int) : ℚ :=
  let dirc := w.dmapC x
  let vc := |w.dstp x - w.dst1p x| + |w.dstp x - w.dst1n x|
  let t := if v.hp then (if dirc % 2 = 0 then tapsWhole w x (shr dirc 1) else tapsHalf w x dirc)
           else tapsWhole w x dirc
  let it := t.1
  let ib := t.2.1
  let vt := t.2.2.1
  let vb := t.2.2.2
  let d0 := |it - w.dst1p x|
  let d1 := |ib - w.dst1n x|
  let d2 := |vt - vc|
  let d3 := |vb - vc|
  let mdiff0 := mdiff v.vcheck d0 d1
  let mdiff1 := mdiff v.vcheck d2 d3
  let a0 : ℚ := (mdiff0 : ℚ) / v.vthresh0
  let a1 : ℚ := (mdiff1 : ℚ) / v.vthresh1
  let dircv : Int := if v.hp then shr |dirc| 1 else |dirc|
  let a2 : ℚ := max ((v.vthresh2 - (dircv : ℚ)) / v.vthresh2) 0
  min (max (max a0 a1) a2) 1

/-- The byte stored in `tline[x]` by the body of the column loop, with the blend
`(1.0-a)*dstp[x]+a*cint` taken exactly before its truncation. -/
def vcheckPixel (v : VParams) (w : VRows) (x : Int) : Int :=
  let dirc := w.dmapC x
  let cint := cintAt w x
  if dirc = 0 then toU8 cint
  else
    let dirt := w.dmapT x
    let dirb := w.dmapB x
    if max (dirc * dirt) (dirc * dirb) < 0 ∨ (dirt = dirb ∧ dirt = 0) then toU8 cint
    else
      let a := blendWeight v w x
      toU8 (truncToInt ((1 - a) * (w.dstp x : ℚ) + a * (cint : ℚ)))

/-- The row `dstp` after the check of one row of `width` columns, with the blend taken
exactly: the column loop fills `tline` (holding `tline0` before), then
`memcpy(dstp,tline,width)`. -/
def vcheckRow (v : VParams) (w : VRows) (width : Int) (tline0 : Row) : Row :=
  let tline := forUp 0 (width - 1) (fun x tl => Function.update tl x (vcheckPixel v w x)) tline0
  fun x => if 0 ≤ x ∧ x < width then tline x else w.dstp x

/-- The blend weight `a` of a column that is not skipped, as the code computes it in
`float`: the conversions of `mdiff0`, `mdiff1` and `dircv` to `float`, the two quotients,
the difference `vthresh2-dircv` and its quotient are each rounded to binary32. -/
def blendWeightFloat (v : VParams) (w : VRows) (x : Int) : ℚ :=
  let dirc := w.dmapC x
  let vc := |w.dstp x - w.dst1p x| + |w.dstp x - w.dst1n x|
  let t := if v.hp then (if dirc % 2 = 0 then tapsWhole w x (shr dirc 1) else tapsHalf w x dirc)
           else tapsWhole w x dirc
  let it := t.1
  let ib := t.2.1
  let vt := t.2.2.1
  let vb := t.2.2.2
  let d0 := |it - w.dst1p x|
  let d1 := |ib - w.dst1n x|
  let d2 := |vt - vc|
  let d3 := |vb - vc|
  let mdiff0 := mdiff v.vcheck d0 d1
  let mdiff1 := mdiff v.vcheck d2 d3
  let a0 : ℚ := toFloat (toFloat (mdiff0 : ℚ) / v.vthresh0)
  let a1 : ℚ := toFloat (toFloat (mdiff1 : ℚ) / v.vthresh1)
  let dircv : Int := if v.hp then shr |dirc| 1 else |dirc|
  let a2 : ℚ := max (toFloat (toFloat (v.vthresh2 - toFloat (dircv : ℚ)) / v.vthresh2)) 0
  min (max (max a0 a1) a2) 1

/-- The value of `(1.0-a)*dstp[x]+a*cint` for a `float` `a` and `int` samples: `1.0-a` and
its product with the sample are `double` operations, `a*cint` is a `float` product, the
sum is a `double` sum. The conversions of `a` and of the `float` product to `double`, and
of the sample to `double`, are exact. -/
def blendFloat (a : ℚ) (dst cint : Int) : ℚ :=
  toDouble (toDouble (toDouble (1 - a) * (dst : ℚ)) + toFloat (a * toFloat (cint : ℚ)))

/-- The byte stored in `tline[x]` by the body of the column loop, with the blend rounded
as the code rounds it. -/
def vcheckPixelFloat (v : VParams) (w : VRows) (x : Int) : Int :=
  let dirc := w.dmapC x
  let cint := cintAt w x
  if dirc = 0 then toU8 cint
  else
    let dirt := w.dmapT x
    let dirb := w.dmapB x
    if max (dirc * dirt) (dirc * dirb) < 0 ∨ (dirt = dirb ∧ dirt = 0) then toU8 cint
    else
      let a := blendWeightFloat v w x
      toU8 (truncToInt (blendFloat a (w.dstp x) cint))

/-- The row `dstp` after the check of one row of `width` columns, with the blend rounded
as the code rounds it: the column loop fills `tline` (holding `tline0` before), then
`memcpy(dstp,tline,width)`. -/
def vcheckRowFloat (v : VParams) (w : VRows) (width : Int) (tline0 : Row) : Row :=
  let tline :=
    forUp 0 (width - 1) (fun x tl => Function.update tl x (vcheckPixelFloat v w x)) tline0
  fun x => if 0 ≤ x ∧ x < width then tline x else w.dstp x

/-! ## Offsets read from the rows

The lists below record, for the code embedded above, at which offsets the rows are read:
each mirrors the loop structure and the index expressions of the code it instruments. -/

/-- Offsets read by the window sum `sad r nrad i j`: `i+k` and `j+k` for `k = -nrad..nrad`. -/
def sadReads (nrad i j : Int) : List Int :=
  forUp (-nrad) nrad (fun k l => l ++ [i + k, j + k]) []

/-- Offsets into `src3p, src1p, src1n, src3n` read by `interpLineFP` for the cost of the
cell `(x,u)`. -/
def ccostReadsFP (p : Params) (width x u : Int) : List Int :=
  sadReads p.nrad (x + u) (x - u) ++
  (if p.cost3 then
    (if s1CondFP width x u then sadReads p.nrad x (x - u * 2) else []) ++
    (if s2CondFP width x u then sadReads p.nrad (x + u * 2) x else [])
   else []) ++
  [x + u, x - u, x, x]

/-- Offsets into the reference rows read by `interpLineFP` when it interpolates column `x`
with displacement `dir`. -/
def interpReadsFP (ucubic : Bool) (width x dir : Int) : List Int :=
  if ucubic ∧ x ≥ |dir| * 3 ∧ x ≤ width - 1 - |dir| * 3 then
    [x + dir, x - dir, x + dir * 3, x - dir * 3]
  else [x + dir, x - dir]

/-- Every offset at which one call of `interpLineFP` reads a reference row: the cost loops
over all cells, then the interpolation loop along the backtracked path. -/
def srcReadsFP (r : Rows) (width : Int) (p : Params) (temp : Scratch) : List Int :=
  forUp 0 (width - 1) (fun x l =>
    forUp (-umaxAt width p.mdis x) (umaxAt width p.mdis x) (fun u l =>
      l ++ ccostReadsFP p width x u) l) [] ++
  forUp 0 (width - 1) (fun x l =>
    l ++ interpReadsFP p.ucubic width x ((solveFP r width p temp).fpath x)) []

/-- Offsets into `src3p, src1p, src1n, src3n` read by the alternate costs `s1` and `s2` of
`interpLineHP` for the cell `(x,u)`. -/
def altReadsHP (p : Params) (width x u : Int) : List Int :=
  (if s1CondHP width x u then sadReads p.nrad x (x - u) else []) ++
  (if s2CondHP width x u then sadReads p.nrad (x + u) x else [])

/-- Offsets into `hp3p, hp1p, hp1n, hp3n` read by `interpLineHP` for the cost of the cell
`(x,u)`: none at even `u`, the window and the two taps of `ip` at odd `u`. -/
def hpReads (nrad x u : Int) : List Int :=
  if u % 2 = 0 then []
  else sadReads nrad (x + shr u 1) (x - shr u 1 - 1) ++ [x + shr u 1, x - shr u 1 - 1]

/-! ## Specification-side definitions -/

/-- The flat index `x*tpitch + mdis*sc + u` of the cell of column `x` and displacement `u`. -/
def cellIdx (sc mdis x u : Int) : Int := x * (mdis * 2 * sc + 1) + mdis * sc + u

/-- The value compared in the innermost loop for the predecessor `v`. -/
def candCost (ppT : Int → ℚ) (gamma pen : ℚ) (off u v : Int) : ℚ :=
  satur (ppT (off + v) + gamma * ((|u - v| : Int) : ℚ) * pen)

/-- The cells of the trellis: column `x` of the scanline and a displacement `u` inside
the range `-umax*sc .. umax*sc` iterated for that column. -/
def ValidCell (sc width mdis x u : Int) : Prop :=
  0 ≤ x ∧ x < width ∧ -umaxAt width mdis x * sc ≤ u ∧ u ≤ umaxAt width mdis x * sc

instance (sc width mdis x u : Int) : Decidable (ValidCell sc width mdis x u) := by
  unfold ValidCell; infer_instance

/-- The tables `pc` (path costs) and `bk` (backtrack) hold at the cell `(x,u)` what one
iteration of the body of "calculate path costs" computes from column `x-1` of `pc`. -/
def StepOK (sc : Int) (pen : ℚ) (width mdis : Int) (gamma : ℚ) (cc pc : Int → ℚ)
    (bk : Int → Int) (idx0 x u : Int) : Prop :=
  pc (cellIdx sc mdis x u) =
    satur ((bestPred (fun i => pc ((x - 1) * (mdis * 2 * sc + 1) + i)) gamma pen (mdis * sc) u
      (max (-(min (min (x - 1) (width - x)) mdis) * sc) (u - sc))
      (min ((min (min (x - 1) (width - x)) mdis) * sc) (u + sc)) idx0).1
      + cc (cellIdx sc mdis x u)) ∧
  bk (cellIdx sc mdis (x - 1) u) =
    (bestPred (fun i => pc ((x - 1) * (mdis * 2 * sc + 1) + i)) gamma pen (mdis * sc) u
      (max (-(min (min (x - 1) (width - x)) mdis) * sc) (u - sc))
      (min ((min (min (x - 1) (width - x)) mdis) * sc) (u + sc)) idx0).2

/-- The value compared for the predecessor `v` of the cell `(x,u)`, read from the
path-cost table `pc`. -/
def predCost (sc : Int) (pen : ℚ) (mdis : Int) (gamma : ℚ) (pc : Int → ℚ) (x u v : Int) : ℚ :=
  satur (pc (cellIdx sc mdis (x - 1) v) + gamma * ((|u - v| : Int) : ℚ) * pen)

/-- What "calculate all connection costs", "calculate path costs" and "backtrack" leave in
the scratch buffer, as relations between its entries. -/
structure Solved (sc : Int) (pen : ℚ) (width mdis : Int) (gamma : ℚ) (cell : Int → Int → ℚ)
    (idx0 : Int) (s : Scratch) : Prop where
  cost : ∀ x u, ValidCell sc width mdis x u → s.ccosts (cellIdx sc mdis x u) = cell x u
  base : s.pcosts (cellIdx sc mdis 0 0) = cell 0 0
  step : ∀ x u, 1 ≤ x → ValidCell sc width mdis x u →
    StepOK sc pen width mdis gamma s.ccosts s.pcosts s.pbackt idx0 x u
  last : s.fpath (width - 1) = 0
  back : ∀ x, 0 ≤ x → x < width - 1 →
    s.fpath x = s.pbackt (cellIdx sc mdis x (s.fpath (x + 1)))

/-- The displacement sequences among which the solver chooses: at every column the
displacement lies within `umax*sc`, and adjacent displacements differ by at most `sc`. -/
def Admissible (sc width mdis : Int) (d : Int → Int) : Prop :=
  (∀ x, 0 ≤ x → x < width → |d x| ≤ umaxAt width mdis x * sc) ∧
  (∀ x, 0 ≤ x → x + 1 < width → |d (x + 1) - d x| ≤ sc)

/-- Cost of the first `n+1` columns of a displacement sequence: the cell costs of the
columns `0..n` and the continuity penalties of the `n` steps between them. -/
def prefixCost (cell : Int → Int → ℚ) (gamma pen : ℚ) (d : Int → Int) (n : Nat) : ℚ :=
  ∑ x ∈ Finset.range (n + 1), cell (x : Int) (d (x : Int)) +
  ∑ x ∈ Finset.range n, gamma * ((|d ((x : Int) + 1) - d (x : Int)| : Int) : ℚ) * pen

/-- Total cost of a displacement sequence over a scanline of `width` columns:
`sum_x cell(x,d(x)) + sum_x gamma*|d(x+1)-d(x)|*pen`. -/
def pathCost (cell : Int → Int → ℚ) (gamma pen : ℚ) (width : Int) (d : Int → Int) : ℚ :=
  ∑ x ∈ Finset.range width.toNat, cell (x : Int) (d (x : Int)) +
  ∑ x ∈ Finset.range (width - 1).toNat,
    gamma * ((|d ((x : Int) + 1) - d (x : Int)| : Int) : ℚ) * pen

/-- All four rows hold `unsigned char` values. -/
def RowsU8 (r : Rows) : Prop := IsU8 r.src3p ∧ IsU8 r.src1p ∧ IsU8 r.src1n ∧ IsU8 r.src3n

/-- The bounds checked by the constructor `eedi3::eedi3` on the arguments handed to
`interpLineFP/HP`. -/
def Validated (p : Params) : Prop :=
  0 ≤ p.alpha ∧ p.alpha ≤ 1 ∧ 0 ≤ p.beta ∧ p.beta ≤ 1 ∧ p.alpha + p.beta ≤ 1 ∧ 0 ≤ p.gamma ∧
  0 ≤ p.nrad ∧ p.nrad ≤ 3 ∧ 1 ≤ p.mdis ∧ p.mdis ≤ 40

/-! ## The blend weight of the vcheck pass, by parts -/

/-- The pair `(mdiff0, mdiff1)` of a column that is not skipped. -/
def mdiffsAt (v : VParams) (w : VRows) (x : Int) : Int × Int :=
  let dirc := w.dmapC x
  let vc := |w.dstp x - w.dst1p x| + |w.dstp x - w.dst1n x|
  let t := if v.hp then (if dirc % 2 = 0 then tapsWhole w x (shr dirc 1) else tapsHalf w x dirc)
           else tapsWhole w x dirc
  let it := t.1
  let ib := t.2.1
  let vt := t.2.2.1
  let vb := t.2.2.2
  let d0 := |it - w.dst1p x|
  let d1 := |ib - w.dst1n x|
  let d2 := |vt - vc|
  let d3 := |vb - vc|
  (mdiff v.vcheck d0 d1, mdiff v.vcheck d2 d3)

/-- The value `dircv = hp ? (abs(dirc)>>1) : abs(dirc)`. -/
def dircvOf (hp : Bool) (dirc : Int) : Int := if hp then shr |dirc| 1 else |dirc|

/-- The factor `a2 = max((vthresh2-dircv)/vthresh2,0.0f)`. -/
def a2Of (vthresh2 : ℚ) (dircv : Int) : ℚ := max ((vthresh2 - (dircv : ℚ)) / vthresh2) 0

/-- The factor `a2 = max((vthresh2-dircv)/vthresh2,0.0f)` as the code rounds it: the
conversion of `dircv` to `float`, the difference and the quotient are `float` operations. -/
def a2Float (vthresh2 : ℚ) (dircv : Int) : ℚ :=
  max (toFloat (toFloat (vthresh2 - toFloat (dircv : ℚ)) / vthresh2)) 0

/-! ## Field selection in `eedi3::GetFrame` -/

/-- The variable `field_n` of `GetFrame` for output frame `n`; `n&1` is `n % 2 ≠ 0`. -/
def field_n (field n : Int) : Int :=
  if field > 1 then
    (if n % 2 ≠ 0 then (if field = 3 then 0 else 1) else (if field = 3 then 1 else 0))
  else field

/-- The frame number `field>1?(n>>1):n` that `GetFrame` hands to `copyPad`. -/
def srcFrame (field n : Int) : Int := if field > 1 then shr n 1 else n

/-! ## The constructor `eedi3::eedi3` -/

/-- The errors thrown by the constructor, one per `env->ThrowError` message. -/
inductive CtorError where
  /-- The message "field must be set to -2, -1, 0, 1, 2, or 3!". -/
  | field
  /-- The message "field must be set to -1, 0, or 1 when dh=true!". -/
  | fieldDh
  /-- The message "0 <= alpha <= 1!". -/
  | alpha
  /-- The message "0 <= beta <= 1!". -/
  | beta
  /-- The message "0 <= alpha+beta <= 1!". -/
  | alphaBeta
  /-- The message "0 <= gamma!". -/
  | gamma
  /-- The message "0 <= nrad <= 3!". -/
  | nrad
  /-- The message "1 <= mdis <= 40!". -/
  | mdis
  /-- The message "0 <= vcheck <= 3!". -/
  | vcheck
  /-- The message "0 < vthresh0 , 0 < vthresh1 , 0 < vthresh2!". -/
  | vthresh
  /-- The message "malloc failure!". -/
  | malloc
  /-- The message "sclip doesn't match!". -/
  | sclip
  deriving DecidableEq

/-- The members of `VideoInfo` that the constructor reads or writes; two values of
`colorspace` are equal exactly when `IsSameColorspace` holds. -/
structure VideoInfo where
  width : Int
  height : Int
  num_frames : Int
  colorspace : Int
  deriving DecidableEq

/-- The arguments of the constructor that decide whether it throws: `sclip` is the
`VideoInfo` of the secondary clip (`none` for a null clip), `parity0` is
`child->GetParity(0)`, `mallocOk` tells whether every allocation succeeds. The weights and
thresholds are the values of the `float` members (finite, no NaN). -/
structure CtorArgs where
  field : Int
  dh : Bool
  alpha : ℚ
  beta : ℚ
  gamma : ℚ
  nrad : Int
  mdis : Int
  vcheck : Int
  vthresh0 : ℚ
  vthresh1 : ℚ
  vthresh2 : ℚ
  sclip : Option VideoInfo
  parity0 : Bool
  mallocOk : Bool

/-- The value of `field` after the constructor has resolved `-2` and `-1` by the parity
of the child clip. -/
def resolveField (a : CtorArgs) : Int :=
  if a.field = -2 then (if a.parity0 then 3 else 2)
  else if a.field = -1 then (if a.parity0 then 1 else 0)
  else a.field

/-- The output `VideoInfo`: `num_frames *= 2` when the resolved `field > 1`, then
`height *= 2` when `dh`. -/
def outputInfo (a : CtorArgs) (vi : VideoInfo) : VideoInfo :=
  let vi : VideoInfo :=
    if resolveField a > 1 then { vi with num_frames := vi.num_frames * 2 } else vi
  if a.dh then { vi with height := vi.height * 2 } else vi

/-- The test `sclip && (vi.height != vi2.height || vi.width != vi2.width ||
vi.num_frames != vi2.num_frames || !vi.IsSameColorspace(vi2))` on the output `vi`. -/
def sclipDiffers (sclip : Option VideoInfo) (vi : VideoInfo) : Bool :=
  match sclip with
  | some vi2 =>
    decide (vi.height ≠ vi2.height ∨ vi.width ≠ vi2.width ∨ vi.num_frames ≠ vi2.num_frames ∨
      vi.colorspace ≠ vi2.colorspace)
  | none => false

/-- The constructor `eedi3::eedi3` on a child clip with `VideoInfo` `vi`: the first error
thrown, in the order of the statements, or the resolved `field` and the output
`VideoInfo`. The sum `alpha+beta` is a `float` addition, rounded to binary32 before it is
compared with `1.0f`; the other comparisons are on the members themselves. -/
def eedi3 (a : CtorArgs) (vi : VideoInfo) : Except CtorError (Int × VideoInfo) :=
  if a.field < -2 ∨ a.field > 3 then .error .field
  else if a.dh = true ∧ (a.field < -1 ∨ a.field > 1) then .error .fieldDh
  else if a.alpha < 0 ∨ a.alpha > 1 then .error .alpha
  else if a.beta < 0 ∨ a.beta > 1 then .error .beta
  else if toFloat (a.alpha + a.beta) > 1 then .error .alphaBeta
  else if a.gamma < 0 then .error .gamma
  else if a.nrad < 0 ∨ a.nrad > 3 then .error .nrad
  else if a.mdis < 1 ∨ a.mdis > 40 then .error .mdis
  else if a.vcheck < 0 ∨ a.vcheck > 3 then .error .vcheck
  else if a.vcheck > 0 ∧ (a.vthresh0 ≤ 0 ∨ a.vthresh1 ≤ 0 ∨ a.vthresh2 ≤ 0) then .error .vthresh
  else if a.mallocOk = false then .error .malloc
  else if a.vcheck > 0 ∧ sclipDiffers a.sclip (outputInfo a vi) = true then .error .sclip
  else .ok (resolveField a, outputInfo a vi)

deriving instance DecidableEq for Except

/-- The bounds on `alpha`, `beta`, `gamma`, `nrad`, `mdis`, `vcheck` and, when
`vcheck > 0`, on the three thresholds. -/
def BoundsHold (a : CtorArgs) : Prop :=
  0 ≤ a.alpha ∧ a.alpha ≤ 1 ∧ 0 ≤ a.beta ∧ a.beta ≤ 1 ∧ a.alpha + a.beta ≤ 1 ∧ 0 ≤ a.gamma ∧
  0 ≤ a.nrad ∧ a.nrad ≤ 3 ∧ 1 ≤ a.mdis ∧ a.mdis ≤ 40 ∧ 0 ≤ a.vcheck ∧ a.vcheck ≤ 3 ∧
  (a.vcheck > 0 → 0 < a.vthresh0 ∧ 0 < a.vthresh1 ∧ 0 < a.vthresh2)

/-- The bounds of `BoundsHold` with the bound on the sum relaxed to
`alpha+beta ≤ 1 + 2^-24`: a sum up to the midpoint between `1` and the next `float` is
rounded to `1.0f`. -/
def EnforcedBounds (a : CtorArgs) : Prop :=
  0 ≤ a.alpha ∧ a.alpha ≤ 1 ∧ 0 ≤ a.beta ∧ a.beta ≤ 1 ∧ a.alpha + a.beta ≤ 1 + 1 / 2 ^ 24 ∧
  0 ≤ a.gamma ∧ 0 ≤ a.nrad ∧ a.nrad ≤ 3 ∧ 1 ≤ a.mdis ∧ a.mdis ≤ 40 ∧ 0 ≤ a.vcheck ∧
  a.vcheck ≤ 3 ∧ (a.vcheck > 0 → 0 < a.vthresh0 ∧ 0 < a.vthresh1 ∧ 0 < a.vthresh2)

/-- The errors thrown by the checks of `alpha`, `beta`, `gamma`, `nrad`, `mdis`, `vcheck`
and the thresholds. -/
def CtorError.isParam (e : CtorError) : Prop :=
  e = .alpha ∨ e = .beta ∨ e = .alphaBeta ∨ e = .gamma ∨ e = .nrad ∨ e = .mdis ∨
  e = .vcheck ∨ e = .vthresh

/-! ## Planes, `copyPad` and the plane loop of `GetFrame` -/

/-- A plane addressed from its first byte: `pl y x` is the byte in row `y`, column `x`. -/
abbrev Plane := Int → Int → Int

/-- The loop `for (int y=lo; y<hi; y+=2) body` as a fold over the state: iteration `k`
runs the body at `y = lo + 2*k`. -/
def forUpBy2 {σ : Type} (lo hi : Int) (body : Int → σ → σ) (init : σ) : σ :=
  forUp 0 ((hi - 1 - lo) / 2) (fun k st => body (lo + 2 * k) st) init

/-- Modelled from the spec: the host call `env->BitBlt(dstp, dst_pitch, srcp, src_pitch,
row_size, height)`, whose body is not part of the sources, is the row copy by which "known,
unchanged rows are copied through untouched". Here `dstp` is row `dy`, column `dx` of `dst`,
`srcp` is row `sy`, column `sx` of `src`, the pitches are `dstep` and `sstep` rows, and row
`j` of the copy moves `row_size` bytes. -/
def bitBlt (dst : Plane) (dy dx dstep : Int) (src : Plane) (sy sx sstep : Int)
    (row_size height : Int) : Plane :=
  forUp 0 (height - 1) (fun j d =>
    Function.update d (dy + dstep * j) (fun x =>
      if dx ≤ x ∧ x < dx + row_size then src (sy + sstep * j) (sx + (x - dx))
      else d (dy + dstep * j) x)) dst

/-- The function `copyPad` on one plane of a YV12 clip (the branch that fills `srcPF` with
`BitBlt`): `src` is the plane of the child's frame, of `rowSize` bytes by `srcHeight` rows,
`srcPF` the padded plane on entry, of `width` by `height`. -/
def copyPad (dh : Bool) (fn : Int) (src : Plane) (rowSize srcHeight width height : Int)
    (srcPF : Plane) : Plane :=
  let off := 1 - fn
  let s1 :=
    if !dh then bitBlt srcPF (4 + off) 12 2 src off 0 2 rowSize (shr srcHeight 1)
    else bitBlt srcPF (4 + off) 12 2 src 0 0 1 rowSize srcHeight
  let s2 := forUpBy2 (4 + off) (height - 4) (fun y s =>
    let row := forUp 0 11 (fun x (rw : Row) => Function.update rw x (rw (24 - x))) (s y)
    let row := (forUp (width - 12) (width - 1) (fun x (rc : Row × Int) =>
      (Function.update rc.1 x (rc.1 (x - rc.2)), rc.2 + 2)) (row, 2)).1
    Function.update s y row) s1
  let s3 := forUpBy2 off 4 (fun y s => bitBlt s y 0 1 s (8 - y) 0 1 width 1) s2
  (forUpBy2 (height - 4 + off) height (fun y (sc : Plane × Int) =>
    (bitBlt sc.1 y 0 1 sc.1 (y - sc.2) 0 1 width 1, sc.2 + 4)) (s3, 2 + 2 * off)).1

/-- The plane `b` of `dstPF` and the displacement maps `dmapa`: `dmapa k` is the row
`dmapa + k*dpitch`. -/
structure PlaneState where
  dst : Plane
  dmapa : Int → Int → Int

/-- What the worker of padded row `y` finds in its scratch buffer on entry: the tables seen
by `interpLineFP/HP`, the bytes seen through `hp3p`, and the bytes seen through `tline`. -/
structure Workspace where
  temp : Int → Scratch
  mem : Int → Row
  tline : Int → Row

/-- The rows `srcp-3*spitch`, `srcp-spitch`, `srcp+spitch`, `srcp+3*spitch` around column 12
of the padded row `y` of `srcPF`. -/
def rowsAt (srcPF : Plane) (y : Int) : Rows :=
  ⟨fun i => srcPF (y - 3) (12 + i), fun i => srcPF (y - 1) (12 + i),
    fun i => srcPF (y + 1) (12 + i), fun i => srcPF (y + 3) (12 + i)⟩

/-- The call made by the body of the reconstruction loop of `GetFrame` at padded row `y`:
with `off = (y-4-field_n)>>1` it runs `interpLineHP` or `interpLineFP` around the padded
row `4+field_n+off*2`; `out` is what the rows `dstp+off*2*dpitch` and `dmapa+off*dpitch`
hold on entry. -/
def interpRow (p : Params) (hp : Bool) (srcPF : Plane) (width fn : Int) (ws : Workspace)
    (y : Int) (out : Output) : Output :=
  let off := shr (y - 4 - fn) 1
  if hp then
    interpLineHP (rowsAt srcPF (4 + fn + off * 2)) (ws.mem y) (width - 24) p (ws.temp y) out
  else interpLineFP (rowsAt srcPF (4 + fn + off * 2)) (width - 24) p (ws.temp y) out

/-- The body of the reconstruction loop of `GetFrame` at padded row `y`: the call writes
the row `field_n+off*2` of `dstPF` and the row `off` of `dmapa`. -/
def reconstructRow (p : Params) (hp : Bool) (srcPF : Plane) (width fn : Int) (ws : Workspace)
    (y : Int) (st : PlaneState) : PlaneState :=
  let off := shr (y - 4 - fn) 1
  let o := interpRow p hp srcPF width fn ws y ⟨st.dst (fn + off * 2), st.dmapa off⟩
  { dst := Function.update st.dst (fn + off * 2) o.dstp
    dmapa := Function.update st.dmapa off o.dmap }

/-- The padded rows `y` iterated by the loops `for (int y=4+field_n; y<height-4; y+=2)`:
the rows that are reconstructed. -/
def LoopRow (height fn y : Int) : Prop := 4 + fn ≤ y ∧ y < height - 4 ∧ (y - (4 + fn)) % 2 = 0

instance (height fn y : Int) : Decidable (LoopRow height fn y) := by
  unfold LoopRow; infer_instance

/-- The reconstruction loop `for (int y=4+field_n; y<height-4; y+=2)` of `GetFrame`. -/
def reconstructRows (p : Params) (hp : Bool) (srcPF : Plane) (width height fn : Int)
    (ws : Workspace) (st : PlaneState) : PlaneState :=
  forUpBy2 (4 + fn) (height - 4) (reconstructRow p hp srcPF width fn ws) st

/-- The neighbourhood seen by the vcheck pass at padded row `y`, which is row `y-4` of
`dstPF` and, the loop having advanced `dstpd` once per iteration, row `(y-4-field_n)/2` of
`dmapa`. -/
def checkRowsAt (srcPF : Plane) (scpPF : Option Plane) (fn y : Int) (st : PlaneState) : VRows :=
  { dst3p := fun i => srcPF (y - 3) (12 + i)
    dst2p := st.dst (y - 4 - 2)
    dst1p := st.dst (y - 4 - 1)
    dstp := st.dst (y - 4)
    dst1n := st.dst (y - 4 + 1)
    dst2n := st.dst (y - 4 + 2)
    dst3n := fun i => srcPF (y + 3) (12 + i)
    scpp := scpPF.map (fun s => s (y - 4))
    dmapT := st.dmapa ((y - 4 - fn) / 2 - 1)
    dmapC := st.dmapa ((y - 4 - fn) / 2)
    dmapB := st.dmapa ((y - 4 - fn) / 2 + 1) }

/-- The body of the vcheck loop of `GetFrame` at padded row `y`. -/
def vcheckStep (v : VParams) (srcPF : Plane) (scpPF : Option Plane) (width height fn : Int)
    (ws : Workspace) (y : Int) (st : PlaneState) : PlaneState :=
  if y ≥ 6 ∧ y < height - 6 then
    let row := vcheckRowFloat v (checkRowsAt srcPF scpPF fn y st) (width - 24) (ws.tline y)
    { st with dst := Function.update st.dst (y - 4) row }
  else st

/-- The vcheck loop `for (int y=4+field_n; y<height-4; y+=2)` of `GetFrame`. -/
def vcheckRows (v : VParams) (srcPF : Plane) (scpPF : Option Plane) (width height fn : Int)
    (ws : Workspace) (st : PlaneState) : PlaneState :=
  forUpBy2 (4 + fn) (height - 4) (vcheckStep v srcPF scpPF width height fn ws) st

/-- The body of the plane loop of `GetFrame` for a processed plane: `srcPF` is the padded
plane of `width` by `height`, `scpPF` the plane of the secondary clip (`none` without
`sclip`), `st` what `dstPF` and `dmapa` hold on entry. -/
def getFramePlane (p : Params) (v : VParams) (srcPF : Plane) (scpPF : Option Plane)
    (width height fn : Int) (ws : Workspace) (st : PlaneState) : PlaneState :=
  let known := bitBlt st.dst (1 - fn) 0 2 srcPF (4 + 1 - fn) 12 2 (width - 24) (shr (height - 8) 1)
  let st1 : PlaneState := { st with dst := known }
  let st2 := reconstructRows p v.hp srcPF width height fn ws st1
  if v.vcheck > 0 then vcheckRows v srcPF scpPF width height fn ws st2 else st2

/-! ## The `cost3` fallback in the words of the specification -/

/-- The fallback rule of the specification for the alternate sums, `none` standing for a
sum that was not computed: `s1` falls back to `s2`, then to `s0`; `s2` falls back to `s1`,
then to `s0`, each looking at the other sum as it was computed
(`o.getD d` is the value of `o` when there is one, else `d`). -/
def fallbackSpec (s0 : Int) (s1 s2 : Option Int) : Int × Int :=
  (s1.getD (s2.getD s0), s2.getD (s1.getD s0))

/-- The cost of `interpLineFP` in `cost3` mode with the alternate sums resolved by
`fallbackSpec`: `alpha*(s0+s1'+s2')*0.333333 + beta*|u| + (1-alpha-beta)*v`. -/
def ccost3SpecFP (p : Params) (r : Rows) (width x u : Int) : ℚ :=
  let s0 := sad r p.nrad (x + u) (x - u)
  let s1 : Option Int := if s1CondFP width x u then some (sad r p.nrad x (x - u * 2)) else none
  let s2 : Option Int := if s2CondFP width x u then some (sad r p.nrad (x + u * 2) x) else none
  let f := fallbackSpec s0 s1 s2
  let ip := shr (r.src1p (x + u) + r.src1n (x - u) + 1) 1
  let v := |r.src1p x - ip| + |r.src1n x - ip|
  p.alpha * ((s0 + f.1 + f.2 : Int) : ℚ) * 0.333333 + p.beta * ((|u| : Int) : ℚ)
    + (1 - p.alpha - p.beta) * (v : ℚ)

/-- The cost of `interpLineHP` in `cost3` mode with the alternate sums resolved by
`fallbackSpec`. -/
def ccost3SpecHP (p : Params) (r h : Rows) (width x u : Int) : ℚ :=
  let u2 := shr u 1
  let s0 := if u % 2 = 0 then sad r p.nrad (x + u2) (x - u2)
            else sad h p.nrad (x + u2) (x - u2 - 1)
  let ip := if u % 2 = 0 then shr (r.src1p (x + u2) + r.src1n (x - u2) + 1) 1
            else shr (h.src1p (x + u2) + h.src1n (x - u2 - 1) + 1) 1
  let s1 : Option Int := if s1CondHP width x u then some (sad r p.nrad x (x - u)) else none
  let s2 : Option Int := if s2CondHP width x u then some (sad r p.nrad (x + u) x) else none
  let f := fallbackSpec s0 s1 s2
  let v := |r.src1p x - ip| + |r.src1n x - ip|
  p.alpha * ((s0 + f.1 + f.2 : Int) : ℚ) * 0.333333 + p.beta * ((|u| : Int) : ℚ) * 0.5
    + (1 - p.alpha - p.beta) * (v : ℚ)

/-! ## The layout of the scratch buffer -/

/-- The offsets, in 4-byte elements from `temp`, of the pointers `ccosts`, `pcosts`,
`pbackt` and `fpath` set up by `interpLineFP/HP`. -/
structure TempLayout where
  ccosts : Int
  pcosts : Int
  pbackt : Int
  fpath : Int

/-- The pointers `ccosts = temp`, `pcosts = ccosts+width*tpitch`,
`pbackt = pcosts+width*tpitch`, `fpath = pbackt+width*tpitch`. -/
def tempLayout (width tpitch : Int) : TempLayout :=
  { ccosts := 0
    pcosts := 0 + width * tpitch
    pbackt := 0 + width * tpitch + width * tpitch
    fpath := 0 + width * tpitch + width * tpitch + width * tpitch }

/-- The number of `float` elements of `workspace[i]`, allocated by the constructor as
`vi.width*max(mdis*4+1,16)*4*sizeof(float)` bytes. -/
def workspaceFloats (viWidth mdis : Int) : Int := viWidth * max (mdis * 4 + 1) 16 * 4

/-! ## The parts of `copyPad`, and the cubic of the known samples -/

/-- The padded plane as `copyPad` has it before its vertical padding: the image rows
filled by the first `BitBlt` and padded to the left and to the right. -/
def copyPadRows (dh : Bool) (fn : Int) (src : Plane) (rowSize srcHeight width height : Int)
    (srcPF : Plane) : Plane :=
  let off := 1 - fn
  let s1 :=
    if !dh then bitBlt srcPF (4 + off) 12 2 src off 0 2 rowSize (shr srcHeight 1)
    else bitBlt srcPF (4 + off) 12 2 src 0 0 1 rowSize srcHeight
  forUpBy2 (4 + off) (height - 4) (fun y s =>
    let row := forUp 0 11 (fun x (rw : Row) => Function.update rw x (rw (24 - x))) (s y)
    let row := (forUp (width - 12) (width - 1) (fun x (rc : Row × Int) =>
      (Function.update rc.1 x (rc.1 (x - rc.2)), rc.2 + 2)) (row, 2)).1
    Function.update s y row) s1

/-- The row of `copyPadRows` that the vertical padding of `copyPad` leaves in row `y`, in
the words of the specification: a top padding row `off` or `off+2` holds the reflection
`8-y` about row 4, a bottom padding row `height-4+off` or `height-2+off` holds what the
reflection `2*(height-5)-y` about row `height-5` held after the top padding, every other
row holds itself. -/
def padSource (off height y : Int) : Int :=
  let top := fun z : Int => if z = off ∨ z = off + 2 then 8 - z else z
  if y = height - 4 + off ∨ y = height - 2 + off then top (2 * (height - 5) - y) else top y

/-- The cubic `min(max((36*(b+c)-4*(a+d)+32)>>6,0),255)` of the four known samples around
column `x` of the padded row `y`. -/
def cubicAt (srcPF : Plane) (y x : Int) : Int :=
  clamp255 (shr (36 * (srcPF (y - 1) (12 + x) + srcPF (y + 1) (12 + x))
    - 4 * (srcPF (y - 3) (12 + x) + srcPF (y + 3) (12 + x)) + 32) 6)

/-! ## The vertical flip of the reference rows -/

/-- The rows above the gap exchanged with the rows below it: `src3p` with `src3n` and
`src1p` with `src1n`. -/
def flipRows (r : Rows) : Rows := ⟨r.src3n, r.src1n, r.src1p, r.src3p⟩

/-! ## Concrete inputs -/

/-- Four rows that hold the sample `k` at every offset, padding included. -/
def flatRows (k : Int) : Rows := ⟨fun _ => k, fun _ => k, fun _ => k, fun _ => k⟩

/-- A row with a step edge: `0` left of column `e`, `255` from column `e` on, padding
included. -/
def stepRow (e : Int) : Row := fun i => if i ≥ e then 255 else 0

/-- The rows at `-3, -1, +1, +3` around a missing row crossed at column `e` by an edge that
moves one column per row: their first `255` sample is at `e-3`, `e-1`, `e+1`, `e+3`. -/
def diagRows (e : Int) : Rows := ⟨stepRow (e - 3), stepRow (e - 1), stepRow (e + 1), stepRow (e + 3)⟩

/-- A scratch buffer holding zeros. -/
def zeroScratch : Scratch := ⟨fun _ => 0, fun _ => 0, fun _ => 0, fun _ => 0, 0⟩

/-- Output rows holding zeros. -/
def zeroOutput : Output := ⟨fun _ => 0, fun _ => 0⟩

/-- Parameters with `alpha = beta = gamma = 0`. -/
def zeroWeights (nrad mdis : Int) (ucubic cost3 : Bool) : Params :=
  { alpha := 0, beta := 0, gamma := 0, nrad := nrad, mdis := mdis, ucubic := ucubic,
    cost3 := cost3 }

/-- The weights `alpha = 0.2`, `beta = 0.25`, `gamma = 20` that `Create_eedi3` uses by
default. -/
def defaultWeights (nrad mdis : Int) (ucubic cost3 : Bool) : Params :=
  { alpha := 0.2, beta := 0.25, gamma := 20, nrad := nrad, mdis := mdis, ucubic := ucubic,
    cost3 := cost3 }

/-- Known rows `0, 100, 100, 0` above and below a missing row. -/
def peakRows : Rows := ⟨fun _ => 0, fun _ => 100, fun _ => 100, fun _ => 0⟩

/-- The default thresholds `vthresh0 = 32`, `vthresh1 = 64`, `vthresh2 = 4` of
`Create_eedi3`. -/
def defaultThresholds (vcheck : Int) (hp : Bool) : VParams :=
  { vcheck := vcheck, vthresh0 := 32, vthresh1 := 64, vthresh2 := 4, hp := hp }

/-- The neighbourhood of a checked row between the known rows `peakRows`: the row itself
is what `interpLineFP` writes for displacement `0` without `ucubic`, the reconstructed
rows two above and below hold the same value, all three displacement-map rows hold `d`,
and the secondary clip row is `scpp`. -/
def peakCheck (scpp : Option Row) (d : Int) : VRows :=
  { dst3p := peakRows.src3p
    dst2p := fun x => interpPixelFP false peakRows 16 x 0
    dst1p := peakRows.src1p
    dstp := fun x => interpPixelFP false peakRows 16 x 0
    dst1n := peakRows.src1n
    dst2n := fun x => interpPixelFP false peakRows 16 x 0
    dst3n := peakRows.src3n
    scpp := scpp
    dmapT := fun _ => d
    dmapC := fun _ => d
    dmapB := fun _ => d }

/-- Rows crossed by an edge that moves half a column per row: first `255` samples at
`e-2`, `e-1`, `e`, `e+1`. -/
def halfDiagRows (e : Int) : Rows := ⟨stepRow (e - 2), stepRow (e - 1), stepRow e, stepRow (e + 1)⟩

/-- A `VideoInfo` of 720 by 480 with 100 frames. -/
def sampleInfo : VideoInfo := ⟨720, 480, 100, 0⟩

/-- The arguments `field = 1`, `dh = false` and the defaults of `Create_eedi3` for `beta`,
`gamma`, `nrad`, `mdis` and the thresholds, with the given `alpha`, `vcheck`, secondary
clip and allocation outcome. -/
def sampleArgs (alpha : ℚ) (vcheck : Int) (sclip : Option VideoInfo) (mallocOk : Bool) :
    CtorArgs :=
  { field := 1, dh := false, alpha := alpha, beta := 0.25, gamma := 20, nrad := 2, mdis := 20,
    vcheck := vcheck, vthresh0 := 32, vthresh1 := 64, vthresh2 := 4, sclip := sclip,
    parity0 := false, mallocOk := mallocOk }

/-- The arguments `sampleArgs` with `alpha = 0.5f` and `beta = 0.5f + 2^-24`, the `float`
next above `0.5f`; no secondary clip, `vcheck = 0`, every allocation succeeds. -/
def edgeArgs : CtorArgs :=
  { sampleArgs (1 / 2) 0 none true with beta := 1 / 2 + 1 / 2 ^ 24 }

/-- The neighbourhood `peakCheck` with displacement-map rows `dt`, `dc`, `db` above, at and
below the checked row; each reconstructed row is what `interpLineFP` writes for its
displacement without `ucubic`. -/
def peakNeighbours (scpp : Option Row) (dt dc db : Int) : VRows :=
  { dst3p := peakRows.src3p
    dst2p := fun x => interpPixelFP false peakRows 16 x dt
    dst1p := peakRows.src1p
    dstp := fun x => interpPixelFP false peakRows 16 x dc
    dst1n := peakRows.src1n
    dst2n := fun x => interpPixelFP false peakRows 16 x db
    dst3n := peakRows.src3n
    scpp := scpp
    dmapT := fun _ => dt
    dmapC := fun _ => dc
    dmapB := fun _ => db }

/-- The thresholds `vthresh0 = 32`, `vthresh1 = 64`, `vthresh2 = 3` with the policy
`vcheck = 2` in full-pixel mode. -/
def thirdThresholds : VParams :=
  { vcheck := 2, vthresh0 := 32, vthresh1 := 64, vthresh2 := 3, hp := false }

/-- The neighbourhood of a checked row in a flat area: the seven rows hold `k` at every
offset, the three displacement-map rows hold `d`, and there is no secondary clip. -/
def flatCheck (k d : Int) : VRows :=
  { dst3p := fun _ => k
    dst2p := fun _ => k
    dst1p := fun _ => k
    dstp := fun _ => k
    dst1n := fun _ => k
    dst2n := fun _ => k
    dst3n := fun _ => k
    scpp := none
    dmapT := fun _ => d
    dmapC := fun _ => d
    dmapB := fun _ => d }

/-- The neighbourhood of a checked row in an area that varies along the line: the seven
rows hold small periodic patterns around `100`, the three displacement-map rows hold `d`,
and there is no secondary clip. -/
def wavyCheck (d : Int) : VRows :=
  { dst3p := fun i => 100 + (3 * i) % 7
    dst2p := fun i => 98 + (5 * i) % 11
    dst1p := fun i => 104 + (2 * i) % 5
    dstp := fun i => 110 + (7 * i) % 13
    dst1n := fun i => 99 + (4 * i) % 9
    dst2n := fun i => 103 + (6 * i) % 7
    dst3n := fun i => 97 + i % 6
    scpp := none
    dmapT := fun _ => d
    dmapC := fun _ => d
    dmapB := fun _ => d }

/-- A plane holding `(16*y + x) mod 256` at row `y`, column `x`. -/
def rampPlane : Plane := fun y x => (16 * y + x) % 256

/-- Scratch buffers holding zeros. -/
def zeroWorkspace : Workspace := ⟨fun _ => zeroScratch, fun _ _ => 0, fun _ _ => 0⟩

/-- An output plane and displacement maps holding zeros. -/
def zeroPlanes : PlaneState := ⟨fun _ _ => 0, fun _ _ => 0⟩

/-! # Theorems -/

/-! ## Loops -/

theorem foldl_range_inv {σ : Type} (g : Nat → σ → σ) (P : Nat → σ → Prop) (n : Nat) (init : σ)
    (h0 : P 0 init) (hs : ∀ k s, k < n → P k s → P (k + 1) (g k s)) :
    P n ((List.range n).foldl (fun st k => g k st) init) := by
  induction n with
  | zero => simpa using h0
  | succ m ih =>
    rw [List.range_succ, List.foldl_append]
    simp only [List.foldl_cons, List.foldl_nil]
    exact hs m _ (Nat.lt_succ_self m) (ih (fun k s hk => hs k s (Nat.lt_succ_of_lt hk)))

/-- Invariant rule for an upward loop: `P i s` holds of the state `s` before iteration `i`. -/
theorem forUp_inv {σ : Type} (lo hi : Int) (body : Int → σ → σ) (init : σ)
    (P : Int → σ → Prop) (hle : lo ≤ hi + 1) (h0 : P lo init)
    (hs : ∀ i s, lo ≤ i → i ≤ hi → P i s → P (i + 1) (body i s)) :
    P (hi + 1) (forUp lo hi body init) := by
  have key := foldl_range_inv (fun k st => body (lo + (k : Int)) st)
    (fun k s => P (lo + (k : Int)) s) (hi + 1 - lo).toNat init (by simpa using h0)
    (by
      intro k s hk hP
      have hk2 : (k : Int) < hi + 1 - lo := by omega
      have := hs (lo + k) s (by omega) (by omega) hP
      simpa [add_assoc] using this)
  have e : lo + ((hi + 1 - lo).toNat : Int) = hi + 1 := by omega
  dsimp only at key
  rw [e] at key
  exact key

theorem forUp_of_lt {σ : Type} (lo hi : Int) (body : Int → σ → σ) (init : σ) (h : hi < lo) :
    forUp lo hi body init = init := by
  have : (hi + 1 - lo).toNat = 0 := by omega
  simp [forUp, this]

/-- Invariant rule for a downward loop: `P i s` holds of the state `s` before iteration `i`. -/
theorem forDown_inv {σ : Type} (hi lo : Int) (body : Int → σ → σ) (init : σ)
    (P : Int → σ → Prop) (hle : lo ≤ hi + 1) (h0 : P hi init)
    (hs : ∀ i s, lo ≤ i → i ≤ hi → P i s → P (i - 1) (body i s)) :
    P (lo - 1) (forDown hi lo body init) := by
  have key := foldl_range_inv (fun k st => body (hi - (k : Int)) st)
    (fun k s => P (hi - (k : Int)) s) (hi + 1 - lo).toNat init (by simpa using h0)
    (by
      intro k s hk hP
      have hk2 : (k : Int) < hi + 1 - lo := by omega
      have := hs (hi - k) s (by omega) (by omega) hP
      have e : hi - ((k + 1 : Nat) : Int) = hi - (k : Int) - 1 := by push_cast; ring
      rw [e]; exact this)
  have e : hi - ((hi + 1 - lo).toNat : Int) = lo - 1 := by omega
  dsimp only at key
  rw [e] at key
  exact key

theorem forDown_of_lt {σ : Type} (hi lo : Int) (body : Int → σ → σ) (init : σ) (h : hi < lo) :
    forDown hi lo body init = init := by
  have : (hi + 1 - lo).toNat = 0 := by omega
  simp [forDown, this]

/-- Two loop bodies that agree on the iterated range give the same loop. -/
theorem forUp_congr {σ : Type} (lo hi : Int) (body body2 : Int → σ → σ) (init : σ)
    (h : ∀ i s, lo ≤ i → i ≤ hi → body i s = body2 i s) :
    forUp lo hi body init = forUp lo hi body2 init := by
  unfold forUp
  apply List.foldl_ext
  intro s n hn
  have hn2 : n < (hi + 1 - lo).toNat := List.mem_range.mp hn
  exact h _ s (by omega) (by omega)

/-! ## The innermost loop -/

theorem satur_le (y : ℚ) : satur y ≤ y := min_le_left _ _

theorem satur_lt_FLT_MAX (y : ℚ) : satur y < FLT_MAX := by
  unfold satur
  refine lt_of_le_of_lt (min_le_right _ _) ?_
  unfold FLT_MAX
  norm_num

theorem satur_of_le (y : ℚ) (h : y ≤ FLT_MAX * 0.9) : satur y = y := min_eq_left h

theorem satur_mono {a b : ℚ} (h : a ≤ b) : satur a ≤ satur b := min_le_min_right _ h

/-- What the scan of the predecessors returns on a non-empty range: the index lies in the
range, the value is that of the index, it is minimal, and it is the first minimum. -/
theorem bestPred_spec (ppT : Int → ℚ) (gamma pen : ℚ) (off u lo hi idx0 : Int) (h : lo ≤ hi) :
    lo ≤ (bestPred ppT gamma pen off u lo hi idx0).2 ∧
    (bestPred ppT gamma pen off u lo hi idx0).2 ≤ hi ∧
    (bestPred ppT gamma pen off u lo hi idx0).1 =
      candCost ppT gamma pen off u (bestPred ppT gamma pen off u lo hi idx0).2 ∧
    (∀ v, lo ≤ v → v ≤ hi →
      (bestPred ppT gamma pen off u lo hi idx0).1 ≤ candCost ppT gamma pen off u v) ∧
    (∀ v, lo ≤ v → v < (bestPred ppT gamma pen off u lo hi idx0).2 →
      (bestPred ppT gamma pen off u lo hi idx0).1 < candCost ppT gamma pen off u v) := by
  have key := forUp_inv lo hi (fun v (b : ℚ × Int) =>
      let y := ppT (off + v) + gamma * ((|u - v| : Int) : ℚ) * pen
      let ccost := satur y
      if ccost < b.1 then (ccost, v) else b) (FLT_MAX, idx0)
    (fun i b => (i = lo ∧ b = (FLT_MAX, idx0)) ∨
      (lo ≤ b.2 ∧ b.2 < i ∧ b.1 = candCost ppT gamma pen off u b.2 ∧
        (∀ v, lo ≤ v → v < i → b.1 ≤ candCost ppT gamma pen off u v) ∧
        (∀ v, lo ≤ v → v < b.2 → b.1 < candCost ppT gamma pen off u v)))
    (by omega) (Or.inl ⟨rfl, rfl⟩)
    (by
      intro i b hlo hhi hP
      right
      dsimp only
      rcases hP with ⟨hi0, hb⟩ | ⟨h1, h2, h3, h4, h5⟩
      · subst hb
        rw [if_pos (satur_lt_FLT_MAX _)]
        refine ⟨by simp [hi0], by simp, rfl, ?_, ?_⟩
        · intro v hv1 hv2
          have : v = i := by omega
          subst this
          exact le_refl _
        · intro v hv1 hv2
          simp only at hv2
          omega
      · by_cases hc : satur (ppT (off + i) + gamma * ((|u - i| : Int) : ℚ) * pen) < b.1
        · rw [if_pos hc]
          refine ⟨hlo, by simp, rfl, ?_, ?_⟩
          · intro v hv1 hv2
            by_cases hvi : v = i
            · subst hvi; exact le_refl _
            · exact le_of_lt (lt_of_lt_of_le hc (h4 v hv1 (by omega)))
          · intro v hv1 hv2
            exact lt_of_lt_of_le hc (h4 v hv1 hv2)
        · rw [if_neg hc]
          refine ⟨h1, by omega, h3, ?_, h5⟩
          intro v hv1 hv2
          by_cases hvi : v = i
          · subst hvi; exact not_lt.mp hc
          · exact h4 v hv1 (by omega))
  rcases key with ⟨hbad, _⟩ | ⟨h1, h2, h3, h4, h5⟩
  · omega
  · exact ⟨h1, by unfold bestPred; omega, h3, fun v a b => h4 v a (by omega), h5⟩

/-- The scan of the predecessors reads `ppT` at `off+lo .. off+hi` only. -/
theorem bestPred_congr (ppT ppT2 : Int → ℚ) (gamma pen : ℚ) (off u lo hi idx0 : Int)
    (h : ∀ v, lo ≤ v → v ≤ hi → ppT (off + v) = ppT2 (off + v)) :
    bestPred ppT gamma pen off u lo hi idx0 = bestPred ppT2 gamma pen off u lo hi idx0 := by
  unfold bestPred
  apply forUp_congr
  intro i s h1 h2
  rw [h i h1 h2]

/-! ## Flat indices -/

theorem cellIdx_inj (sc mdis x u x2 u2 : Int) (hsc : sc = 1 ∨ sc = 2)
    (hu : -(mdis * sc) ≤ u ∧ u ≤ mdis * sc) (hu2 : -(mdis * sc) ≤ u2 ∧ u2 ≤ mdis * sc)
    (h : cellIdx sc mdis x u = cellIdx sc mdis x2 u2) : x = x2 ∧ u = u2 := by
  unfold cellIdx at h
  have hx : x = x2 := by
    rcases hsc with rfl | rfl <;>
    · rcases lt_trichotomy x x2 with h1 | h1 | h1
      · nlinarith
      · exact h1
      · nlinarith
  subst hx
  exact ⟨rfl, by omega⟩

theorem ValidCell.bound {sc width mdis x u : Int} (h : ValidCell sc width mdis x u)
    (hsc : sc = 1 ∨ sc = 2) : -(mdis * sc) ≤ u ∧ u ≤ mdis * sc := by
  unfold ValidCell umaxAt at h
  rcases hsc with rfl | rfl <;> omega

/-- The flat index of a cell of the trellis lies inside a table of `width*tpitch` entries. -/
theorem cellIdx_range (sc mdis width x u : Int) (hsc : sc = 1 ∨ sc = 2)
    (hv : ValidCell sc width mdis x u) :
    0 ≤ cellIdx sc mdis x u ∧ cellIdx sc mdis x u < width * (mdis * 2 * sc + 1) := by
  have hb := hv.bound hsc
  obtain ⟨h0, h1, -, -⟩ := hv
  unfold cellIdx
  have hM : 0 ≤ mdis * sc := by omega
  have e : mdis * 2 * sc = 2 * (mdis * sc) := by ring
  rw [e]
  constructor
  · have := mul_nonneg h0 (by omega : (0 : Int) ≤ 2 * (mdis * sc) + 1)
    omega
  · have : (x + 1) * (2 * (mdis * sc) + 1) ≤ width * (2 * (mdis * sc) + 1) :=
      mul_le_mul_of_nonneg_right (by omega) (by omega)
    have e2 : (x + 1) * (2 * (mdis * sc) + 1)
        = x * (2 * (mdis * sc) + 1) + (2 * (mdis * sc) + 1) := by ring
    omega

theorem cellIdx_ne (sc mdis width x u x2 u2 : Int) (hsc : sc = 1 ∨ sc = 2)
    (hu : ValidCell sc width mdis x u) (hu2 : ValidCell sc width mdis x2 u2)
    (h : x ≠ x2 ∨ u ≠ u2) : cellIdx sc mdis x u ≠ cellIdx sc mdis x2 u2 := by
  intro e
  have := cellIdx_inj sc mdis x u x2 u2 hsc (hu.bound hsc) (hu2.bound hsc) e
  omega

/-- Invariant rule for a loop nest: `P` is the invariant of the outer loop, `Q x` that of
the inner loop run for the outer index `x`. -/
theorem forUp2_inv {σ : Type} (lo hi : Int) (ilo ihi : Int → Int) (body : Int → Int → σ → σ)
    (init : σ) (P : Int → σ → Prop) (Q : Int → Int → σ → Prop)
    (hle : lo ≤ hi + 1) (h0 : P lo init)
    (hin : ∀ x, lo ≤ x → x ≤ hi → ilo x ≤ ihi x + 1)
    (hstart : ∀ x s, lo ≤ x → x ≤ hi → P x s → Q x (ilo x) s)
    (hstep : ∀ x u s, lo ≤ x → x ≤ hi → ilo x ≤ u → u ≤ ihi x → Q x u s →
      Q x (u + 1) (body x u s))
    (hend : ∀ x s, lo ≤ x → x ≤ hi → Q x (ihi x + 1) s → P (x + 1) s) :
    P (hi + 1) (forUp lo hi (fun x s => forUp (ilo x) (ihi x) (body x) s) init) := by
  apply forUp_inv lo hi _ init P hle h0
  intro x s hx1 hx2 hP
  apply hend x _ hx1 hx2
  exact forUp_inv (ilo x) (ihi x) (body x) s (Q x) (hin x hx1 hx2) (hstart x s hx1 hx2 hP)
    (fun u t hu1 hu2 hQ => hstep x u t hx1 hx2 hu1 hu2 hQ)

/-! ## The cost table -/

/-- After "calculate all connection costs" every cell of the trellis holds its cost; the
other tables are untouched. -/
theorem calcCosts_spec (sc width mdis : Int) (cell : Int → Int → ℚ) (st : Scratch)
    (hsc : sc = 1 ∨ sc = 2) (hm : 0 ≤ mdis) (hw : 0 ≤ width) :
    (calcCosts sc width mdis cell st).pcosts = st.pcosts ∧
    (calcCosts sc width mdis cell st).pbackt = st.pbackt ∧
    (calcCosts sc width mdis cell st).fpath = st.fpath ∧
    (calcCosts sc width mdis cell st).idx0 = st.idx0 ∧
    ∀ x u, ValidCell sc width mdis x u →
      (calcCosts sc width mdis cell st).ccosts (cellIdx sc mdis x u) = cell x u := by
  have key := forUp2_inv 0 (width - 1)
    (fun x => -umaxAt width mdis x * sc) (fun x => umaxAt width mdis x * sc)
    (fun x u (s : Scratch) =>
      { s with ccosts :=
          Function.update s.ccosts (x * (mdis * 2 * sc + 1) + mdis * sc + u) (cell x u) })
    st
    (fun x s => s.pcosts = st.pcosts ∧ s.pbackt = st.pbackt ∧ s.fpath = st.fpath ∧
      s.idx0 = st.idx0 ∧
      ∀ x2 u2, x2 < x → ValidCell sc width mdis x2 u2 →
        s.ccosts (cellIdx sc mdis x2 u2) = cell x2 u2)
    (fun x u s => s.pcosts = st.pcosts ∧ s.pbackt = st.pbackt ∧ s.fpath = st.fpath ∧
      s.idx0 = st.idx0 ∧
      ∀ x2 u2, (x2 < x ∨ (x2 = x ∧ u2 < u)) → ValidCell sc width mdis x2 u2 →
        s.ccosts (cellIdx sc mdis x2 u2) = cell x2 u2)
    (by omega)
    ⟨rfl, rfl, rfl, rfl, fun x2 u2 h1 h2 => by unfold ValidCell at h2; omega⟩
    (by
      intro x h1 h2
      simp only [umaxAt]
      rcases hsc with rfl | rfl <;> omega)
    (by
      rintro x s h1 h2 ⟨a, b, c, d, e⟩
      refine ⟨a, b, c, d, ?_⟩
      intro x2 u2 h3 h4
      rcases h3 with h3 | ⟨h3, h5⟩
      · exact e x2 u2 h3 h4
      · subst h3
        unfold ValidCell at h4
        dsimp only at h5
        omega)
    (by
      rintro x u s h1 h2 h3 h4 ⟨a, b, c, d, e⟩
      refine ⟨a, b, c, d, ?_⟩
      intro x2 u2 h5 h6
      have hv : ValidCell sc width mdis x u := ⟨h1, by omega, h3, h4⟩
      by_cases hsame : x2 = x ∧ u2 = u
      · rcases hsame with ⟨rfl, rfl⟩
        exact Function.update_same _ _ _
      · have hne := cellIdx_ne sc mdis width x2 u2 x u hsc h6 hv (by omega)
        exact (Function.update_noteq hne _ _).trans (e x2 u2 (by omega) h6))
    (by
      rintro x s h1 h2 ⟨a, b, c, d, e⟩
      refine ⟨a, b, c, d, ?_⟩
      intro x2 u2 h3 h4
      apply e x2 u2 _ h4
      by_cases hx : x2 < x
      · exact Or.inl hx
      · right
        have : x2 = x := by omega
        subst this
        unfold ValidCell at h4
        exact ⟨rfl, by dsimp only; omega⟩)
  simp only [sub_add_cancel] at key
  obtain ⟨a, b, c, d, e⟩ := key
  refine ⟨a, b, c, d, ?_⟩
  intro x u h
  exact e x u h.2.1 h

/-! ## The path-cost and backtrack tables -/

/-- A later write into the path-cost table does not change what the scan of column `x-1`
returns. -/
theorem bestPred_update (sc mdis width : Int) (pen gamma : ℚ) (pc : Int → ℚ)
    (idx0 x u X U : Int) (val : ℚ) (hsc : sc = 1 ∨ sc = 2) (hm : 0 ≤ mdis)
    (hxX : x ≤ X) (hX : ValidCell sc width mdis X U) :
    bestPred (fun i => Function.update pc (cellIdx sc mdis X U) val
        ((x - 1) * (mdis * 2 * sc + 1) + i)) gamma pen (mdis * sc) u
      (max (-(min (min (x - 1) (width - x)) mdis) * sc) (u - sc))
      (min ((min (min (x - 1) (width - x)) mdis) * sc) (u + sc)) idx0 =
    bestPred (fun i => pc ((x - 1) * (mdis * 2 * sc + 1) + i)) gamma pen (mdis * sc) u
      (max (-(min (min (x - 1) (width - x)) mdis) * sc) (u - sc))
      (min ((min (min (x - 1) (width - x)) mdis) * sc) (u + sc)) idx0 := by
  apply bestPred_congr
  intro v hv1 hv2
  dsimp only
  apply Function.update_noteq
  intro e
  have e2 : cellIdx sc mdis (x - 1) v = cellIdx sc mdis X U := by
    rw [← e]; unfold cellIdx; ring
  have hb : -(mdis * sc) ≤ v ∧ v ≤ mdis * sc := by
    rcases hsc with rfl | rfl <;> omega
  have := cellIdx_inj sc mdis (x - 1) v X U hsc hb (hX.bound hsc) e2
  omega

/-- A write at a different, not earlier cell keeps the recurrence at the cell `(x,u)`. -/
theorem StepOK_update (sc : Int) (pen : ℚ) (width mdis : Int) (gamma : ℚ) (cc pc : Int → ℚ)
    (bk : Int → Int) (idx0 x u X U : Int) (val : ℚ) (bv : Int) (hsc : sc = 1 ∨ sc = 2)
    (hm : 0 ≤ mdis) (hxX : x ≤ X) (hv : ValidCell sc width mdis x u)
    (hV : ValidCell sc width mdis X U) (hne : x ≠ X ∨ u ≠ U)
    (h : StepOK sc pen width mdis gamma cc pc bk idx0 x u) :
    StepOK sc pen width mdis gamma cc (Function.update pc (cellIdx sc mdis X U) val)
      (Function.update bk (cellIdx sc mdis (X - 1) U) bv) idx0 x u := by
  unfold StepOK at h ⊢
  rw [bestPred_update sc mdis width pen gamma pc idx0 x u X U val hsc hm hxX hV]
  rw [Function.update_noteq (cellIdx_ne sc mdis width x u X U hsc hv hV hne)]
  refine ⟨h.1, ?_⟩
  rw [Function.update_noteq]
  · exact h.2
  · intro e
    have := cellIdx_inj sc mdis (x - 1) u (X - 1) U hsc (hv.bound hsc) (hV.bound hsc) e
    omega

/-- The write made at the cell `(x,u)` establishes the recurrence there. -/
theorem StepOK_new (sc : Int) (pen : ℚ) (width mdis : Int) (gamma : ℚ) (cc pc : Int → ℚ)
    (bk : Int → Int) (idx0 x u : Int) (hsc : sc = 1 ∨ sc = 2) (hm : 0 ≤ mdis)
    (hv : ValidCell sc width mdis x u) :
    StepOK sc pen width mdis gamma cc
      (Function.update pc (cellIdx sc mdis x u)
        (satur ((bestPred (fun i => pc ((x - 1) * (mdis * 2 * sc + 1) + i)) gamma pen (mdis * sc) u
          (max (-(min (min (x - 1) (width - x)) mdis) * sc) (u - sc))
          (min ((min (min (x - 1) (width - x)) mdis) * sc) (u + sc)) idx0).1
          + cc (cellIdx sc mdis x u))))
      (Function.update bk (cellIdx sc mdis (x - 1) u)
        (bestPred (fun i => pc ((x - 1) * (mdis * 2 * sc + 1) + i)) gamma pen (mdis * sc) u
          (max (-(min (min (x - 1) (width - x)) mdis) * sc) (u - sc))
          (min ((min (min (x - 1) (width - x)) mdis) * sc) (u + sc)) idx0).2)
      idx0 x u := by
  unfold StepOK
  rw [bestPred_update sc mdis width pen gamma pc idx0 x u x u _ hsc hm (le_refl x) hv]
  exact ⟨Function.update_same _ _ _, Function.update_same _ _ _⟩

/-- After "calculate path costs" the path-cost table holds the cost of the first column at
displacement `0` and satisfies the recurrence at every cell of the later columns; the cost
table, `fpath` and `idx0` are untouched. -/
theorem calcPathCosts_spec (sc : Int) (pen : ℚ) (width mdis : Int) (gamma : ℚ) (st : Scratch)
    (hsc : sc = 1 ∨ sc = 2) (hm : 0 ≤ mdis) (hw : 1 ≤ width) :
    (calcPathCosts sc pen width mdis gamma st).ccosts = st.ccosts ∧
    (calcPathCosts sc pen width mdis gamma st).fpath = st.fpath ∧
    (calcPathCosts sc pen width mdis gamma st).idx0 = st.idx0 ∧
    (calcPathCosts sc pen width mdis gamma st).pcosts (cellIdx sc mdis 0 0) =
      st.ccosts (cellIdx sc mdis 0 0) ∧
    ∀ x u, 1 ≤ x → ValidCell sc width mdis x u →
      StepOK sc pen width mdis gamma st.ccosts
        (calcPathCosts sc pen width mdis gamma st).pcosts
        (calcPathCosts sc pen width mdis gamma st).pbackt st.idx0 x u := by
  have h00 : cellIdx sc mdis 0 0 = mdis * sc := by unfold cellIdx; ring
  have hv0 : ValidCell sc width mdis 0 0 := by
    unfold ValidCell umaxAt
    rcases hsc with rfl | rfl <;> omega
  have key := forUp2_inv 1 (width - 1)
    (fun x => -umaxAt width mdis x * sc) (fun x => umaxAt width mdis x * sc)
    (fun x u (s : Scratch) =>
      { s with
        pcosts := Function.update s.pcosts (x * (mdis * 2 * sc + 1) + mdis * sc + u)
          (satur ((bestPred (fun i => s.pcosts ((x - 1) * (mdis * 2 * sc + 1) + i)) gamma pen
            (mdis * sc) u
            (max (-(min (min (x - 1) (width - x)) mdis) * sc) (u - sc))
            (min ((min (min (x - 1) (width - x)) mdis) * sc) (u + sc)) s.idx0).1
            + s.ccosts (x * (mdis * 2 * sc + 1) + mdis * sc + u)))
        pbackt := Function.update s.pbackt ((x - 1) * (mdis * 2 * sc + 1) + mdis * sc + u)
          (bestPred (fun i => s.pcosts ((x - 1) * (mdis * 2 * sc + 1) + i)) gamma pen
            (mdis * sc) u
            (max (-(min (min (x - 1) (width - x)) mdis) * sc) (u - sc))
            (min ((min (min (x - 1) (width - x)) mdis) * sc) (u + sc)) s.idx0).2 })
    { st with pcosts := Function.update st.pcosts (mdis * sc) (st.ccosts (mdis * sc)) }
    (fun x s => s.ccosts = st.ccosts ∧ s.fpath = st.fpath ∧ s.idx0 = st.idx0 ∧
      s.pcosts (cellIdx sc mdis 0 0) = st.ccosts (cellIdx sc mdis 0 0) ∧
      ∀ x2 u2, 1 ≤ x2 → x2 < x → ValidCell sc width mdis x2 u2 →
        StepOK sc pen width mdis gamma st.ccosts s.pcosts s.pbackt st.idx0 x2 u2)
    (fun x u s => s.ccosts = st.ccosts ∧ s.fpath = st.fpath ∧ s.idx0 = st.idx0 ∧
      s.pcosts (cellIdx sc mdis 0 0) = st.ccosts (cellIdx sc mdis 0 0) ∧
      ∀ x2 u2, 1 ≤ x2 → (x2 < x ∨ (x2 = x ∧ u2 < u)) → ValidCell sc width mdis x2 u2 →
        StepOK sc pen width mdis gamma st.ccosts s.pcosts s.pbackt st.idx0 x2 u2)
    (by omega)
    ⟨rfl, rfl, rfl, by rw [h00]; exact Function.update_same _ _ _,
      fun x2 u2 h1 h2 _ => by omega⟩
    (by
      intro x h1 h2
      simp only [umaxAt]
      rcases hsc with rfl | rfl <;> omega)
    (by
      rintro x s h1 h2 ⟨a, b, c, d, e⟩
      refine ⟨a, b, c, d, ?_⟩
      intro x2 u2 h0 h3 h4
      rcases h3 with h3 | ⟨h3, h5⟩
      · exact e x2 u2 h0 h3 h4
      · subst h3
        unfold ValidCell at h4
        dsimp only at h5
        omega)
    (by
      rintro x u s h1 h2 h3 h4 ⟨a, b, c, d, e⟩
      have hv : ValidCell sc width mdis x u := ⟨by omega, by omega, h3, h4⟩
      refine ⟨a, b, c, ?_, ?_⟩
      · refine Eq.trans (Function.update_noteq ?_ _ _) d
        exact cellIdx_ne sc mdis width 0 0 x u hsc hv0 hv (by omega)
      · intro x2 u2 h0 h5 h6
        by_cases hsame : x2 = x ∧ u2 = u
        · rcases hsame with ⟨rfl, rfl⟩
          have := StepOK_new sc pen width mdis gamma st.ccosts s.pcosts s.pbackt st.idx0 x2 u2
            hsc hm h6
          dsimp only
          rw [c, a]
          exact this
        · exact StepOK_update sc pen width mdis gamma st.ccosts s.pcosts s.pbackt st.idx0
            x2 u2 x u _ _ hsc hm (by omega) h6 hv (by omega) (e x2 u2 h0 (by omega) h6))
    (by
      rintro x s h1 h2 ⟨a, b, c, d, e⟩
      refine ⟨a, b, c, d, ?_⟩
      intro x2 u2 h0 h3 h4
      apply e x2 u2 h0 _ h4
      by_cases hx : x2 < x
      · exact Or.inl hx
      · right
        have : x2 = x := by omega
        subst this
        unfold ValidCell at h4
        exact ⟨rfl, by dsimp only; omega⟩)
  simp only [sub_add_cancel] at key
  obtain ⟨a, b, c, d, e⟩ := key
  refine ⟨a, b, c, d, ?_⟩
  intro x u h1 h
  exact e x u h1 h.2.1 h

/-! ## Backtracking and interpolation loops -/

/-- After "backtrack" the last entry of `fpath` is `0` and every earlier entry is the
predecessor recorded for its right neighbour; the tables are untouched. -/
theorem backtrack_spec (sc width mdis : Int) (st : Scratch) (hw : 1 ≤ width) :
    (backtrack sc width mdis st).ccosts = st.ccosts ∧
    (backtrack sc width mdis st).pcosts = st.pcosts ∧
    (backtrack sc width mdis st).pbackt = st.pbackt ∧
    (backtrack sc width mdis st).idx0 = st.idx0 ∧
    (backtrack sc width mdis st).fpath (width - 1) = 0 ∧
    ∀ x, 0 ≤ x → x < width - 1 →
      (backtrack sc width mdis st).fpath x =
        st.pbackt (cellIdx sc mdis x ((backtrack sc width mdis st).fpath (x + 1))) := by
  have key := forDown_inv (width - 2) 0
    (fun x (s : Scratch) =>
      { s with
        fpath := Function.update s.fpath x
          (s.pbackt (x * (mdis * 2 * sc + 1) + mdis * sc + s.fpath (x + 1))) })
    { st with fpath := Function.update st.fpath (width - 1) 0 }
    (fun x s => s.ccosts = st.ccosts ∧ s.pcosts = st.pcosts ∧ s.pbackt = st.pbackt ∧
      s.idx0 = st.idx0 ∧ s.fpath (width - 1) = 0 ∧
      ∀ x2, x < x2 → x2 < width - 1 →
        s.fpath x2 = st.pbackt (cellIdx sc mdis x2 (s.fpath (x2 + 1))))
    (by omega)
    ⟨rfl, rfl, rfl, rfl, Function.update_same _ _ _, fun x2 h1 h2 => by omega⟩
    (by
      rintro x s h1 h2 ⟨a, b, c, d, e, f⟩
      refine ⟨a, b, c, d, ?_, ?_⟩
      · exact (Function.update_noteq (by omega) _ _).trans e
      · intro x2 h3 h4
        dsimp only
        have hn : x2 + 1 ≠ x := by omega
        rw [Function.update_noteq hn]
        by_cases hx : x2 = x
        · subst hx
          rw [Function.update_same, c]
          rfl
        · rw [Function.update_noteq hx]
          exact f x2 (by omega) h4)
  obtain ⟨a, b, c, d, e, f⟩ := key
  exact ⟨a, b, c, d, e, fun x h1 h2 => f x (by omega) h2⟩

/-- After "interpolate" the entries `0..width-1` of `dmap` hold the path and those of
`dstp` the interpolated samples; every other entry is as before. -/
theorem interpolate_spec (pixel : Int → Int → Int) (width : Int) (fpath : Int → Int)
    (out : Output) (hw : 0 ≤ width) :
    ∀ x, (0 ≤ x ∧ x < width →
        (interpolate pixel width fpath out).dmap x = fpath x ∧
        (interpolate pixel width fpath out).dstp x = pixel x (fpath x)) ∧
      (¬ (0 ≤ x ∧ x < width) →
        (interpolate pixel width fpath out).dmap x = out.dmap x ∧
        (interpolate pixel width fpath out).dstp x = out.dstp x) := by
  have key := forUp_inv 0 (width - 1)
    (fun x (o : Output) =>
      ({ dmap := Function.update o.dmap x (fpath x)
         dstp := Function.update o.dstp x (pixel x (fpath x)) } : Output))
    out
    (fun x o => ∀ x2, (0 ≤ x2 ∧ x2 < x → o.dmap x2 = fpath x2 ∧ o.dstp x2 = pixel x2 (fpath x2)) ∧
      (¬ (0 ≤ x2 ∧ x2 < x) → o.dmap x2 = out.dmap x2 ∧ o.dstp x2 = out.dstp x2))
    (by omega)
    (fun x2 => ⟨fun h => by omega, fun _ => ⟨rfl, rfl⟩⟩)
    (by
      intro x o h1 h2 hP x2
      dsimp only
      by_cases hx : x2 = x
      · subst hx
        rw [Function.update_same, Function.update_same]
        exact ⟨fun _ => ⟨rfl, rfl⟩, fun h => by omega⟩
      · rw [Function.update_noteq hx, Function.update_noteq hx]
        exact ⟨fun h => (hP x2).1 (by omega), fun h => (hP x2).2 (by omega)⟩)
  simp only [sub_add_cancel] at key
  exact key

/-! ## The solver as a whole -/

theorem validCell_zero (sc width mdis : Int) (hsc : sc = 1 ∨ sc = 2) (hm : 0 ≤ mdis)
    (hw : 1 ≤ width) : ValidCell sc width mdis 0 0 := by
  unfold ValidCell umaxAt
  rcases hsc with rfl | rfl <;> omega

/-- The three solver loops establish `Solved`. -/
theorem solved_of_loops (sc : Int) (pen : ℚ) (width mdis : Int) (gamma : ℚ)
    (cell : Int → Int → ℚ) (temp : Scratch) (hsc : sc = 1 ∨ sc = 2) (hm : 0 ≤ mdis)
    (hw : 1 ≤ width) :
    Solved sc pen width mdis gamma cell temp.idx0
      (backtrack sc width mdis (calcPathCosts sc pen width mdis gamma
        (calcCosts sc width mdis cell temp))) := by
  obtain ⟨_, _, _, c4, c5⟩ := calcCosts_spec sc width mdis cell temp hsc hm (by omega)
  obtain ⟨p1, _, p3, p4, p5⟩ := calcPathCosts_spec sc pen width mdis gamma
    (calcCosts sc width mdis cell temp) hsc hm hw
  obtain ⟨b1, b2, b3, _, b5, b6⟩ := backtrack_spec sc width mdis
    (calcPathCosts sc pen width mdis gamma (calcCosts sc width mdis cell temp)) hw
  refine ⟨?_, ?_, ?_, b5, ?_⟩
  · intro x u h
    rw [b1, p1]
    exact c5 x u h
  · rw [b2, p4]
    exact c5 0 0 (validCell_zero sc width mdis hsc hm hw)
  · intro x u h1 h
    rw [b1, b2, b3, p1]
    have := p5 x u h1 h
    rw [c4] at this
    exact this
  · intro x h1 h2
    rw [b3]
    exact b6 x h1 h2

/-- Consequences of the recurrence at a cell `(x,u)` of a column `x ≥ 1`: the recorded
predecessor is a cell of column `x-1` within `sc` of `u`, the path cost is the predecessor's
value plus the cost of the cell, and the predecessor is the first minimum. -/
theorem StepOK.pred {sc : Int} {pen : ℚ} {width mdis : Int} {gamma : ℚ} {cc pc : Int → ℚ}
    {bk : Int → Int} {idx0 x u : Int}
    (h : StepOK sc pen width mdis gamma cc pc bk idx0 x u) (hsc : sc = 1 ∨ sc = 2)
    (hm : 0 ≤ mdis) (hx : 1 ≤ x) (hv : ValidCell sc width mdis x u) :
    ValidCell sc width mdis (x - 1) (bk (cellIdx sc mdis (x - 1) u)) ∧
    u - sc ≤ bk (cellIdx sc mdis (x - 1) u) ∧ bk (cellIdx sc mdis (x - 1) u) ≤ u + sc ∧
    pc (cellIdx sc mdis x u) =
      satur (predCost sc pen mdis gamma pc x u (bk (cellIdx sc mdis (x - 1) u))
        + cc (cellIdx sc mdis x u)) ∧
    (∀ v, ValidCell sc width mdis (x - 1) v → u - sc ≤ v → v ≤ u + sc →
      predCost sc pen mdis gamma pc x u (bk (cellIdx sc mdis (x - 1) u))
        ≤ predCost sc pen mdis gamma pc x u v) ∧
    (∀ v, ValidCell sc width mdis (x - 1) v → u - sc ≤ v → v < bk (cellIdx sc mdis (x - 1) u) →
      predCost sc pen mdis gamma pc x u (bk (cellIdx sc mdis (x - 1) u))
        < predCost sc pen mdis gamma pc x u v) := by
  have hcand : ∀ v, candCost (fun i => pc ((x - 1) * (mdis * 2 * sc + 1) + i)) gamma pen
      (mdis * sc) u v = predCost sc pen mdis gamma pc x u v := by
    intro v
    unfold candCost predCost cellIdx
    rw [add_assoc]
  have hle : max (-(min (min (x - 1) (width - x)) mdis) * sc) (u - sc)
      ≤ min ((min (min (x - 1) (width - x)) mdis) * sc) (u + sc) := by
    unfold ValidCell umaxAt at hv
    rcases hsc with rfl | rfl <;> omega
  obtain ⟨s1, s2, s3, s4, s5⟩ := bestPred_spec (fun i => pc ((x - 1) * (mdis * 2 * sc + 1) + i))
    gamma pen (mdis * sc) u _ _ idx0 hle
  obtain ⟨h1, h2⟩ := h
  rw [← h2] at s1 s2 s3 s5
  rw [s3, hcand] at h1
  have hvw := hv.2.1
  refine ⟨?_, ?_, ?_, h1, ?_, ?_⟩
  · unfold ValidCell umaxAt
    rcases hsc with rfl | rfl <;> omega
  · omega
  · omega
  · intro v hv1 hv2 hv3
    rw [← hcand, ← hcand, ← s3]
    apply s4
    · unfold ValidCell umaxAt at hv1
      rcases hsc with rfl | rfl <;> omega
    · unfold ValidCell umaxAt at hv1
      rcases hsc with rfl | rfl <;> omega
  · intro v hv1 hv2 hv3
    rw [← hcand, ← hcand, ← s3]
    apply s5
    · unfold ValidCell umaxAt at hv1
      rcases hsc with rfl | rfl <;> omega
    · exact hv3

/-- Every entry `0..width-1` of the backtracked path is a cell of the trellis. -/
theorem Solved.valid {sc : Int} {pen : ℚ} {width mdis : Int} {gamma : ℚ}
    {cell : Int → Int → ℚ} {idx0 : Int} {s : Scratch}
    (h : Solved sc pen width mdis gamma cell idx0 s) (hsc : sc = 1 ∨ sc = 2) (hm : 0 ≤ mdis)
    (hw : 1 ≤ width) :
    ∀ x, 0 ≤ x → x < width → ValidCell sc width mdis x (s.fpath x) := by
  have key : ∀ n : Nat, (n : Int) < width →
      ValidCell sc width mdis (width - 1 - n) (s.fpath (width - 1 - n)) := by
    intro n
    induction n with
    | zero =>
      intro _
      simp only [Nat.cast_zero, sub_zero]
      rw [h.last]
      unfold ValidCell umaxAt
      rcases hsc with rfl | rfl <;> omega
    | succ m ih =>
      intro hlt
      have hm1 : (m : Int) < width := by push_cast at hlt; omega
      have e1 : width - 1 - ((m + 1 : Nat) : Int) + 1 = width - 1 - (m : Int) := by
        push_cast; ring
      have hb := h.back (width - 1 - ((m + 1 : Nat) : Int)) (by push_cast at hlt ⊢; omega)
        (by push_cast; omega)
      rw [e1] at hb
      have hs := h.step (width - 1 - (m : Int)) _ (by push_cast at hlt; omega) (ih hm1)
      have hp := (hs.pred hsc hm (by push_cast at hlt; omega) (ih hm1)).1
      have e2 : width - 1 - (m : Int) - 1 = width - 1 - ((m + 1 : Nat) : Int) := by
        push_cast; ring
      rw [e2] at hp
      rw [hb]
      exact hp
  intro x h0 h1
  have := key (width - 1 - x).toNat (by omega)
  have e : width - 1 - ((width - 1 - x).toNat : Int) = x := by omega
  rw [e] at this
  exact this

/-- Adjacent entries of the backtracked path differ by at most `sc`. -/
theorem Solved.near {sc : Int} {pen : ℚ} {width mdis : Int} {gamma : ℚ}
    {cell : Int → Int → ℚ} {idx0 : Int} {s : Scratch}
    (h : Solved sc pen width mdis gamma cell idx0 s) (hsc : sc = 1 ∨ sc = 2) (hm : 0 ≤ mdis)
    (hw : 1 ≤ width) :
    ∀ x, 0 ≤ x → x + 1 < width →
      s.fpath (x + 1) - sc ≤ s.fpath x ∧ s.fpath x ≤ s.fpath (x + 1) + sc := by
  intro x h0 h1
  have hv := h.valid hsc hm hw (x + 1) (by omega) h1
  have hs := h.step (x + 1) _ (by omega) hv
  have hp := hs.pred hsc hm (by omega) hv
  rw [add_sub_cancel_right, ← h.back x h0 (by omega)] at hp
  exact ⟨hp.2.1, hp.2.2.1⟩

/-! ## Optimality of the backtracked path -/

theorem pathCost_eq_prefixCost (cell : Int → Int → ℚ) (gamma pen : ℚ) (width : Int)
    (d : Int → Int) (hw : 1 ≤ width) :
    pathCost cell gamma pen width d = prefixCost cell gamma pen d (width - 1).toNat := by
  unfold pathCost prefixCost
  have : width.toNat = (width - 1).toNat + 1 := by omega
  rw [this]

theorem prefixCost_succ (cell : Int → Int → ℚ) (gamma pen : ℚ) (d : Int → Int) (n : Nat) :
    prefixCost cell gamma pen d (n + 1) =
      prefixCost cell gamma pen d n
        + gamma * ((|d ((n : Int) + 1) - d (n : Int)| : Int) : ℚ) * pen
        + cell ((n : Int) + 1) (d ((n : Int) + 1)) := by
  unfold prefixCost
  rw [Finset.sum_range_succ (fun x : Nat => cell (x : Int) (d (x : Int))) (n + 1),
    Finset.sum_range_succ
      (fun x : Nat => gamma * ((|d ((x : Int) + 1) - d (x : Int)| : Int) : ℚ) * pen) n]
  simp only [Nat.cast_add, Nat.cast_one]
  ring

theorem pathCost_congr (cell : Int → Int → ℚ) (gamma pen : ℚ) (width : Int)
    (d d2 : Int → Int) (h : ∀ x, 0 ≤ x → x < width → d x = d2 x) :
    pathCost cell gamma pen width d = pathCost cell gamma pen width d2 := by
  unfold pathCost
  congr 1
  · apply Finset.sum_congr rfl
    intro x hx
    have hx2 := Finset.mem_range.mp hx
    rw [h x (by omega) (by omega)]
  · apply Finset.sum_congr rfl
    intro x hx
    have hx2 := Finset.mem_range.mp hx
    rw [h x (by omega) (by omega), h (x + 1) (by omega) (by omega)]

theorem Admissible.validCell {sc width mdis : Int} {d : Int → Int}
    (h : Admissible sc width mdis d) (x : Int) (h0 : 0 ≤ x) (h1 : x < width) :
    ValidCell sc width mdis x (d x) := by
  have := abs_le.mp (h.1 x h0 h1)
  exact ⟨h0, h1, by rw [neg_mul]; exact this.1, this.2⟩

/-- The path-cost table is a lower bound of the cost of every admissible prefix. -/
theorem Solved.lower {sc : Int} {pen : ℚ} {width mdis : Int} {gamma : ℚ}
    {cell : Int → Int → ℚ} {idx0 : Int} {s : Scratch}
    (h : Solved sc pen width mdis gamma cell idx0 s) (hsc : sc = 1 ∨ sc = 2) (hm : 0 ≤ mdis)
    (d : Int → Int) (hd : Admissible sc width mdis d) :
    ∀ n : Nat, (n : Int) < width →
      s.pcosts (cellIdx sc mdis n (d n)) ≤ prefixCost cell gamma pen d n := by
  intro n
  induction n with
  | zero =>
    intro hlt
    have hv := hd.validCell 0 (le_refl 0) (by simpa using hlt)
    have h0 : d 0 = 0 := by
      unfold ValidCell umaxAt at hv
      rcases hsc with rfl | rfl <;> omega
    simp only [Nat.cast_zero]
    rw [h0, h.base]
    simp [prefixCost, h0]
  | succ m ih =>
    intro hlt
    push_cast at hlt ⊢
    have hv1 := hd.validCell ((m : Int) + 1) (by omega) hlt
    have hv0 := hd.validCell (m : Int) (by omega) (by omega)
    have hp := (h.step _ _ (by omega) hv1).pred hsc hm (by omega) hv1
    rw [add_sub_cancel_right] at hp
    obtain ⟨-, -, -, e, hmin, -⟩ := hp
    have hstep := abs_le.mp (hd.2 (m : Int) (by omega) hlt)
    have h1 := hmin (d m) hv0 (by omega) (by omega)
    rw [e, prefixCost_succ, h.cost _ _ hv1]
    refine le_trans (satur_le _) ?_
    have h2 : predCost sc pen mdis gamma s.pcosts ((m : Int) + 1) (d ((m : Int) + 1)) (d m)
        ≤ s.pcosts (cellIdx sc mdis m (d m))
          + gamma * ((|d ((m : Int) + 1) - d (m : Int)| : Int) : ℚ) * pen := by
      unfold predCost
      rw [add_sub_cancel_right]
      exact satur_le _
    have h3 := ih (by omega)
    linarith

theorem prefixCost_le_succ (cell : Int → Int → ℚ) (gamma pen : ℚ) (d : Int → Int) (n : Nat)
    (hpen : 0 ≤ gamma * pen) (hc : 0 ≤ cell ((n : Int) + 1) (d ((n : Int) + 1))) :
    prefixCost cell gamma pen d n ≤ prefixCost cell gamma pen d (n + 1) := by
  rw [prefixCost_succ]
  have : 0 ≤ gamma * ((|d ((n : Int) + 1) - d (n : Int)| : Int) : ℚ) * pen := by
    have h1 : (0 : ℚ) ≤ ((|d ((n : Int) + 1) - d (n : Int)| : Int) : ℚ) := by
      exact_mod_cast abs_nonneg _
    have : gamma * ((|d ((n : Int) + 1) - d (n : Int)| : Int) : ℚ) * pen
        = (gamma * pen) * ((|d ((n : Int) + 1) - d (n : Int)| : Int) : ℚ) := by ring
    rw [this]
    exact mul_nonneg hpen h1
  linarith

/-- Along the backtracked path the path-cost table holds the exact prefix cost, as long
as the cost of the whole path stays below the saturation level. -/
theorem Solved.exact {sc : Int} {pen : ℚ} {width mdis : Int} {gamma : ℚ}
    {cell : Int → Int → ℚ} {idx0 : Int} {s : Scratch}
    (h : Solved sc pen width mdis gamma cell idx0 s) (hsc : sc = 1 ∨ sc = 2) (hm : 0 ≤ mdis)
    (hw : 1 ≤ width) (hpen : 0 ≤ gamma * pen)
    (hnn : ∀ x u, ValidCell sc width mdis x u → 0 ≤ cell x u)
    (hcap : pathCost cell gamma pen width s.fpath ≤ FLT_MAX * 0.9) :
    ∀ n : Nat, (n : Int) < width →
      s.pcosts (cellIdx sc mdis n (s.fpath n)) = prefixCost cell gamma pen s.fpath n := by
  have hval := h.valid hsc hm hw
  -- every prefix costs at most the whole path
  have hmono : ∀ k : Nat, ∀ n : Nat, (n : Int) + k < width →
      prefixCost cell gamma pen s.fpath n ≤ prefixCost cell gamma pen s.fpath (n + k) := by
    intro k
    induction k with
    | zero => intro n _; exact le_refl _
    | succ j ih =>
      intro n hn
      push_cast at hn
      refine le_trans (ih n (by omega)) ?_
      have := prefixCost_le_succ cell gamma pen s.fpath (n + j) hpen
        (hnn _ _ (hval _ (by push_cast; omega) (by push_cast; omega)))
      rw [add_assoc] at this
      exact this
  have hbound : ∀ n : Nat, (n : Int) < width →
      prefixCost cell gamma pen s.fpath n ≤ FLT_MAX * 0.9 := by
    intro n hn
    rw [pathCost_eq_prefixCost _ _ _ _ _ hw] at hcap
    have := hmono ((width - 1).toNat - n) n (by omega)
    have e : n + ((width - 1).toNat - n) = (width - 1).toNat := by omega
    rw [e] at this
    exact le_trans this hcap
  intro n
  induction n with
  | zero =>
    intro hlt
    have hv := hval 0 (le_refl 0) (by omega)
    have h0 : s.fpath 0 = 0 := by
      unfold ValidCell umaxAt at hv
      rcases hsc with rfl | rfl <;> omega
    simp only [Nat.cast_zero]
    rw [h0, h.base]
    simp [prefixCost, h0]
  | succ m ih =>
    intro hlt
    push_cast at hlt ⊢
    have hv1 := hval ((m : Int) + 1) (by omega) hlt
    have hp := (h.step _ _ (by omega) hv1).pred hsc hm (by omega) hv1
    rw [add_sub_cancel_right, ← h.back m (by omega) (by omega)] at hp
    obtain ⟨-, -, -, e, -, -⟩ := hp
    have hb := hbound (m + 1) (by push_cast; omega)
    rw [prefixCost_succ] at hb
    have hc := hnn _ _ hv1
    rw [e, prefixCost_succ, h.cost _ _ hv1]
    unfold predCost
    rw [add_sub_cancel_right, ih (by omega)]
    have hin := satur_of_le (prefixCost cell gamma pen s.fpath m
      + gamma * ((|s.fpath ((m : Int) + 1) - s.fpath (m : Int)| : Int) : ℚ) * pen) (by linarith)
    rw [hin, satur_of_le _ hb]

/-- The backtracked path costs no more than any admissible displacement sequence, as long
as its own cost stays below the saturation level. -/
theorem Solved.optimal {sc : Int} {pen : ℚ} {width mdis : Int} {gamma : ℚ}
    {cell : Int → Int → ℚ} {idx0 : Int} {s : Scratch}
    (h : Solved sc pen width mdis gamma cell idx0 s) (hsc : sc = 1 ∨ sc = 2) (hm : 0 ≤ mdis)
    (hw : 1 ≤ width) (hpen : 0 ≤ gamma * pen)
    (hnn : ∀ x u, ValidCell sc width mdis x u → 0 ≤ cell x u)
    (hcap : pathCost cell gamma pen width s.fpath ≤ FLT_MAX * 0.9)
    (d : Int → Int) (hd : Admissible sc width mdis d) :
    pathCost cell gamma pen width s.fpath ≤ pathCost cell gamma pen width d := by
  have hN : (((width - 1).toNat : Nat) : Int) = width - 1 := by omega
  have e1 := h.exact hsc hm hw hpen hnn hcap (width - 1).toNat (by omega)
  have e2 := h.lower hsc hm d hd (width - 1).toNat (by omega)
  have hv := hd.validCell (width - 1) (by omega) (by omega)
  have hd0 : d (width - 1) = 0 := by
    unfold ValidCell umaxAt at hv
    rcases hsc with rfl | rfl <;> omega
  rw [pathCost_eq_prefixCost _ _ _ _ _ hw, pathCost_eq_prefixCost _ _ _ _ _ hw, ← e1]
  rw [hN] at e1 e2 ⊢
  rw [h.last]
  rw [hd0] at e2
  exact e2

/-! ## The solution does not depend on the scratch contents -/

theorem predRange_nonempty (sc width mdis x u : Int) (hsc : sc = 1 ∨ sc = 2) (hm : 0 ≤ mdis)
    (hx : 1 ≤ x) (hv : ValidCell sc width mdis x u) :
    max (-(min (min (x - 1) (width - x)) mdis) * sc) (u - sc)
      ≤ min ((min (min (x - 1) (width - x)) mdis) * sc) (u + sc) := by
  unfold ValidCell umaxAt at hv
  rcases hsc with rfl | rfl <;> omega

theorem predRange_valid (sc width mdis x u v : Int) (hsc : sc = 1 ∨ sc = 2)
    (hx : 1 ≤ x) (hv : ValidCell sc width mdis x u)
    (h1 : max (-(min (min (x - 1) (width - x)) mdis) * sc) (u - sc) ≤ v)
    (h2 : v ≤ min ((min (min (x - 1) (width - x)) mdis) * sc) (u + sc)) :
    ValidCell sc width mdis (x - 1) v := by
  unfold ValidCell umaxAt at hv ⊢
  rcases hsc with rfl | rfl <;> omega

/-- On a non-empty range the scan of the predecessors returns the same pair whatever the
initial value of `idx`, for tables that agree on the scanned entries. -/
theorem bestPred_unique (ppT ppT2 : Int → ℚ) (gamma pen : ℚ) (off u lo hi idx0 idx02 : Int)
    (hle : lo ≤ hi) (h : ∀ v, lo ≤ v → v ≤ hi → ppT (off + v) = ppT2 (off + v)) :
    bestPred ppT gamma pen off u lo hi idx0 = bestPred ppT2 gamma pen off u lo hi idx02 := by
  rw [bestPred_congr ppT ppT2 gamma pen off u lo hi idx0 h]
  obtain ⟨a1, a2, a3, a4, a5⟩ := bestPred_spec ppT2 gamma pen off u lo hi idx0 hle
  obtain ⟨b1, b2, b3, b4, b5⟩ := bestPred_spec ppT2 gamma pen off u lo hi idx02 hle
  have hidx : (bestPred ppT2 gamma pen off u lo hi idx0).2
      = (bestPred ppT2 gamma pen off u lo hi idx02).2 := by
    rcases lt_trichotomy (bestPred ppT2 gamma pen off u lo hi idx0).2
      (bestPred ppT2 gamma pen off u lo hi idx02).2 with hlt | heq | hgt
    · have c1 := b5 _ a1 hlt
      have c2 := a4 _ b1 b2
      rw [← a3] at c1
      rw [← b3] at c2
      exact absurd (lt_of_lt_of_le c1 c2) (lt_irrefl _)
    · exact heq
    · have c1 := a5 _ b1 hgt
      have c2 := b4 _ a1 a2
      rw [← b3] at c1
      rw [← a3] at c2
      exact absurd (lt_of_lt_of_le c1 c2) (lt_irrefl _)
  apply Prod.ext
  · rw [a3, b3, hidx]
  · exact hidx

/-- Two scratch states that both satisfy `Solved` for the same costs agree on the path-cost
and backtrack entries of the trellis and on the path. -/
theorem Solved.unique {sc : Int} {pen : ℚ} {width mdis : Int} {gamma : ℚ}
    {cell : Int → Int → ℚ} {idx0 idx02 : Int} {s s2 : Scratch}
    (h : Solved sc pen width mdis gamma cell idx0 s)
    (h2 : Solved sc pen width mdis gamma cell idx02 s2)
    (hsc : sc = 1 ∨ sc = 2) (hm : 0 ≤ mdis) (hw : 1 ≤ width) :
    (∀ x u, ValidCell sc width mdis x u →
      s.pcosts (cellIdx sc mdis x u) = s2.pcosts (cellIdx sc mdis x u)) ∧
    (∀ x u, 1 ≤ x → ValidCell sc width mdis x u →
      s.pbackt (cellIdx sc mdis (x - 1) u) = s2.pbackt (cellIdx sc mdis (x - 1) u)) ∧
    (∀ x, 0 ≤ x → x < width → s.fpath x = s2.fpath x) := by
  have hpc : ∀ n : Nat, ∀ u, ValidCell sc width mdis n u →
      s.pcosts (cellIdx sc mdis n u) = s2.pcosts (cellIdx sc mdis n u) := by
    intro n
    induction n with
    | zero =>
      intro u hv
      have h0 : u = 0 := by
        unfold ValidCell umaxAt at hv
        rcases hsc with rfl | rfl <;> omega
      subst h0
      simp only [Nat.cast_zero]
      rw [h.base, h2.base]
    | succ m ih =>
      intro u hv
      push_cast at hv ⊢
      have e1 := (h.step _ u (by omega) hv).1
      have e2 := (h2.step _ u (by omega) hv).1
      rw [e1, e2, h.cost _ _ hv, h2.cost _ _ hv]
      rw [bestPred_unique _ (fun i => s2.pcosts (((m : Int) + 1 - 1) * (mdis * 2 * sc + 1) + i))
        gamma pen (mdis * sc) u _ _ idx0 idx02
        (predRange_nonempty sc width mdis _ u hsc hm (by omega) hv)]
      intro v hv1 hv2
      have hvv := predRange_valid sc width mdis _ u v hsc (by omega) hv hv1 hv2
      rw [add_sub_cancel_right] at hvv ⊢
      have := ih v hvv
      unfold cellIdx at this
      rw [add_assoc] at this
      exact this
  have hpc2 : ∀ x u, ValidCell sc width mdis x u →
      s.pcosts (cellIdx sc mdis x u) = s2.pcosts (cellIdx sc mdis x u) := by
    intro x u hv
    have := hpc x.toNat u
    have e : ((x.toNat : Nat) : Int) = x := Int.toNat_of_nonneg hv.1
    rw [e] at this
    exact this hv
  have hbk : ∀ x u, 1 ≤ x → ValidCell sc width mdis x u →
      s.pbackt (cellIdx sc mdis (x - 1) u) = s2.pbackt (cellIdx sc mdis (x - 1) u) := by
    intro x u hx hv
    rw [(h.step x u hx hv).2, (h2.step x u hx hv).2]
    rw [bestPred_unique _ (fun i => s2.pcosts ((x - 1) * (mdis * 2 * sc + 1) + i))
      gamma pen (mdis * sc) u _ _ idx0 idx02
      (predRange_nonempty sc width mdis _ u hsc hm (by omega) hv)]
    intro v hv1 hv2
    have := hpc2 (x - 1) v (predRange_valid sc width mdis _ u v hsc (by omega) hv hv1 hv2)
    unfold cellIdx at this
    rw [add_assoc] at this
    exact this
  refine ⟨hpc2, hbk, ?_⟩
  have hval := h.valid hsc hm hw
  have key : ∀ n : Nat, (n : Int) < width →
      s.fpath (width - 1 - n) = s2.fpath (width - 1 - n) := by
    intro n
    induction n with
    | zero =>
      intro _
      simp only [Nat.cast_zero, sub_zero]
      rw [h.last, h2.last]
    | succ m ih =>
      intro hlt
      push_cast at hlt
      have e1 : width - 1 - ((m + 1 : Nat) : Int) + 1 = width - 1 - (m : Int) := by
        push_cast; ring
      have hb := h.back (width - 1 - ((m + 1 : Nat) : Int)) (by push_cast; omega)
        (by push_cast; omega)
      have hb2 := h2.back (width - 1 - ((m + 1 : Nat) : Int)) (by push_cast; omega)
        (by push_cast; omega)
      rw [e1] at hb hb2
      rw [hb, hb2, ← ih (by omega)]
      have hv := hval (width - 1 - (m : Int)) (by omega) (by omega)
      have := hbk (width - 1 - (m : Int)) _ (by omega) hv
      have e2 : width - 1 - (m : Int) - 1 = width - 1 - ((m + 1 : Nat) : Int) := by
        push_cast; ring
      rw [e2] at this
      exact this
  intro x h0 h1
  have := key (width - 1 - x).toNat (by omega)
  have e : width - 1 - ((width - 1 - x).toNat : Int) = x := by omega
  rw [e] at this
  exact this

/-! ## The path chosen when every candidate costs nothing -/

theorem satur_zero : satur 0 = 0 := satur_of_le 0 (by unfold FLT_MAX; norm_num)

/-- With all cell costs zero and no continuity penalty every candidate ties, the scan keeps
the first (lowest) predecessor, and the backtracked path lies on the lower edge of the
trellis. -/
theorem Solved.lowest_of_zero {sc : Int} {pen : ℚ} {width mdis : Int} {gamma : ℚ}
    {cell : Int → Int → ℚ} {idx0 : Int} {s : Scratch}
    (h : Solved sc pen width mdis gamma cell idx0 s) (hsc : sc = 1 ∨ sc = 2) (hm : 0 ≤ mdis)
    (hw : 1 ≤ width) (hg : gamma = 0)
    (hc : ∀ x u, ValidCell sc width mdis x u → cell x u = 0) :
    ∀ x, 0 ≤ x → x < width → s.fpath x = -(umaxAt width mdis x * sc) := by
  have hpc : ∀ n : Nat, ∀ u, ValidCell sc width mdis n u →
      s.pcosts (cellIdx sc mdis n u) = 0 := by
    intro n
    induction n with
    | zero =>
      intro u hv
      have h0 : u = 0 := by
        unfold ValidCell umaxAt at hv
        rcases hsc with rfl | rfl <;> omega
      subst h0
      simp only [Nat.cast_zero]
      rw [h.base]
      exact hc 0 0 hv
    | succ m ih =>
      intro u hv
      push_cast at hv ⊢
      obtain ⟨p1, -, -, p4, -, -⟩ := (h.step _ u (by omega) hv).pred hsc hm (by omega) hv
      rw [p4, h.cost _ _ hv, hc _ _ hv]
      unfold predCost
      rw [add_sub_cancel_right] at p1 ⊢
      rw [ih _ p1, hg]
      simp [satur_zero]
  have hpred : ∀ x u v, 1 ≤ x → ValidCell sc width mdis (x - 1) v →
      predCost sc pen mdis gamma s.pcosts x u v = 0 := by
    intro x u v hx hv
    unfold predCost
    have := hpc (x - 1).toNat v
    have e : (((x - 1).toNat : Nat) : Int) = x - 1 := Int.toNat_of_nonneg (by omega)
    rw [e] at this
    rw [this hv, hg]
    simp [satur_zero]
  have hbk : ∀ x u, 1 ≤ x → ValidCell sc width mdis x u →
      s.pbackt (cellIdx sc mdis (x - 1) u)
        = max (-(umaxAt width mdis (x - 1)) * sc) (u - sc) := by
    intro x u hx hv
    obtain ⟨p1, p2, -, -, -, p6⟩ := (h.step x u hx hv).pred hsc hm hx hv
    have hlo : ValidCell sc width mdis (x - 1)
        (max (-(umaxAt width mdis (x - 1)) * sc) (u - sc)) := by
      unfold ValidCell umaxAt at hv ⊢
      rcases hsc with rfl | rfl <;> omega
    by_contra hne
    have hlt : max (-(umaxAt width mdis (x - 1)) * sc) (u - sc)
        < s.pbackt (cellIdx sc mdis (x - 1) u) := by
      have q1 := p1.2.2.1
      rcases hsc with rfl | rfl <;> omega
    have := p6 _ hlo (le_max_right _ _) hlt
    rw [hpred x u _ hx hlo, hpred x u _ hx p1] at this
    exact lt_irrefl _ this
  have key : ∀ n : Nat, (n : Int) < width →
      s.fpath (width - 1 - n) = -(umaxAt width mdis (width - 1 - n) * sc) := by
    intro n
    induction n with
    | zero =>
      intro _
      simp only [Nat.cast_zero, sub_zero]
      rw [h.last]
      unfold umaxAt
      rcases hsc with rfl | rfl <;> omega
    | succ m ih =>
      intro hlt
      push_cast at hlt
      have e1 : width - 1 - ((m + 1 : Nat) : Int) + 1 = width - 1 - (m : Int) := by
        push_cast; ring
      have e2 : width - 1 - (m : Int) - 1 = width - 1 - ((m + 1 : Nat) : Int) := by
        push_cast; ring
      have hb := h.back (width - 1 - ((m + 1 : Nat) : Int)) (by push_cast; omega)
        (by push_cast; omega)
      rw [e1] at hb
      have hv := h.valid hsc hm hw (width - 1 - (m : Int)) (by omega) (by omega)
      have hk := hbk (width - 1 - (m : Int)) _ (by omega) hv
      rw [e2] at hk
      rw [hb, hk, ih (by omega)]
      unfold umaxAt
      push_cast
      rcases hsc with rfl | rfl <;> omega
  intro x h0 h1
  have := key (width - 1 - x).toNat (by omega)
  have e : width - 1 - ((width - 1 - x).toNat : Int) = x := by omega
  rw [e] at this
  exact this

/-! ## Bounds on the connection costs -/

/-- A property kept by every iteration holds after the loop. -/
theorem forUp_pres {σ : Type} (lo hi : Int) (body : Int → σ → σ) (init : σ) (P : σ → Prop)
    (h0 : P init) (hs : ∀ i s, lo ≤ i → i ≤ hi → P s → P (body i s)) :
    P (forUp lo hi body init) := by
  by_cases hle : lo ≤ hi + 1
  · exact forUp_inv lo hi body init (fun _ s => P s) hle h0 hs
  · rw [forUp_of_lt lo hi body init (by omega)]
    exact h0

theorem shr_one (a : Int) : shr a 1 = a / 2 := by unfold shr; norm_num

theorem shr_two (a : Int) : shr a 2 = a / 4 := by unfold shr; norm_num

theorem shr_six (a : Int) : shr a 6 = a / 64 := by unfold shr; norm_num

theorem shr_seven (a : Int) : shr a 7 = a / 128 := by unfold shr; norm_num

theorem toU8_range (v : Int) : 0 ≤ toU8 v ∧ toU8 v ≤ 255 := by
  unfold toU8; omega

theorem toU8_of_range (v : Int) (h0 : 0 ≤ v) (h1 : v ≤ 255) : toU8 v = v := by
  unfold toU8; omega

theorem abs_sub_le_255 (a b : Int) (ha : 0 ≤ a ∧ a ≤ 255) (hb : 0 ≤ b ∧ b ≤ 255) :
    |a - b| ≤ 255 := abs_le.mpr ⟨by omega, by omega⟩

theorem sad_nonneg (r : Rows) (nrad i j : Int) : 0 ≤ sad r nrad i j := by
  unfold sad
  apply forUp_pres (-nrad) nrad _ 0 (fun s => 0 ≤ s) (le_refl 0)
  intro k s _ _ hs
  have h1 := abs_nonneg (r.src3p (i + k) - r.src1p (j + k))
  have h2 := abs_nonneg (r.src1p (i + k) - r.src1n (j + k))
  have h3 := abs_nonneg (r.src1n (i + k) - r.src3n (j + k))
  omega

theorem sad_le (r : Rows) (hr : RowsU8 r) (nrad i j : Int) (hn : 0 ≤ nrad) :
    sad r nrad i j ≤ 765 * (2 * nrad + 1) := by
  obtain ⟨r1, r2, r3, r4⟩ := hr
  have key := forUp_inv (-nrad) nrad (fun k s => s +
    (|r.src3p (i + k) - r.src1p (j + k)| +
     |r.src1p (i + k) - r.src1n (j + k)| +
     |r.src1n (i + k) - r.src3n (j + k)|)) 0
    (fun k s => s ≤ 765 * (k + nrad)) (by omega) (by omega)
    (by
      intro k s _ _ hs
      have h1 := abs_sub_le_255 _ _ (r1 (i + k)) (r2 (j + k))
      have h2 := abs_sub_le_255 _ _ (r2 (i + k)) (r3 (j + k))
      have h3 := abs_sub_le_255 _ _ (r3 (i + k)) (r4 (j + k))
      dsimp only
      omega)
  unfold sad
  dsimp only at key
  omega

theorem sum3_bounds (s0 s1 s2 S : Int) (h0 : 0 ≤ s0 ∧ s0 ≤ S) (h1 : -1 ≤ s1 ∧ s1 ≤ S)
    (h2 : -1 ≤ s2 ∧ s2 ≤ S) : 0 ≤ sum3 s0 s1 s2 ∧ sum3 s0 s1 s2 ≤ 3 * S := by
  simp only [sum3]
  split_ifs <;> omega

theorem alt_bounds (c : Prop) [Decidable c] (s S : Int) (hs : 0 ≤ s ∧ s ≤ S) (hS : 0 ≤ S) :
    -1 ≤ (if c then s else -1) ∧ (if c then s else -1) ≤ S := by
  split_ifs <;> omega

theorem third_bounds (t : Int) (h : 0 ≤ t ∧ t ≤ 3 * 5355) :
    (0 : ℚ) ≤ (t : ℚ) * 0.333333 ∧ (t : ℚ) * 0.333333 ≤ 5355 := by
  have c1 : (0 : ℚ) ≤ (t : ℚ) := by exact_mod_cast h.1
  have c2 : (t : ℚ) ≤ 3 * 5355 := by exact_mod_cast h.2
  have e : (0.333333 : ℚ) = 333333 / 1000000 := by norm_num
  rw [e]
  constructor
  · positivity
  · linarith

/-- The shape shared by the four cost formulas, with its bounds. -/
theorem cost_form_bounds (al be s a v : ℚ) (h1 : 0 ≤ al) (h2 : 0 ≤ be) (h3 : al + be ≤ 1)
    (hs : 0 ≤ s ∧ s ≤ 5355) (ha : 0 ≤ a ∧ a ≤ 40) (hv : 0 ≤ v ∧ v ≤ 510) :
    0 ≤ al * s + be * a + (1 - al - be) * v ∧ al * s + be * a + (1 - al - be) * v ≤ 5355 := by
  have h4 : 0 ≤ 1 - al - be := by linarith
  have e1 := mul_nonneg h1 hs.1
  have e2 := mul_nonneg h2 ha.1
  have e3 := mul_nonneg h4 hv.1
  have f1 := mul_le_mul_of_nonneg_left hs.2 h1
  have f2 := mul_le_mul_of_nonneg_left ha.2 h2
  have f3 := mul_le_mul_of_nonneg_left hv.2 h4
  constructor
  · linarith
  · nlinarith

/-- The local term `v = abs(src1p[x]-ip)+abs(src1n[x]-ip)` for an `ip` that is the rounded
mean of two samples. -/
theorem vterm_bounds (a b c e : Int) (ha : 0 ≤ a ∧ a ≤ 255) (hb : 0 ≤ b ∧ b ≤ 255)
    (hc : 0 ≤ c ∧ c ≤ 255) (he : 0 ≤ e ∧ e ≤ 255) :
    0 ≤ |c - shr (a + b + 1) 1| + |e - shr (a + b + 1) 1| ∧
    |c - shr (a + b + 1) 1| + |e - shr (a + b + 1) 1| ≤ 510 := by
  rw [shr_one]
  have hip : 0 ≤ (a + b + 1) / 2 ∧ (a + b + 1) / 2 ≤ 255 := by omega
  have h1 := abs_sub_le_255 c _ hc hip
  have h2 := abs_sub_le_255 e _ he hip
  have h3 := abs_nonneg (c - (a + b + 1) / 2)
  have h4 := abs_nonneg (e - (a + b + 1) / 2)
  omega

/-- Every cost computed by `interpLineFP` for a cell of the trellis lies in `[0,5355]`. -/
theorem ccostFP_bounds (p : Params) (r : Rows) (width x u : Int) (hp : Validated p)
    (hr : RowsU8 r) (hv : ValidCell 1 width p.mdis x u) :
    0 ≤ ccostFP p r width x u ∧ ccostFP p r width x u ≤ 5355 := by
  obtain ⟨a1, a2, b1, b2, ab, g, n1, n2, m1, m2⟩ := hp
  have hu : 0 ≤ |u| ∧ |u| ≤ 40 := by
    refine ⟨abs_nonneg u, abs_le.mpr ?_⟩
    unfold ValidCell umaxAt at hv
    omega
  have huq : (0 : ℚ) ≤ ((|u| : Int) : ℚ) ∧ ((|u| : Int) : ℚ) ≤ 40 := by
    exact ⟨by exact_mod_cast hu.1, by exact_mod_cast hu.2⟩
  have hvt := vterm_bounds (r.src1p (x + u)) (r.src1n (x - u)) (r.src1p x) (r.src1n x)
    (hr.2.1 _) (hr.2.2.1 _) (hr.2.1 _) (hr.2.2.1 _)
  have hvq : (0 : ℚ) ≤ ((|r.src1p x - shr (r.src1p (x + u) + r.src1n (x - u) + 1) 1|
      + |r.src1n x - shr (r.src1p (x + u) + r.src1n (x - u) + 1) 1| : Int) : ℚ) ∧
      ((|r.src1p x - shr (r.src1p (x + u) + r.src1n (x - u) + 1) 1|
      + |r.src1n x - shr (r.src1p (x + u) + r.src1n (x - u) + 1) 1| : Int) : ℚ) ≤ 510 := by
    exact ⟨by exact_mod_cast hvt.1, by exact_mod_cast hvt.2⟩
  have hS : ∀ i j, 0 ≤ sad r p.nrad i j ∧ sad r p.nrad i j ≤ 5355 := by
    intro i j
    have := sad_le r hr p.nrad i j n1
    exact ⟨sad_nonneg r p.nrad i j, by omega⟩
  unfold ccostFP
  dsimp only
  by_cases hc3 : (!p.cost3) = true
  · rw [if_pos hc3]
    have hsq : (0 : ℚ) ≤ ((sad r p.nrad (x + u) (x - u) : Int) : ℚ) ∧
        ((sad r p.nrad (x + u) (x - u) : Int) : ℚ) ≤ 5355 := by
      exact ⟨by exact_mod_cast (hS _ _).1, by exact_mod_cast (hS _ _).2⟩
    exact cost_form_bounds _ _ _ _ _ a1 b1 ab hsq huq (by exact_mod_cast hvq)
  · rw [if_neg hc3]
    have h3 := sum3_bounds (sad r p.nrad (x + u) (x - u))
      (if s1CondFP width x u then sad r p.nrad x (x - u * 2) else -1)
      (if s2CondFP width x u then sad r p.nrad (x + u * 2) x else -1) 5355 (hS _ _)
      (alt_bounds _ _ _ (hS _ _) (by omega)) (alt_bounds _ _ _ (hS _ _) (by omega))
    have c1 : (0 : ℚ) ≤ ((sum3 (sad r p.nrad (x + u) (x - u))
        (if s1CondFP width x u then sad r p.nrad x (x - u * 2) else -1)
        (if s2CondFP width x u then sad r p.nrad (x + u * 2) x else -1) : Int) : ℚ) := by
      exact_mod_cast h3.1
    have c2 : ((sum3 (sad r p.nrad (x + u) (x - u))
        (if s1CondFP width x u then sad r p.nrad x (x - u * 2) else -1)
        (if s2CondFP width x u then sad r p.nrad (x + u * 2) x else -1) : Int) : ℚ)
          ≤ 3 * 5355 := by
      exact_mod_cast h3.2
    have h3q : (0 : ℚ) ≤ ((sum3 (sad r p.nrad (x + u) (x - u))
        (if s1CondFP width x u then sad r p.nrad x (x - u * 2) else -1)
        (if s2CondFP width x u then sad r p.nrad (x + u * 2) x else -1) : Int) : ℚ) * 0.333333 ∧
        ((sum3 (sad r p.nrad (x + u) (x - u))
        (if s1CondFP width x u then sad r p.nrad x (x - u * 2) else -1)
        (if s2CondFP width x u then sad r p.nrad (x + u * 2) x else -1) : Int) : ℚ) * 0.333333
          ≤ 5355 := by
      have e : (0.333333 : ℚ) = 333333 / 1000000 := by norm_num
      rw [e]
      constructor
      · positivity
      · linarith
    have := cost_form_bounds _ _ _ _ _ a1 b1 ab h3q huq hvq
    rw [mul_assoc]
    exact this

theorem halfPelBytes_isU8 (ucubic : Bool) (width : Int) (r : Rows) (mem : Row)
    (hj : IsU8 mem) : IsU8 (halfPelBytes ucubic width r mem) := by
  have upd : ∀ (m : Row) (a v : Int), IsU8 m → IsU8 (Function.update m a (toU8 v)) := by
    intro m a v hm i
    by_cases hi : i = a
    · subst hi
      rw [Function.update_same]
      exact toU8_range _
    · rw [Function.update_noteq hi]
      exact hm i
  unfold halfPelBytes
  apply forUp_pres 0 (width - 2) _ mem IsU8 hj
  intro x m _ _ h
  split_ifs
  · exact upd _ _ _ (upd _ _ _ (upd _ _ _ (upd _ _ _ h)))
  · exact upd _ _ _ (upd _ _ _ (upd _ _ _ (upd _ _ _ h)))

theorem halfPelRows_u8 (ucubic : Bool) (width : Int) (r : Rows) (mem : Row) (hj : IsU8 mem) :
    RowsU8 (halfPelRows ucubic width r mem) :=
  ⟨fun _ => halfPelBytes_isU8 _ _ _ _ hj _, fun _ => halfPelBytes_isU8 _ _ _ _ hj _,
    fun _ => halfPelBytes_isU8 _ _ _ _ hj _, fun _ => halfPelBytes_isU8 _ _ _ _ hj _⟩

/-- Every cost computed by `interpLineHP` for a cell of the trellis lies in `[0,5355]`. -/
theorem ccostHP_bounds (p : Params) (r h : Rows) (width x u : Int) (hp : Validated p)
    (hr : RowsU8 r) (hh : RowsU8 h) (hv : ValidCell 2 width p.mdis x u) :
    0 ≤ ccostHP p r h width x u ∧ ccostHP p r h width x u ≤ 5355 := by
  obtain ⟨a1, a2, b1, b2, ab, g, n1, n2, m1, m2⟩ := hp
  have hu : 0 ≤ |u| ∧ |u| ≤ 80 := by
    refine ⟨abs_nonneg u, abs_le.mpr ?_⟩
    unfold ValidCell umaxAt at hv
    omega
  have huq : (0 : ℚ) ≤ ((|u| : Int) : ℚ) * 0.5 ∧ ((|u| : Int) : ℚ) * 0.5 ≤ 40 := by
    have c1 : (0 : ℚ) ≤ ((|u| : Int) : ℚ) := by exact_mod_cast hu.1
    have c2 : ((|u| : Int) : ℚ) ≤ 80 := by exact_mod_cast hu.2
    have e : (0.5 : ℚ) = 1 / 2 := by norm_num
    rw [e]
    constructor
    · positivity
    · linarith
  have hS : ∀ (q : Rows), RowsU8 q → ∀ i j, 0 ≤ sad q p.nrad i j ∧ sad q p.nrad i j ≤ 5355 := by
    intro q hq i j
    have := sad_le q hq p.nrad i j n1
    exact ⟨sad_nonneg q p.nrad i j, by omega⟩
  have hs0 : 0 ≤ (if u % 2 = 0 then sad r p.nrad (x + shr u 1) (x - shr u 1)
      else sad h p.nrad (x + shr u 1) (x - shr u 1 - 1)) ∧
      (if u % 2 = 0 then sad r p.nrad (x + shr u 1) (x - shr u 1)
      else sad h p.nrad (x + shr u 1) (x - shr u 1 - 1)) ≤ 5355 := by
    split_ifs
    · exact hS r hr _ _
    · exact hS h hh _ _
  have hvt : 0 ≤ |r.src1p x - (if u % 2 = 0 then
        shr (r.src1p (x + shr u 1) + r.src1n (x - shr u 1) + 1) 1
        else shr (h.src1p (x + shr u 1) + h.src1n (x - shr u 1 - 1) + 1) 1)| +
      |r.src1n x - (if u % 2 = 0 then
        shr (r.src1p (x + shr u 1) + r.src1n (x - shr u 1) + 1) 1
        else shr (h.src1p (x + shr u 1) + h.src1n (x - shr u 1 - 1) + 1) 1)| ∧
      |r.src1p x - (if u % 2 = 0 then
        shr (r.src1p (x + shr u 1) + r.src1n (x - shr u 1) + 1) 1
        else shr (h.src1p (x + shr u 1) + h.src1n (x - shr u 1 - 1) + 1) 1)| +
      |r.src1n x - (if u % 2 = 0 then
        shr (r.src1p (x + shr u 1) + r.src1n (x - shr u 1) + 1) 1
        else shr (h.src1p (x + shr u 1) + h.src1n (x - shr u 1 - 1) + 1) 1)| ≤ 510 := by
    split_ifs
    · exact vterm_bounds _ _ _ _ (hr.2.1 _) (hr.2.2.1 _) (hr.2.1 _) (hr.2.2.1 _)
    · exact vterm_bounds _ _ _ _ (hh.2.1 _) (hh.2.2.1 _) (hr.2.1 _) (hr.2.2.1 _)
  have hvq := And.intro (show (0 : ℚ) ≤ ((_ : Int) : ℚ) from by exact_mod_cast hvt.1)
    (show (((_ : Int) : ℚ)) ≤ 510 from by exact_mod_cast hvt.2)
  unfold ccostHP
  dsimp only
  by_cases hc3 : (!p.cost3) = true
  · rw [if_pos hc3]
    have hsq := And.intro (show (0 : ℚ) ≤ ((_ : Int) : ℚ) from by exact_mod_cast hs0.1)
      (show (((_ : Int) : ℚ)) ≤ 5355 from by exact_mod_cast hs0.2)
    have := cost_form_bounds _ _ _ _ _ a1 b1 ab hsq huq hvq
    rw [mul_assoc p.beta]
    exact this
  · rw [if_neg hc3]
    have h3 := sum3_bounds _
      (if s1CondHP width x u then sad r p.nrad x (x - u) else -1)
      (if s2CondHP width x u then sad r p.nrad (x + u) x else -1) 5355 hs0
      (alt_bounds _ _ _ (hS r hr _ _) (by omega)) (alt_bounds _ _ _ (hS r hr _ _) (by omega))
    have h3q := third_bounds _ h3
    have := cost_form_bounds _ _ _ _ _ a1 b1 ab h3q huq hvq
    rw [mul_assoc p.alpha, mul_assoc p.beta]
    exact this

/-! ## The two scanline functions -/

theorem solveFP_solved (r : Rows) (width : Int) (p : Params) (temp : Scratch)
    (hm : 0 ≤ p.mdis) (hw : 1 ≤ width) :
    Solved 1 1 width p.mdis p.gamma (ccostFP p r width) temp.idx0 (solveFP r width p temp) :=
  solved_of_loops 1 1 width p.mdis p.gamma _ temp (Or.inl rfl) hm hw

theorem solveHP_solved (r : Rows) (mem : Row) (width : Int) (p : Params) (temp : Scratch)
    (hm : 0 ≤ p.mdis) (hw : 1 ≤ width) :
    Solved 2 0.5 width p.mdis p.gamma
      (ccostHP p r (halfPelRows p.ucubic width r mem) width) temp.idx0
      (solveHP r mem width p temp) :=
  solved_of_loops 2 0.5 width p.mdis p.gamma _ temp (Or.inr rfl) hm hw

theorem interpLineFP_dmap (r : Rows) (width : Int) (p : Params) (temp : Scratch)
    (out : Output) (x : Int) (h0 : 0 ≤ x) (h1 : x < width) :
    (interpLineFP r width p temp out).dmap x = (solveFP r width p temp).fpath x :=
  ((interpolate_spec _ width _ out (by omega) x).1 ⟨h0, h1⟩).1

theorem interpLineHP_dmap (r : Rows) (mem : Row) (width : Int) (p : Params) (temp : Scratch)
    (out : Output) (x : Int) (h0 : 0 ≤ x) (h1 : x < width) :
    (interpLineHP r mem width p temp out).dmap x = (solveHP r mem width p temp).fpath x :=
  ((interpolate_spec _ width _ out (by omega) x).1 ⟨h0, h1⟩).1

/-- The backtracked path is admissible. -/
theorem Solved.admissible {sc : Int} {pen : ℚ} {width mdis : Int} {gamma : ℚ}
    {cell : Int → Int → ℚ} {idx0 : Int} {s : Scratch}
    (h : Solved sc pen width mdis gamma cell idx0 s) (hsc : sc = 1 ∨ sc = 2) (hm : 0 ≤ mdis)
    (hw : 1 ≤ width) : Admissible sc width mdis s.fpath := by
  constructor
  · intro x h0 h1
    have := h.valid hsc hm hw x h0 h1
    unfold ValidCell at this
    rw [neg_mul] at this
    exact abs_le.mpr ⟨this.2.2.1, this.2.2.2⟩
  · intro x h0 h1
    have := h.near hsc hm hw x h0 h1
    exact abs_le.mpr ⟨by omega, by omega⟩

theorem Admissible.congr {sc width mdis : Int} {d d2 : Int → Int}
    (h : Admissible sc width mdis d) (e : ∀ x, 0 ≤ x → x < width → d2 x = d x) :
    Admissible sc width mdis d2 := by
  constructor
  · intro x h0 h1
    rw [e x h0 h1]
    exact h.1 x h0 h1
  · intro x h0 h1
    rw [e x h0 (by omega), e (x + 1) (by omega) h1]
    exact h.2 x h0 h1

/-- The cost of the backtracked path is at most `width*(B+gamma)` when every cell costs at
most `B` and a step of `sc` units is penalised by at most `gamma`. -/
theorem Solved.cost_le {sc : Int} {pen : ℚ} {width mdis : Int} {gamma : ℚ}
    {cell : Int → Int → ℚ} {idx0 : Int} {s : Scratch}
    (h : Solved sc pen width mdis gamma cell idx0 s) (hsc : sc = 1 ∨ sc = 2) (hm : 0 ≤ mdis)
    (hw : 1 ≤ width) (B : ℚ) (hg : 0 ≤ gamma) (hpen : 0 ≤ pen)
    (hsp : (sc : ℚ) * pen ≤ 1)
    (hle : ∀ x u, ValidCell sc width mdis x u → cell x u ≤ B) :
    pathCost cell gamma pen width s.fpath ≤ (width : ℚ) * (B + gamma) := by
  have hval := h.valid hsc hm hw
  have hnear := h.near hsc hm hw
  have key : ∀ n : Nat, (n : Int) < width →
      prefixCost cell gamma pen s.fpath n ≤ ((n : ℚ) + 1) * B + (n : ℚ) * gamma := by
    intro n
    induction n with
    | zero =>
      intro hlt
      have := hle 0 _ (hval 0 (le_refl 0) (by omega))
      simpa [prefixCost] using this
    | succ m ih =>
      intro hlt
      push_cast at hlt ⊢
      rw [prefixCost_succ]
      have h1 := ih (by omega)
      have h2 := hle _ _ (hval ((m : Int) + 1) (by omega) hlt)
      have h3 := hnear (m : Int) (by omega) hlt
      have h4 : ((|s.fpath ((m : Int) + 1) - s.fpath (m : Int)| : Int) : ℚ) ≤ (sc : ℚ) := by
        have : |s.fpath ((m : Int) + 1) - s.fpath (m : Int)| ≤ sc :=
          abs_le.mpr ⟨by omega, by omega⟩
        exact_mod_cast this
      have h5 : gamma * ((|s.fpath ((m : Int) + 1) - s.fpath (m : Int)| : Int) : ℚ) * pen
          ≤ gamma := by
        have := mul_le_mul_of_nonneg_right h4 hpen
        have h6 : ((|s.fpath ((m : Int) + 1) - s.fpath (m : Int)| : Int) : ℚ) * pen ≤ 1 :=
          le_trans this hsp
        have := mul_le_mul_of_nonneg_left h6 hg
        rw [mul_one, ← mul_assoc] at this
        exact this
      linarith
  rw [pathCost_eq_prefixCost _ _ _ _ _ hw]
  have hk := key (width - 1).toNat (by omega)
  have e : (((width - 1).toNat : Nat) : ℚ) = (width : ℚ) - 1 := by
    have : (((width - 1).toNat : Nat) : Int) = width - 1 := by omega
    have := congrArg (fun z : Int => (z : ℚ)) this
    simpa using this
  rw [e] at hk
  have hwq : (1 : ℚ) ≤ (width : ℚ) := by exact_mod_cast hw
  nlinarith

/-- Claim C2 (bounded displacement). For every width `≥ 1`, `mdis` in `1..40`, all rows,
parameters and scratch contents, every entry `dmap[x]`, `0 ≤ x < width`, written by
`interpLineFP` satisfies `|d(x)| ≤ min(x, width-1-x, mdis)`, hence `|d(x)| ≤ mdis` and
`d(0) = d(width-1) = 0`; every entry written by `interpLineHP` satisfies
`|d(x)| ≤ 2*min(x, width-1-x, mdis)`, hence `|d(x)| ≤ 2*mdis`. -/
theorem bounded_displacement (r : Rows) (mem : Row) (width : Int) (p : Params) (temp : Scratch)
    (out : Output) (hw : 1 ≤ width) (hm1 : 1 ≤ p.mdis) (hm2 : p.mdis ≤ 40) :
    (∀ x, 0 ≤ x → x < width →
      |(interpLineFP r width p temp out).dmap x| ≤ min (min x (width - 1 - x)) p.mdis ∧
      |(interpLineFP r width p temp out).dmap x| ≤ p.mdis) ∧
    (interpLineFP r width p temp out).dmap 0 = 0 ∧
    (interpLineFP r width p temp out).dmap (width - 1) = 0 ∧
    (∀ x, 0 ≤ x → x < width →
      |(interpLineHP r mem width p temp out).dmap x| ≤ 2 * min (min x (width - 1 - x)) p.mdis ∧
      |(interpLineHP r mem width p temp out).dmap x| ≤ 2 * p.mdis) := by
  have hF := (solveFP_solved r width p temp (by omega) hw).valid (Or.inl rfl) (by omega) hw
  have hH := (solveHP_solved r mem width p temp (by omega) hw).valid (Or.inr rfl)
    (by omega) hw
  have fp : ∀ x, 0 ≤ x → x < width →
      |(interpLineFP r width p temp out).dmap x| ≤ min (min x (width - 1 - x)) p.mdis := by
    intro x h0 h1
    rw [interpLineFP_dmap r width p temp out x h0 h1]
    have := hF x h0 h1
    unfold ValidCell umaxAt at this
    exact abs_le.mpr ⟨by omega, by omega⟩
  refine ⟨fun x h0 h1 => ⟨fp x h0 h1, le_trans (fp x h0 h1) (min_le_right _ _)⟩, ?_, ?_, ?_⟩
  · have := abs_le.mp (fp 0 (le_refl 0) (by omega))
    omega
  · have := abs_le.mp (fp (width - 1) (by omega) (by omega))
    omega
  · intro x h0 h1
    rw [interpLineHP_dmap r mem width p temp out x h0 h1]
    have := hH x h0 h1
    unfold ValidCell umaxAt at this
    exact ⟨abs_le.mpr ⟨by omega, by omega⟩, abs_le.mpr ⟨by omega, by omega⟩⟩

/-- Claim C3 (continuity). For every input and every pair of adjacent columns `x`, `x+1`
with `0 ≤ x < width-1`, the displacement map written by `interpLineFP` satisfies
`|d(x+1) - d(x)| ≤ 1` and the one written by `interpLineHP` satisfies
`|d(x+1) - d(x)| ≤ 2`. -/
theorem continuity (r : Rows) (mem : Row) (width : Int) (p : Params) (temp : Scratch)
    (out : Output) (hm : 0 ≤ p.mdis) (x : Int) (h0 : 0 ≤ x) (h1 : x < width - 1) :
    |(interpLineFP r width p temp out).dmap (x + 1)
      - (interpLineFP r width p temp out).dmap x| ≤ 1 ∧
    |(interpLineHP r mem width p temp out).dmap (x + 1)
      - (interpLineHP r mem width p temp out).dmap x| ≤ 2 := by
  have hw : 1 ≤ width := by omega
  have hF := (solveFP_solved r width p temp hm hw).near (Or.inl rfl) hm hw x h0 (by omega)
  have hH := (solveHP_solved r mem width p temp hm hw).near (Or.inr rfl) hm hw x h0
    (by omega)
  rw [interpLineFP_dmap r width p temp out x h0 (by omega),
    interpLineFP_dmap r width p temp out (x + 1) (by omega) (by omega),
    interpLineHP_dmap r mem width p temp out x h0 (by omega),
    interpLineHP_dmap r mem width p temp out (x + 1) (by omega) (by omega)]
  exact ⟨abs_le.mpr ⟨by omega, by omega⟩, abs_le.mpr ⟨by omega, by omega⟩⟩

/-- Claim C1 (path optimality), costs taken as exact rationals. For every width `≥ 1`,
every validated parameter set and all 8-bit rows, with `width*(5355+gamma)` at most the
saturation level `FLT_MAX*0.9` (no path cost can then reach it, `5355` bounding every cell
cost), the displacement map written by `interpLineFP` is admissible and minimises
`sum_x cost(x,d(x)) + gamma*sum_x |d(x+1)-d(x)|` over the sequences with
`|d(x)| ≤ min(x,width-1-x,mdis)` and `|d(x+1)-d(x)| ≤ 1`; the one written by
`interpLineHP` does so for the range `2*min(x,width-1-x,mdis)`, the step bound `2` and
the penalty `gamma*|d(x+1)-d(x)|*0.5`. -/
theorem path_optimality (r : Rows) (mem : Row) (width : Int) (p : Params) (temp : Scratch)
    (out : Output) (hw : 1 ≤ width) (hp : Validated p) (hr : RowsU8 r) (hj : IsU8 mem)
    (hns : (width : ℚ) * (5355 + p.gamma) ≤ FLT_MAX * 0.9) :
    (Admissible 1 width p.mdis (interpLineFP r width p temp out).dmap ∧
      ∀ d, Admissible 1 width p.mdis d →
        pathCost (ccostFP p r width) p.gamma 1 width (interpLineFP r width p temp out).dmap
          ≤ pathCost (ccostFP p r width) p.gamma 1 width d) ∧
    (Admissible 2 width p.mdis (interpLineHP r mem width p temp out).dmap ∧
      ∀ d, Admissible 2 width p.mdis d →
        pathCost (ccostHP p r (halfPelRows p.ucubic width r mem) width) p.gamma 0.5 width
            (interpLineHP r mem width p temp out).dmap
          ≤ pathCost (ccostHP p r (halfPelRows p.ucubic width r mem) width) p.gamma 0.5
            width d) := by
  have hm : 0 ≤ p.mdis := by have := hp.2.2.2.2.2.2.2.2.1; omega
  have hg : 0 ≤ p.gamma := hp.2.2.2.2.2.1
  have hF := solveFP_solved r width p temp hm hw
  have hH := solveHP_solved r mem width p temp hm hw
  have hh := halfPelRows_u8 p.ucubic width r mem hj
  constructor
  · refine ⟨(hF.admissible (Or.inl rfl) hm hw).congr
      (fun x h0 h1 => interpLineFP_dmap r width p temp out x h0 h1), ?_⟩
    intro d hd
    rw [pathCost_congr _ _ _ _ _ _ (fun x h0 h1 => interpLineFP_dmap r width p temp out x h0 h1)]
    apply hF.optimal (Or.inl rfl) hm hw (by simpa using hg)
      (fun x u hv => (ccostFP_bounds p r width x u hp hr hv).1) _ d hd
    refine le_trans (hF.cost_le (Or.inl rfl) hm hw 5355 hg (by norm_num)
      (by norm_num) (fun x u hv => (ccostFP_bounds p r width x u hp hr hv).2)) hns
  · refine ⟨(hH.admissible (Or.inr rfl) hm hw).congr
      (fun x h0 h1 => interpLineHP_dmap r mem width p temp out x h0 h1), ?_⟩
    intro d hd
    rw [pathCost_congr _ _ _ _ _ _
      (fun x h0 h1 => interpLineHP_dmap r mem width p temp out x h0 h1)]
    apply hH.optimal (Or.inr rfl) hm hw (by norm_num; exact hg)
      (fun x u hv => (ccostHP_bounds p r _ width x u hp hr hh hv).1) _ d hd
    refine le_trans (hH.cost_le (Or.inr rfl) hm hw 5355 hg (by norm_num)
      (by norm_num) (fun x u hv => (ccostHP_bounds p r _ width x u hp hr hh hv).2)) hns

/-! ## Facts about the concrete inputs -/

theorem stepRow_isU8 (e : Int) : IsU8 (stepRow e) := by
  intro i
  unfold stepRow
  split_ifs <;> omega

theorem diagRows_u8 (e : Int) : RowsU8 (diagRows e) :=
  ⟨stepRow_isU8 _, stepRow_isU8 _, stepRow_isU8 _, stepRow_isU8 _⟩

theorem flatRows_u8 (k : Int) (h0 : 0 ≤ k) (h1 : k ≤ 255) : RowsU8 (flatRows k) :=
  ⟨fun _ => ⟨h0, h1⟩, fun _ => ⟨h0, h1⟩, fun _ => ⟨h0, h1⟩, fun _ => ⟨h0, h1⟩⟩

theorem defaultWeights_validated (nrad mdis : Int) (ucubic cost3 : Bool) (h1 : 1 ≤ mdis)
    (h2 : mdis ≤ 40) (h3 : 0 ≤ nrad) (h4 : nrad ≤ 3) :
    Validated (defaultWeights nrad mdis ucubic cost3) := by
  unfold Validated defaultWeights
  norm_num
  exact ⟨h3, h4, h1, h2⟩

theorem admissible_zero (sc width mdis : Int) (hsc : sc = 1 ∨ sc = 2) (hm : 0 ≤ mdis) :
    Admissible sc width mdis (fun _ => 0) := by
  constructor
  · intro x h0 h1
    simp only [abs_zero]
    unfold umaxAt
    rcases hsc with rfl | rfl <;> omega
  · intro x h0 h1
    simp only [sub_self, abs_zero]
    rcases hsc with rfl | rfl <;> omega

/-- On flat rows with `alpha = beta = 0` every cost of `interpLineFP` is zero. -/
theorem ccostFP_flat_zero (p : Params) (k width x u : Int) (ha : p.alpha = 0)
    (hb : p.beta = 0) : ccostFP p (flatRows k) width x u = 0 := by
  have hip : shr (k + k + 1) 1 = k := by rw [shr_one]; omega
  unfold ccostFP flatRows
  simp [ha, hb, hip]

/-! ## Claims on the path solver: witnesses, C4 -/

/-- Instance of `path_optimality` on the diagonal-edge scanline, against the zero path. -/
theorem path_optimality_witness :
    pathCost (ccostFP (defaultWeights 2 4 true false) (diagRows 8) 16)
        (defaultWeights 2 4 true false).gamma 1 16
        (interpLineFP (diagRows 8) 16 (defaultWeights 2 4 true false) zeroScratch zeroOutput).dmap
      ≤ pathCost (ccostFP (defaultWeights 2 4 true false) (diagRows 8) 16)
        (defaultWeights 2 4 true false).gamma 1 16 (fun _ => 0) :=
  (path_optimality (diagRows 8) (fun _ => 0) 16 (defaultWeights 2 4 true false) zeroScratch
    zeroOutput (by decide) (defaultWeights_validated 2 4 true false (by decide) (by decide) (by decide) (by decide))
    (diagRows_u8 8) (fun _ => ⟨le_refl 0, show (0 : Int) ≤ 255 by decide⟩)
    (by unfold defaultWeights FLT_MAX; norm_num)).1.2 (fun _ => 0)
    (admissible_zero 1 16 _ (Or.inl rfl) (by decide))

/-- Instance of `bounded_displacement` at width 16, `mdis = 40`, column 3. -/
theorem bounded_displacement_witness :
    |(interpLineFP (diagRows 8) 16 (defaultWeights 2 40 true false) zeroScratch zeroOutput).dmap 3|
      ≤ min (min 3 (16 - 1 - 3)) (defaultWeights 2 40 true false).mdis :=
  ((bounded_displacement (diagRows 8) (fun _ => 0) 16 (defaultWeights 2 40 true false)
    zeroScratch zeroOutput (by decide) (by decide) (by decide)).1 3 (by decide) (by decide)).1

/-- Instance of `continuity` at width 16, columns 2 and 3, half-pixel mode. -/
theorem continuity_witness :
    |(interpLineHP (diagRows 8) (fun _ => 0) 16 (defaultWeights 2 4 true false) zeroScratch
        zeroOutput).dmap (2 + 1)
      - (interpLineHP (diagRows 8) (fun _ => 0) 16 (defaultWeights 2 4 true false) zeroScratch
        zeroOutput).dmap 2| ≤ 2 :=
  (continuity (diagRows 8) (fun _ => 0) 16 (defaultWeights 2 4 true false) zeroScratch
    zeroOutput (by decide) 2 (by decide) (by decide)).2

/-- Claim C4, amended. With `alpha = beta = gamma = 0` and all four reference rows uniformly
equal to one sample value `k`, every candidate cost is equal (zero) and, for every width
`≥ 1` and every `mdis ≥ 0`, `interpLineFP` deterministically returns the displacement
`-min(x, width-1-x, mdis)` at every column `x`: ties are broken toward the lowest
predecessor, not toward zero. -/
theorem degenerate_cost_lowest (k width : Int) (p : Params) (temp : Scratch) (out : Output)
    (hw : 1 ≤ width) (hm : 0 ≤ p.mdis) (ha : p.alpha = 0) (hb : p.beta = 0)
    (hg : p.gamma = 0) :
    (∀ x u, ccostFP p (flatRows k) width x u = 0) ∧
    (∀ x, 0 ≤ x → x < width →
      (interpLineFP (flatRows k) width p temp out).dmap x
        = -(min (min x (width - 1 - x)) p.mdis)) := by
  refine ⟨fun x u => ccostFP_flat_zero p k width x u ha hb, ?_⟩
  intro x h0 h1
  rw [interpLineFP_dmap _ width p temp out x h0 h1]
  have := (solveFP_solved (flatRows k) width p temp hm hw).lowest_of_zero (Or.inl rfl) hm hw hg
    (fun x u _ => ccostFP_flat_zero p k width x u ha hb) x h0 h1
  rw [this, mul_one]
  rfl

/-- Instance of `degenerate_cost_lowest` at width 16, `mdis = 4`, column 5. -/
theorem degenerate_cost_lowest_witness :
    (interpLineFP (flatRows 128) 16 (zeroWeights 2 4 true false) zeroScratch zeroOutput).dmap 5
      = -(min (min 5 (16 - 1 - 5)) (zeroWeights 2 4 true false).mdis) :=
  (degenerate_cost_lowest 128 16 (zeroWeights 2 4 true false) zeroScratch zeroOutput
    (by decide) (by decide) rfl rfl rfl).2 5 (by decide) (by decide)

set_option maxRecDepth 100000 in
/-- Claim C4 as stated fails: on the flat 3-column scanline with `alpha = beta = gamma = 0`
the displacement chosen at column 1 is `-1`, so the map is not zero at every column. -/
theorem degenerate_cost_counterexample :
    (interpLineFP (flatRows 128) 3 (zeroWeights 2 4 true false) zeroScratch zeroOutput).dmap 1
      = -1 ∧
    ¬ (∀ x, 0 ≤ x → x < 3 →
      (interpLineFP (flatRows 128) 3 (zeroWeights 2 4 true false) zeroScratch zeroOutput).dmap x
        = 0) := by
  have h : (interpLineFP (flatRows 128) 3 (zeroWeights 2 4 true false) zeroScratch
      zeroOutput).dmap 1 = -1 := by decide!
  refine ⟨h, fun hall => ?_⟩
  have := hall 1 (by decide) (by decide)
  rw [h] at this
  exact absurd this (by decide)

/-! ## The vcheck pass -/

theorem clamp255_range (v : Int) : 0 ≤ clamp255 v ∧ clamp255 v ≤ 255 := by
  unfold clamp255; omega

/-- After the column loop and the `memcpy`, each column of the row holds its `tline` byte. -/
theorem vcheckRow_apply (v : VParams) (w : VRows) (width : Int) (tline0 : Row) (x : Int)
    (h0 : 0 ≤ x) (h1 : x < width) :
    vcheckRow v w width tline0 x = vcheckPixel v w x := by
  have key := forUp_inv 0 (width - 1)
    (fun x (tl : Row) => Function.update tl x (vcheckPixel v w x)) tline0
    (fun i tl => ∀ x2, 0 ≤ x2 → x2 < i → tl x2 = vcheckPixel v w x2)
    (by omega) (fun x2 a b => by omega)
    (by
      intro i tl hi1 hi2 hP x2 a b
      by_cases hx : x2 = i
      · subst hx
        exact Function.update_same _ _ _
      · exact (Function.update_noteq hx _ _).trans (hP x2 a (by omega)))
  simp only [sub_add_cancel] at key
  unfold vcheckRow
  simp only [h0, h1, and_self, if_true]
  exact key x h0 h1

/-- Inside the row, the row after the check holds what the column body stored, with the
blend rounded as the code rounds it. -/
theorem vcheckRowFloat_apply (v : VParams) (w : VRows) (width : Int) (tline0 : Row) (x : Int)
    (h0 : 0 ≤ x) (h1 : x < width) :
    vcheckRowFloat v w width tline0 x = vcheckPixelFloat v w x := by
  have key := forUp_inv 0 (width - 1)
    (fun x (tl : Row) => Function.update tl x (vcheckPixelFloat v w x)) tline0
    (fun i tl => ∀ x2, 0 ≤ x2 → x2 < i → tl x2 = vcheckPixelFloat v w x2)
    (by omega) (fun x2 a b => by omega)
    (by
      intro i tl hi1 hi2 hP x2 a b
      by_cases hx : x2 = i
      · subst hx
        exact Function.update_same _ _ _
      · exact (Function.update_noteq hx _ _).trans (hP x2 a (by omega)))
  simp only [sub_add_cancel] at key
  unfold vcheckRowFloat
  simp only [h0, h1, and_self, if_true]
  exact key x h0 h1

/-- On a column that is not blended (zero displacement, or neighbours that disagree), the
rounding of the blend plays no part: the byte stored is the one of the exact reading. -/
theorem vcheckPixelFloat_unblended (v : VParams) (w : VRows) (x : Int)
    (h : w.dmapC x = 0 ∨ max (w.dmapC x * w.dmapT x) (w.dmapC x * w.dmapB x) < 0 ∨
      (w.dmapT x = w.dmapB x ∧ w.dmapT x = 0)) :
    vcheckPixelFloat v w x = vcheckPixel v w x := by
  unfold vcheckPixelFloat vcheckPixel
  by_cases hd : w.dmapC x = 0
  · simp only [hd, if_true]
  · rcases h with h | h
    · exact absurd h hd
    · simp only [hd, if_false, h, if_true]

theorem cintAt_range (w : VRows) (x : Int) (hs : ∀ s, w.scpp = some s → IsU8 s) :
    0 ≤ cintAt w x ∧ cintAt w x ≤ 255 := by
  unfold cintAt
  cases hsc : w.scpp with
  | none => exact clamp255_range _
  | some s => exact hs s hsc x

theorem blendWeight_range (v : VParams) (w : VRows) (x : Int) :
    0 ≤ blendWeight v w x ∧ blendWeight v w x ≤ 1 := by
  simp only [blendWeight]
  exact ⟨le_min (le_max_of_le_right (le_max_right _ _)) zero_le_one, min_le_right _ _⟩

/-- A blend of two integers with a weight in `[0,1]`, truncated, lies between them. -/
theorem blend_between (a : ℚ) (d c : Int) (ha : 0 ≤ a ∧ a ≤ 1) (hd : 0 ≤ d) (hc : 0 ≤ c) :
    min d c ≤ truncToInt ((1 - a) * (d : ℚ) + a * (c : ℚ)) ∧
    truncToInt ((1 - a) * (d : ℚ) + a * (c : ℚ)) ≤ max d c := by
  have m1 : ((min d c : Int) : ℚ) ≤ (d : ℚ) := by exact_mod_cast min_le_left d c
  have m2 : ((min d c : Int) : ℚ) ≤ (c : ℚ) := by exact_mod_cast min_le_right d c
  have M1 : (d : ℚ) ≤ ((max d c : Int) : ℚ) := by exact_mod_cast le_max_left d c
  have M2 : (c : ℚ) ≤ ((max d c : Int) : ℚ) := by exact_mod_cast le_max_right d c
  have h1a : 0 ≤ 1 - a := by linarith
  have lo : ((min d c : Int) : ℚ) ≤ (1 - a) * (d : ℚ) + a * (c : ℚ) := by
    have e1 := mul_le_mul_of_nonneg_left m1 h1a
    have e2 := mul_le_mul_of_nonneg_left m2 ha.1
    linarith
  have hi : (1 - a) * (d : ℚ) + a * (c : ℚ) ≤ ((max d c : Int) : ℚ) := by
    have e1 := mul_le_mul_of_nonneg_left M1 h1a
    have e2 := mul_le_mul_of_nonneg_left M2 ha.1
    linarith
  have hq : 0 ≤ (1 - a) * (d : ℚ) + a * (c : ℚ) := by
    have e1 : (0 : ℚ) ≤ (d : ℚ) := by exact_mod_cast hd
    have e2 : (0 : ℚ) ≤ (c : ℚ) := by exact_mod_cast hc
    have := mul_nonneg h1a e1
    have := mul_nonneg ha.1 e2
    linarith
  unfold truncToInt
  rw [if_pos hq]
  constructor
  · exact Int.le_floor.mpr lo
  · have := le_trans (Int.floor_le _) hi
    exact_mod_cast this

/-- With `ucubic` a column given displacement `0` is reconstructed, by `interpLineFP` and by
`interpLineHP` alike, as the clamped 4-tap cubic of the four known samples above and below
it. -/
theorem interpPixel_zero_cubic (r : Rows) (width x : Int) (h0 : 0 ≤ x) (h1 : x < width) :
    interpPixelFP true r width x 0
      = clamp255 (shr (36 * (r.src1p x + r.src1n x) - 4 * (r.src3p x + r.src3n x) + 32) 6) ∧
    interpPixelHP true r width x 0
      = clamp255 (shr (36 * (r.src1p x + r.src1n x) - 4 * (r.src3p x + r.src3n x) + 32) 6) := by
  have hc : (true = true ∧ x ≥ |(0 : Int)| * 3 ∧ x ≤ width - 1 - |(0 : Int)| * 3) := by
    simp only [abs_zero, zero_mul, sub_zero, true_and]
    omega
  have hs : shr 0 1 = 0 := by rw [shr_one]; rfl
  have hr := clamp255_range (shr (36 * (r.src1p x + r.src1n x)
    - 4 * (r.src3p x + r.src3n x) + 32) 6)
  constructor
  · unfold interpPixelFP
    simp only [hc, and_self, if_true, add_zero, sub_zero, zero_mul]
    exact toU8_of_range _ hr.1 hr.2
  · unfold interpPixelHP
    simp only [hs, hc, and_self, if_true, add_zero, sub_zero, zero_mul, EuclideanDomain.zero_mod]
    exact toU8_of_range _ hr.1 hr.2

/-- Claim C5, amended. For every vcheck policy, all thresholds, with or without a secondary
clip and for either value of `hp`, a column of a checked row whose displacement-map entry
is `0` holds after the vcheck pass the centre estimate `cint` (the sample of the secondary
clip when one is supplied, else the clamped 4-tap vertical cubic of the known rows). It
therefore has the same sample value as before when no secondary clip is supplied and the
row was reconstructed with `ucubic = true` from the same known rows. -/
theorem vcheck_zero_displacement (v : VParams) (w : VRows) (width : Int) (tline0 : Row)
    (x : Int) (h0 : 0 ≤ x) (h1 : x < width) (hd : w.dmapC x = 0)
    (hs : ∀ s, w.scpp = some s → IsU8 s) :
    vcheckRow v w width tline0 x = cintAt w x ∧
    (w.scpp = none →
      (w.dstp x = interpPixelFP true ⟨w.dst3p, w.dst1p, w.dst1n, w.dst3n⟩ width x 0 ∨
       w.dstp x = interpPixelHP true ⟨w.dst3p, w.dst1p, w.dst1n, w.dst3n⟩ width x 0) →
      vcheckRow v w width tline0 x = w.dstp x) := by
  have key : vcheckRow v w width tline0 x = cintAt w x := by
    rw [vcheckRow_apply v w width tline0 x h0 h1]
    unfold vcheckPixel
    simp only [hd, if_true]
    exact toU8_of_range _ (cintAt_range w x hs).1 (cintAt_range w x hs).2
  refine ⟨key, ?_⟩
  intro hn hrec
  have hz := interpPixel_zero_cubic ⟨w.dst3p, w.dst1p, w.dst1n, w.dst3n⟩ width x h0 h1
  rw [key]
  unfold cintAt
  rw [hn]
  rcases hrec with e | e
  · rw [e, hz.1]
  · rw [e, hz.2]

/-- Instance of `vcheck_zero_displacement` between known rows `0, 100, 100, 0`. -/
theorem vcheck_zero_displacement_witness :
    vcheckRow (defaultThresholds 2 false) (peakCheck none 0) 16 (fun _ => 0) 8
      = cintAt (peakCheck none 0) 8 :=
  (vcheck_zero_displacement (defaultThresholds 2 false) (peakCheck none 0) 16 (fun _ => 0) 8
    (by decide) (by decide) rfl (fun s hs => by simp [peakCheck] at hs)).1

set_option maxRecDepth 100000 in
/-- Claim C5 as stated fails: between known rows `0, 100, 100, 0`, a column reconstructed
with displacement `0` and without `ucubic` holds `100` before the check and `113` after
it (no secondary clip), and the sample `7` of the secondary clip when one is supplied. -/
theorem vcheck_zero_displacement_counterexample :
    (peakCheck none 0).dmapC 8 = 0 ∧ (peakCheck none 0).dstp 8 = 100 ∧
    vcheckRow (defaultThresholds 2 false) (peakCheck none 0) 16 (fun _ => 0) 8 = 113 ∧
    vcheckRow (defaultThresholds 2 false) (peakCheck (some (fun _ => 7)) 0) 16 (fun _ => 0) 8
      = 7 := by
  decide!

theorem sadReads_mem (nrad i j t : Int) (h : t ∈ sadReads nrad i j) :
    ∃ k, -nrad ≤ k ∧ k ≤ nrad ∧ (t = i + k ∨ t = j + k) := by
  have key := forUp_pres (-nrad) nrad (fun k (l : List Int) => l ++ [i + k, j + k]) []
    (fun l => ∀ t ∈ l, ∃ k, -nrad ≤ k ∧ k ≤ nrad ∧ (t = i + k ∨ t = j + k))
    (by intro t ht; simp at ht)
    (by
      intro k l h1 h2 hP t ht
      rcases List.mem_append.mp ht with ht | ht
      · exact hP t ht
      · simp only [List.mem_cons, List.mem_singleton, List.not_mem_nil, or_false] at ht
        exact ⟨k, h1, h2, ht⟩)
  exact key t h

/-- Offsets read by a window sum whose two centres lie in `[0,width-1]`. -/
theorem sadReads_bound (nrad i j width t : Int) (hi : 0 ≤ i ∧ i ≤ width - 1)
    (hj : 0 ≤ j ∧ j ≤ width - 1) (h : t ∈ sadReads nrad i j) :
    -nrad ≤ t ∧ t ≤ width - 1 + nrad := by
  obtain ⟨k, h1, h2, h3⟩ := sadReads_mem nrad i j t h
  omega

/-- The guard of `s1` in `interpLineFP` does check that the shifted centre `x-2u` is a
column of the scanline. -/
theorem s1CondFP_center (width x u : Int) (h0 : 0 ≤ x) (h1 : x < width)
    (h : s1CondFP width x u) : 0 ≤ x - u * 2 ∧ x - u * 2 ≤ width - 1 := by
  unfold s1CondFP at h
  omega

/-- The guard of `s2` holds at every column of the scanline, in both functions. -/
theorem s2Cond_always (width x u : Int) (h0 : 0 ≤ x) (h1 : x < width) :
    s2CondFP width x u ∧ s2CondHP width x u := by
  unfold s2CondFP s2CondHP
  omega

theorem ccostReadsFP_bound (p : Params) (width x u t : Int) (hc : p.cost3 = false)
    (hn : 0 ≤ p.nrad) (hv : ValidCell 1 width p.mdis x u) (h : t ∈ ccostReadsFP p width x u) :
    -p.nrad ≤ t ∧ t ≤ width - 1 + p.nrad := by
  unfold ValidCell umaxAt at hv
  unfold ccostReadsFP at h
  simp only [hc, Bool.false_eq_true, if_false, List.append_nil, List.mem_append, List.mem_cons,
    List.mem_singleton, List.not_mem_nil, or_false] at h
  rcases h with h | h
  · exact sadReads_bound p.nrad (x + u) (x - u) width t (by omega) (by omega) h
  · omega

theorem interpReadsFP_bound (ucubic : Bool) (width mdis x dir t : Int)
    (hv : ValidCell 1 width mdis x dir) (h : t ∈ interpReadsFP ucubic width x dir) :
    0 ≤ t ∧ t ≤ width - 1 := by
  unfold ValidCell umaxAt at hv
  have a1 := le_abs_self dir
  have a2 := neg_abs_le dir
  unfold interpReadsFP at h
  split_ifs at h with hc
  · simp only [List.mem_cons, List.mem_singleton, List.not_mem_nil, or_false] at h
    omega
  · simp only [List.mem_cons, List.mem_singleton, List.not_mem_nil, or_false] at h
    omega

/-- Claim C7 (boundary safety, full-pixel mode without `cost3`). For every width `≥ 1`,
`mdis` in `1..40` and `nrad` in `0..3`, every offset at which `interpLineFP` with
`cost3 = false` reads a reference row, in the cost loops and in the interpolation loop
(the `±3d` cubic taps included), lies in `[-nrad, width-1+nrad]`, hence inside the
12-column padding `[-12, width+11]`. -/
theorem boundary_safety_fp (r : Rows) (width : Int) (p : Params) (temp : Scratch)
    (hw : 1 ≤ width) (hc : p.cost3 = false) (hm : 1 ≤ p.mdis ∧ p.mdis ≤ 40)
    (hn : 0 ≤ p.nrad ∧ p.nrad ≤ 3) :
    ∀ t ∈ srcReadsFP r width p temp,
      (-p.nrad ≤ t ∧ t ≤ width - 1 + p.nrad) ∧ (-12 ≤ t ∧ t ≤ width + 11) := by
  have hval := (solveFP_solved r width p temp (by omega) hw).valid (Or.inl rfl) (by omega) hw
  have key : ∀ t ∈ srcReadsFP r width p temp, -p.nrad ≤ t ∧ t ≤ width - 1 + p.nrad := by
    intro t ht
    unfold srcReadsFP at ht
    rcases List.mem_append.mp ht with ht | ht
    · refine forUp_pres 0 (width - 1) _ []
        (fun l => ∀ t ∈ l, -p.nrad ≤ t ∧ t ≤ width - 1 + p.nrad)
        (by intro t ht; simp at ht) ?_ t ht
      intro x l hx1 hx2 hP
      refine forUp_pres _ _ _ l
        (fun l => ∀ t ∈ l, -p.nrad ≤ t ∧ t ≤ width - 1 + p.nrad) hP ?_
      intro u l2 hu1 hu2 hP2 t ht
      rcases List.mem_append.mp ht with ht | ht
      · exact hP2 t ht
      · exact ccostReadsFP_bound p width x u t hc hn.1
          ⟨hx1, by omega, by rw [mul_one]; exact hu1, by rw [mul_one]; exact hu2⟩ ht
    · refine forUp_pres 0 (width - 1) _ []
        (fun l => ∀ t ∈ l, -p.nrad ≤ t ∧ t ≤ width - 1 + p.nrad)
        (by intro t ht; simp at ht) ?_ t ht
      intro x l hx1 hx2 hP t ht
      rcases List.mem_append.mp ht with ht | ht
      · exact hP t ht
      · have := interpReadsFP_bound p.ucubic width p.mdis x _ t (hval x hx1 (by omega)) ht
        omega
  intro t ht
  have := key t ht
  exact ⟨this, by omega, by omega⟩

set_option maxRecDepth 1000000 in
/-- Instance of `boundary_safety_fp` at width 16, `mdis = 40`, `nrad = 3`: the offset `-3`
is read and lies in the padding. -/
theorem boundary_safety_fp_witness :
    (-3 : Int) ∈ srcReadsFP (diagRows 8) 16 (defaultWeights 3 40 true false) zeroScratch ∧
    ((-(defaultWeights 3 40 true false).nrad ≤ -3 ∧
      -3 ≤ 16 - 1 + (defaultWeights 3 40 true false).nrad) ∧ ((-12 : Int) ≤ -3 ∧ -3 ≤ 16 + 11)) :=
  have hmem : (-3 : Int) ∈ srcReadsFP (diagRows 8) 16 (defaultWeights 3 40 true false)
      zeroScratch := by decide!
  ⟨hmem, boundary_safety_fp (diagRows 8) 16 (defaultWeights 3 40 true false) zeroScratch
    (by decide) rfl (by decide) (by decide) (-3) hmem⟩

/-- Claim C8 fails on the code. In `cost3` mode the alternate cost `s2` is computed at
cells where its shifted centre `x+2u` is not a column of the scanline, and its taps leave
the padded plane: with `width = 64`, `mdis = 20`, `nrad = 2`, at the cell `(20,-20)` the
guard of `s2` holds, the centre is `-20` and the offset `-22 < -12` is read; likewise in
half-pixel units at the cell `(20,-40)`. -/
theorem cost3_s2_reads_outside :
    ValidCell 1 64 20 20 (-20) ∧ s2CondFP 64 20 (-20) ∧
    ¬ (0 ≤ (20 : Int) + (-20) * 2) ∧
    (-22 : Int) ∈ ccostReadsFP (defaultWeights 2 20 true true) 64 20 (-20) ∧
    ¬ ((-12 : Int) ≤ -22) ∧
    ValidCell 2 64 20 20 (-40) ∧ s2CondHP 64 20 (-40) ∧
    (-22 : Int) ∈ altReadsHP (defaultWeights 2 20 true true) 64 20 (-40) := by
  decide

set_option maxRecDepth 1000000 in
/-- Claim C9 fails on the code. In `interpLineHP` the half-pel rows are written at the
offsets `0..width-2` only, yet the cost window reads them `nrad` offsets beyond: with
`width = 16`, `nrad = 2`, at the cell `(1,1)` the offset `-2` is read, where `hp3p` holds
the byte the scratch buffer had there on entry; and on an 8-column scanline the
displacement written at column 1, for the same rows and parameters, is `-1` when the
scratch bytes are `0` on entry and `0` when they are `255`. -/
theorem half_pel_reads_outside :
    ValidCell 2 16 4 1 1 ∧ (-2 : Int) ∈ hpReads 2 1 1 ∧ ¬ (0 ≤ (-2 : Int)) ∧
    (∀ (ucubic : Bool) (r : Rows) (mem : Row),
      (halfPelRows ucubic 16 r mem).src3p (-2) = mem (-2)) ∧
    (interpLineHP (halfDiagRows 3) (fun _ => 0) 8 (defaultWeights 2 4 true false) zeroScratch
      zeroOutput).dmap 1 = -1 ∧
    (interpLineHP (halfDiagRows 3) (fun _ => 255) 8 (defaultWeights 2 4 true false) zeroScratch
      zeroOutput).dmap 1 = 0 := by
  refine ⟨by decide, by decide, by decide, ?_, by decide!, by decide!⟩
  intro ucubic r mem
  show halfPelBytes ucubic 16 r mem (-2) = mem (-2)
  unfold halfPelBytes
  refine forUp_pres 0 (16 - 2) _ mem (fun m => m (-2) = mem (-2)) rfl ?_
  intro x m h1 h2 hP
  have n1 : (-2 : Int) ≠ x := by omega
  have n2 : (-2 : Int) ≠ 16 + x := by omega
  have n3 : (-2 : Int) ≠ 16 * 2 + x := by omega
  have n4 : (-2 : Int) ≠ 16 * 3 + x := by omega
  split_ifs
  · rw [Function.update_noteq n4, Function.update_noteq n3, Function.update_noteq n2,
      Function.update_noteq n1]
    exact hP
  · rw [Function.update_noteq n4, Function.update_noteq n3, Function.update_noteq n2,
      Function.update_noteq n1]
    exact hP

/-! ## The diagonal-edge scenario -/

/-- The displacement map written by `interpLineFP` does not depend on what the scratch
buffer and the output rows held on entry. -/
theorem interpLineFP_dmap_indep (r : Rows) (width : Int) (p : Params) (temp temp2 : Scratch)
    (out out2 : Output) (x : Int) (hm : 0 ≤ p.mdis) (h0 : 0 ≤ x) (h1 : x < width) :
    (interpLineFP r width p temp out).dmap x = (interpLineFP r width p temp2 out2).dmap x := by
  have hw : 1 ≤ width := by omega
  rw [interpLineFP_dmap r width p temp out x h0 h1,
    interpLineFP_dmap r width p temp2 out2 x h0 h1]
  exact ((solveFP_solved r width p temp hm hw).unique (solveFP_solved r width p temp2 hm hw)
    (Or.inl rfl) hm hw).2.2 x h0 h1

set_option maxRecDepth 1000000 in
/-- Claim C10 (end-to-end diagonal edge). For the 16-column scanline whose reference rows
at `-3, -1, +1, +3` are step edges from `0` to `255` with first `255` sample at columns
`5, 7, 9, 11` (edge at column `e = 8` of the missing row, extended into the padding),
solved by `interpLineFP` with `mdis = 4`, `alpha = 0.2`, `beta = 0.25`, `gamma = 20`,
`nrad = 2`, for either value of `ucubic` and `cost3` and whatever the scratch buffer holds,
the displacement at column `8` is `-1`, of magnitude `1`, so the displacement map is not
the all-zero map. -/
theorem diagonal_edge_scenario (temp : Scratch) (out : Output) (ucubic cost3 : Bool) :
    (interpLineFP (diagRows 8) 16 (defaultWeights 2 4 ucubic cost3) temp out).dmap 8 = -1 ∧
    |(interpLineFP (diagRows 8) 16 (defaultWeights 2 4 ucubic cost3) temp out).dmap 8| = 1 ∧
    ¬ (∀ x, 0 ≤ x → x < 16 →
      (interpLineFP (diagRows 8) 16 (defaultWeights 2 4 ucubic cost3) temp out).dmap x = 0) := by
  have h : (interpLineFP (diagRows 8) 16 (defaultWeights 2 4 ucubic cost3) temp out).dmap 8
      = -1 := by
    rw [interpLineFP_dmap_indep (diagRows 8) 16 (defaultWeights 2 4 ucubic cost3) temp
      zeroScratch out zeroOutput 8 (show (0 : Int) ≤ 4 by decide) (by decide) (by decide)]
    cases ucubic <;> cases cost3 <;> decide!
  refine ⟨h, by rw [h]; rfl, fun hall => ?_⟩
  have := hall 8 (by decide) (by decide)
  rw [h] at this
  exact absurd this (by decide)

/-! ## IEEE 754 rounding -/

/-- An integer is its own rounding. -/
theorem roundEven_intCast (n : Int) : roundEven (n : ℚ) = n := by
  unfold roundEven
  rw [Int.floor_intCast, sub_self, if_pos (by norm_num)]

/-- The rounding is within one half of its argument. -/
theorem roundEven_abs_sub (r : ℚ) : |(roundEven r : ℚ) - r| ≤ 1 / 2 := by
  have h1 := Int.floor_le r
  have h2 := Int.lt_floor_add_one r
  unfold roundEven
  rw [abs_le]
  split_ifs with a b c
  · constructor <;> linarith
  · push_cast; constructor <;> linarith
  · constructor <;> linarith
  · push_cast; constructor <;> linarith

/-- The rounding does not pass an integer above its argument. -/
theorem roundEven_le (r : ℚ) (N : Int) (h : r ≤ N) : roundEven r ≤ N := by
  have h1 := Int.floor_le r
  have hf : ⌊r⌋ ≤ N := by
    have : (⌊r⌋ : ℚ) ≤ N := le_trans h1 h
    exact_mod_cast this
  have hlt : r - ⌊r⌋ ≥ 1 / 2 → ⌊r⌋ + 1 ≤ N := by
    intro hh
    have : (⌊r⌋ : ℚ) < N := by linarith
    have : ⌊r⌋ < N := by exact_mod_cast this
    omega
  unfold roundEven
  split_ifs with a b c
  · exact hf
  · exact hlt (by linarith)
  · exact hf
  · exact hlt (by linarith)

/-- The rounding does not pass an integer below its argument. -/
theorem le_roundEven (r : ℚ) (N : Int) (h : (N : ℚ) ≤ r) : N ≤ roundEven r := by
  have hf : N ≤ ⌊r⌋ := Int.le_floor.mpr h
  unfold roundEven
  split_ifs <;> omega

/-- Beyond the midpoint above an integer, the rounding is above that integer. -/
theorem lt_roundEven (r : ℚ) (N : Int) (h : (N : ℚ) + 1 / 2 < r) : N + 1 ≤ roundEven r := by
  have hf : N ≤ ⌊r⌋ := Int.le_floor.mpr (by linarith)
  have h2 := Int.lt_floor_add_one r
  unfold roundEven
  split_ifs with a b c
  · have : (N : ℚ) < ⌊r⌋ := by linarith
    have : N < ⌊r⌋ := by exact_mod_cast this
    omega
  · omega
  · have : (N : ℚ) < ⌊r⌋ := by linarith
    have : N < ⌊r⌋ := by exact_mod_cast this
    omega
  · omega

/-- Up to the midpoint above an even integer, the rounding stays at or below it. -/
theorem roundEven_le_even (r : ℚ) (N : Int) (hN : N % 2 = 0) (h : r ≤ (N : ℚ) + 1 / 2) :
    roundEven r ≤ N := by
  have h1 := Int.floor_le r
  by_cases hr : r < N
  · exact roundEven_le r N (le_of_lt hr)
  · have hr : (N : ℚ) ≤ r := not_lt.mp hr
    have hf : ⌊r⌋ = N := by
      rw [Int.floor_eq_iff]
      exact ⟨hr, by linarith⟩
    unfold roundEven
    rw [hf]
    split_ifs with a b
    · exact le_refl _
    · linarith
    · exact le_refl _

/-- The unit in the last place used by `roundBin` is positive. -/
theorem ulp_pos (E : Int) : (0 : ℚ) < 2 ^ E := zpow_pos (by norm_num) E

/-- Zero is rounded to zero. -/
theorem roundBin_zero (prec : Nat) (emin : Int) : roundBin prec emin 0 = 0 := by
  unfold roundBin
  simp only [zero_div]
  have := roundEven_intCast 0
  rw [Int.cast_zero] at this
  rw [this, Int.cast_zero, zero_mul]

/-- A non-negative value is rounded to a non-negative value. -/
theorem roundBin_nonneg (prec : Nat) (emin : Int) (q : ℚ) (h : 0 ≤ q) :
    0 ≤ roundBin prec emin q := by
  unfold roundBin
  apply mul_nonneg _ (le_of_lt (ulp_pos _))
  have := le_roundEven (q / 2 ^ (max (Int.log 2 |q|) emin + 1 - (prec : Int))) 0
    (by rw [Int.cast_zero]; exact div_nonneg h (le_of_lt (ulp_pos _)))
  exact_mod_cast this

/-- A non-positive value is rounded to a non-positive value. -/
theorem roundBin_nonpos (prec : Nat) (emin : Int) (q : ℚ) (h : q ≤ 0) :
    roundBin prec emin q ≤ 0 := by
  unfold roundBin
  apply mul_nonpos_of_nonpos_of_nonneg _ (le_of_lt (ulp_pos _))
  have := roundEven_le (q / 2 ^ (max (Int.log 2 |q|) emin + 1 - (prec : Int))) 0
    (by rw [Int.cast_zero]; exact div_nonpos_of_nonpos_of_nonneg h (le_of_lt (ulp_pos _)))
  exact_mod_cast this

/-- The rounding error is at most half a unit in the last place: a relative error of
`2^-prec` in the normal range, an absolute error of `2^(emin-prec)` below it. -/
theorem roundBin_err (prec : Nat) (emin : Int) (q : ℚ) :
    |roundBin prec emin q - q| ≤ |q| / 2 ^ prec + 2 ^ (emin - (prec : Int)) := by
  have hT : (0 : ℚ) < 2 ^ (emin - (prec : Int)) := ulp_pos _
  have hP : (0 : ℚ) < 2 ^ prec := pow_pos (by norm_num) _
  by_cases hq : q = 0
  · rw [hq, roundBin_zero]
    simp only [sub_zero, abs_zero, zero_div, zero_add]
    exact le_of_lt hT
  have hq0 : 0 < |q| := abs_pos.mpr hq
  obtain ⟨E, hE⟩ : ∃ E, E = max (Int.log 2 |q|) emin + 1 - (prec : Int) := ⟨_, rfl⟩
  have hU := ulp_pos E
  have hr : roundBin prec emin q = (roundEven (q / 2 ^ E) : ℚ) * 2 ^ E := by
    rw [hE]; rfl
  have h1 : |roundBin prec emin q - q| ≤ 2 ^ E / 2 := by
    have e : roundBin prec emin q - q = ((roundEven (q / 2 ^ E) : ℚ) - q / 2 ^ E) * 2 ^ E := by
      rw [hr]; field_simp
    rw [e, abs_mul, abs_of_pos hU]
    have := roundEven_abs_sub (q / 2 ^ E)
    calc |(roundEven (q / 2 ^ E) : ℚ) - q / 2 ^ E| * 2 ^ E ≤ 1 / 2 * 2 ^ E :=
          mul_le_mul_of_nonneg_right this (le_of_lt hU)
      _ = 2 ^ E / 2 := by ring
  have h2 : (2 : ℚ) ^ E / 2 = 2 ^ (max (Int.log 2 |q|) emin - (prec : Int)) := by
    rw [hE, show max (Int.log 2 |q|) emin + 1 - (prec : Int)
      = (max (Int.log 2 |q|) emin - (prec : Int)) + 1 by ring, zpow_add_one₀ (by norm_num)]
    field_simp
  rw [h2] at h1
  refine le_trans h1 ?_
  rcases le_total (Int.log 2 |q|) emin with hle | hle
  · rw [max_eq_right hle]
    have : 0 ≤ |q| / 2 ^ prec := div_nonneg (abs_nonneg q) (le_of_lt hP)
    linarith
  · rw [max_eq_left hle]
    have hl : ((2 : ℕ) : ℚ) ^ Int.log 2 |q| ≤ |q| := Int.zpow_log_le_self (by norm_num) hq0
    rw [Nat.cast_ofNat] at hl
    have : (2 : ℚ) ^ (Int.log 2 |q| - (prec : Int)) = 2 ^ Int.log 2 |q| / 2 ^ prec := by
      rw [zpow_sub₀ (by norm_num), zpow_natCast]
    rw [this]
    have := div_le_div_of_nonneg_right hl (le_of_lt hP)
    linarith

/-- The exponent found for a positive value below `2^prec` is below `prec`. -/
theorem log_lt_prec (prec : Nat) (q : ℚ) (h0 : 0 < q) (h : q < 2 ^ prec) :
    Int.log 2 |q| < (prec : Int) := by
  rw [abs_of_pos h0]
  apply (Int.lt_zpow_iff_log_lt (by norm_num) h0).mp
  rw [Nat.cast_ofNat, zpow_natCast]
  exact h

/-- A value that is an integer number of units in the last place is its own rounding. -/
theorem roundBin_of_multiple (prec : Nat) (emin : Int) (q : ℚ) (n : Int)
    (h : q / 2 ^ (max (Int.log 2 |q|) emin + 1 - (prec : Int)) = (n : ℚ)) :
    roundBin prec emin q = q := by
  unfold roundBin
  simp only []
  rw [h, roundEven_intCast, ← h]
  field_simp

/-- An integer `N` is an integer number of `2^E` when `E ≤ 0`. -/
theorem int_div_ulp (N E : Int) (hE : E ≤ 0) :
    (N : ℚ) / 2 ^ E = ((N * 2 ^ (-E).toNat : Int) : ℚ) := by
  have e : E = -((-E).toNat : Int) := by omega
  rw [Int.cast_mul, Int.cast_pow, Int.cast_ofNat]
  nth_rewrite 1 [e]
  rw [zpow_neg, zpow_natCast, div_inv_eq_mul]

/-- The rounding does not pass a non-negative integer below `2^prec` that bounds its
argument from above. -/
theorem roundBin_le_int (prec : Nat) (emin : Int) (q : ℚ) (N : Int) (hemin : emin < prec)
    (h0 : 0 ≤ N) (hN : (N : ℚ) < 2 ^ prec) (h : q ≤ N) : roundBin prec emin q ≤ N := by
  rcases le_or_lt q 0 with hq | hq
  · exact le_trans (roundBin_nonpos prec emin q hq) (by exact_mod_cast h0)
  have hL := log_lt_prec prec q hq (lt_of_le_of_lt h hN)
  obtain ⟨E, hE⟩ : ∃ E, E = max (Int.log 2 |q|) emin + 1 - (prec : Int) := ⟨_, rfl⟩
  have hE0 : E ≤ 0 := by
    have : max (Int.log 2 |q|) emin < prec := max_lt hL hemin
    omega
  have hU := ulp_pos E
  have hr : roundBin prec emin q = (roundEven (q / 2 ^ E) : ℚ) * 2 ^ E := by
    rw [hE]; rfl
  have h1 : q / 2 ^ E ≤ ((N * 2 ^ (-E).toNat : Int) : ℚ) := by
    rw [← int_div_ulp N E hE0]
    exact div_le_div_of_nonneg_right h (le_of_lt hU)
  have h2 : (roundEven (q / 2 ^ E) : ℚ) ≤ ((N * 2 ^ (-E).toNat : Int) : ℚ) := by
    exact_mod_cast roundEven_le _ _ h1
  rw [hr]
  calc (roundEven (q / 2 ^ E) : ℚ) * 2 ^ E ≤ ((N * 2 ^ (-E).toNat : Int) : ℚ) * 2 ^ E :=
        mul_le_mul_of_nonneg_right h2 (le_of_lt hU)
    _ = (N : ℚ) := by
        rw [← int_div_ulp N E hE0]
        field_simp

/-- An integer of magnitude below `2^prec` is represented exactly. -/
theorem roundBin_int (prec : Nat) (emin : Int) (n : Int) (hemin : emin < prec)
    (hn : |(n : ℚ)| < 2 ^ prec) : roundBin prec emin (n : ℚ) = n := by
  by_cases h0 : n = 0
  · rw [h0, Int.cast_zero, roundBin_zero]
  have hq : 0 < |(n : ℚ)| := abs_pos.mpr (by exact_mod_cast h0)
  have hL : Int.log 2 |(n : ℚ)| < (prec : Int) := by
    have := log_lt_prec prec |(n : ℚ)| hq hn
    rwa [abs_abs] at this
  have hE0 : max (Int.log 2 |(n : ℚ)|) emin + 1 - (prec : Int) ≤ 0 := by
    have : max (Int.log 2 |(n : ℚ)|) emin < prec := max_lt hL hemin
    omega
  exact roundBin_of_multiple prec emin n _ (int_div_ulp n _ hE0)

/-- The rounding does not pass a power of two, at or above the least unit, that bounds its
argument from below. -/
theorem le_roundBin_pow (prec : Nat) (emin : Int) (q : ℚ) (k : Int) (hp : 0 < prec)
    (hk : emin + 1 - (prec : Int) ≤ k) (h : (2 : ℚ) ^ k ≤ q) : 2 ^ k ≤ roundBin prec emin q := by
  have hq : 0 < q := lt_of_lt_of_le (ulp_pos k) h
  have hkL : k ≤ Int.log 2 |q| := by
    rw [abs_of_pos hq]
    apply (Int.zpow_le_iff_le_log (by norm_num) hq).mp
    rw [Nat.cast_ofNat]
    exact h
  have hLq : (2 : ℚ) ^ Int.log 2 |q| ≤ q := by
    have := Int.zpow_log_le_self (b := 2) (r := |q|) (by norm_num) (abs_pos.mpr (ne_of_gt hq))
    rw [Nat.cast_ofNat, abs_of_pos hq] at this
    rw [abs_of_pos hq]
    exact this
  obtain ⟨E, hE⟩ : ∃ E, E = max (Int.log 2 |q|) emin + 1 - (prec : Int) := ⟨_, rfl⟩
  have hU := ulp_pos E
  have hr : roundBin prec emin q = (roundEven (q / 2 ^ E) : ℚ) * 2 ^ E := by
    rw [hE]; rfl
  -- a power of two `2^j` with `E ≤ j`, `k ≤ j` and `2^j ≤ q`
  obtain ⟨j, hjE, hkj, hjq⟩ : ∃ j : Int, E ≤ j ∧ k ≤ j ∧ (2 : ℚ) ^ j ≤ q := by
    rcases le_total (Int.log 2 |q|) emin with hle | hle
    · refine ⟨k, ?_, le_refl _, h⟩
      rw [hE, max_eq_right hle]
      exact hk
    · refine ⟨Int.log 2 |q|, ?_, hkL, hLq⟩
      rw [hE, max_eq_left hle]
      omega
  have hm : (2 : ℚ) ^ j / 2 ^ E = ((2 ^ (j - E).toNat : Int) : ℚ) := by
    rw [← zpow_sub₀ (by norm_num), Int.cast_pow, Int.cast_ofNat, ← zpow_natCast]
    congr 1
    omega
  have h1 : ((2 ^ (j - E).toNat : Int) : ℚ) ≤ q / 2 ^ E := by
    rw [← hm]
    exact div_le_div_of_nonneg_right hjq (le_of_lt hU)
  have h2 : ((2 ^ (j - E).toNat : Int) : ℚ) ≤ (roundEven (q / 2 ^ E) : ℚ) := by
    exact_mod_cast le_roundEven _ _ h1
  rw [hr]
  calc (2 : ℚ) ^ k ≤ 2 ^ j := zpow_le_zpow_right₀ (by norm_num) hkj
    _ = ((2 ^ (j - E).toNat : Int) : ℚ) * 2 ^ E := by
        rw [← hm]
        field_simp
    _ ≤ (roundEven (q / 2 ^ E) : ℚ) * 2 ^ E := mul_le_mul_of_nonneg_right h2 (le_of_lt hU)

/-- The exponent of a value in `[1, 2)` is `0`. -/
theorem log_eq_zero (s : ℚ) (h1 : 1 ≤ s) (h2 : s < 2) : Int.log 2 |s| = 0 := by
  have hs : 0 < s := lt_of_lt_of_le one_pos h1
  rw [abs_of_pos hs]
  have a : (0 : Int) ≤ Int.log 2 s := by
    apply (Int.zpow_le_iff_le_log (by norm_num) hs).mp
    rw [zpow_zero]
    exact h1
  have b : Int.log 2 s < 1 := by
    apply (Int.lt_zpow_iff_log_lt (by norm_num) hs).mp
    rw [Nat.cast_ofNat, zpow_one]
    exact h2
  omega

/-- In `[1, 2)` a single-precision value is a whole number of `2^-23`. -/
theorem toFloat_binade (s : ℚ) (h1 : 1 ≤ s) (h2 : s < 2) :
    toFloat s = (roundEven (s * 2 ^ 23) : ℚ) / 2 ^ 23 := by
  unfold toFloat roundBin
  simp only []
  rw [log_eq_zero s h1 h2]
  have e : (2 : ℚ) ^ (max (0 : Int) (-126) + 1 - ((24 : Nat) : Int)) = 1 / 2 ^ 23 := by
    rw [show max (0 : Int) (-126) + 1 - ((24 : Nat) : Int) = -((23 : Nat) : Int) by decide,
      zpow_neg, zpow_natCast, one_div]
  rw [e]
  field_simp

/-- A value up to `1` is not rounded above `1` in single precision. -/
theorem toFloat_le_one (s : ℚ) (h : s ≤ 1) : toFloat s ≤ 1 := by
  have := roundBin_le_int 24 (-126) s 1 (by decide) (by decide) (by norm_num)
    (by rw [Int.cast_one]; exact h)
  rw [Int.cast_one] at this
  exact this

/-- The single-precision value of `s` exceeds `1` exactly when `s` exceeds `1 + 2^-24`:
at the midpoint `1 + 2^-24` the tie goes to the even neighbour `1`. -/
theorem toFloat_gt_one_iff (s : ℚ) : 1 < toFloat s ↔ 1 + 1 / 2 ^ 24 < s := by
  constructor
  · intro h
    by_contra hs
    have hs : s ≤ 1 + 1 / 2 ^ 24 := not_lt.mp hs
    rcases le_or_lt s 1 with h1 | h1
    · exact absurd (toFloat_le_one s h1) (not_le.mpr h)
    · have h2 : s < 2 := by
        have : (1 : ℚ) + 1 / 2 ^ 24 < 2 := by norm_num
        linarith
      rw [toFloat_binade s (le_of_lt h1) h2] at h
      have hr : roundEven (s * 2 ^ 23) ≤ 2 ^ 23 := by
        apply roundEven_le_even _ _ (by decide)
        have : s * 2 ^ 23 ≤ (1 + 1 / 2 ^ 24) * 2 ^ 23 :=
          mul_le_mul_of_nonneg_right hs (by norm_num)
        have e : ((1 : ℚ) + 1 / 2 ^ 24) * 2 ^ 23 = ((2 ^ 23 : Int) : ℚ) + 1 / 2 := by norm_num
        rw [e] at this
        exact this
      have hr2 : (roundEven (s * 2 ^ 23) : ℚ) ≤ 2 ^ 23 := by exact_mod_cast hr
      have : (roundEven (s * 2 ^ 23) : ℚ) / 2 ^ 23 ≤ 1 := by
        rw [div_le_one (by norm_num)]
        exact hr2
      linarith
  · intro h
    have h1 : 1 < s := by
      have : (0 : ℚ) < 1 / 2 ^ 24 := by norm_num
      linarith
    rcases lt_or_le s 2 with h2 | h2
    · rw [toFloat_binade s (le_of_lt h1) h2]
      have hr : (2 ^ 23 : Int) + 1 ≤ roundEven (s * 2 ^ 23) := by
        apply lt_roundEven
        have : (1 + 1 / 2 ^ 24) * 2 ^ 23 < s * 2 ^ 23 :=
          mul_lt_mul_of_pos_right h (by norm_num)
        have e : ((1 : ℚ) + 1 / 2 ^ 24) * 2 ^ 23 = ((2 ^ 23 : Int) : ℚ) + 1 / 2 := by norm_num
        rw [e] at this
        exact this
      have hr2 : ((2 : ℚ) ^ 23 + 1) ≤ (roundEven (s * 2 ^ 23) : ℚ) := by exact_mod_cast hr
      rw [lt_div_iff₀ (by norm_num)]
      linarith
    · have := le_roundBin_pow 24 (-126) s 1 (by decide) (by decide)
        (by rw [zpow_one]; exact h2)
      rw [zpow_one] at this
      unfold toFloat
      linarith

/-- The rounding to the nearest integer is monotone. -/
theorem roundEven_mono (r s : ℚ) (h : r ≤ s) : roundEven r ≤ roundEven s := by
  have hf : ⌊r⌋ ≤ ⌊s⌋ := Int.floor_mono h
  rcases lt_or_eq_of_le hf with hlt | heq
  · have a : roundEven r ≤ ⌊r⌋ + 1 := by
      unfold roundEven
      split_ifs <;> omega
    have b : ⌊s⌋ ≤ roundEven s := le_roundEven s ⌊s⌋ (Int.floor_le s)
    omega
  · unfold roundEven
    rw [← heq]
    split_ifs with a b c d e f g <;> first | omega | (exfalso; linarith)

/-- A single-precision operation errs by at most `2^-24` of its exact result, plus
`2^-60`. -/
theorem toFloat_err (q : ℚ) : |toFloat q - q| ≤ |q| / 2 ^ 24 + 1 / 2 ^ 60 := by
  have h := roundBin_err 24 (-126) q
  have e : (2 : ℚ) ^ ((-126 : Int) - ((24 : Nat) : Int)) ≤ 1 / 2 ^ 60 := by
    rw [show (1 : ℚ) / 2 ^ 60 = 2 ^ (-(60 : Int)) by rw [zpow_neg, one_div]; norm_num]
    exact zpow_le_zpow_right₀ (by norm_num) (by decide)
  unfold toFloat
  linarith

/-- A double-precision operation errs by at most `2^-53` of its exact result, plus
`2^-60`. -/
theorem toDouble_err (q : ℚ) : |toDouble q - q| ≤ |q| / 2 ^ 53 + 1 / 2 ^ 60 := by
  have h := roundBin_err 53 (-1022) q
  have e : (2 : ℚ) ^ ((-1022 : Int) - ((53 : Nat) : Int)) ≤ 1 / 2 ^ 60 := by
    rw [show (1 : ℚ) / 2 ^ 60 = 2 ^ (-(60 : Int)) by rw [zpow_neg, one_div]; norm_num]
    exact zpow_le_zpow_right₀ (by norm_num) (by decide)
  unfold toDouble
  linarith

/-- An `int` of magnitude below `2^24` converts to `float` exactly. -/
theorem toFloat_int (n : Int) (h : |(n : ℚ)| < 2 ^ 24) : toFloat (n : ℚ) = n :=
  roundBin_int 24 (-126) n (by decide) h

/-- An `int` of magnitude below `2^53` converts to `double` exactly. -/
theorem toDouble_int (n : Int) (h : |(n : ℚ)| < 2 ^ 53) : toDouble (n : ℚ) = n :=
  roundBin_int 53 (-1022) n (by decide) h

/-- The rounding of a positive value does not exceed the power of two above it. -/
theorem roundBin_le_pow (prec : Nat) (emin : Int) (q : ℚ) (hq : 0 < q) :
    roundBin prec emin q ≤ 2 ^ (max (Int.log 2 |q|) emin + 1) := by
  obtain ⟨e, he⟩ : ∃ e, e = max (Int.log 2 |q|) emin := ⟨_, rfl⟩
  have hU := ulp_pos (e + 1 - (prec : Int))
  have hr : roundBin prec emin q
      = (roundEven (q / 2 ^ (e + 1 - (prec : Int))) : ℚ) * 2 ^ (e + 1 - (prec : Int)) := by
    rw [he]; rfl
  have hlt : q < 2 ^ (e + 1) := by
    have := Int.lt_zpow_succ_log_self (b := 2) (by norm_num) |q|
    rw [Nat.cast_ofNat, abs_of_pos hq] at this
    refine lt_of_lt_of_le this (zpow_le_zpow_right₀ (by norm_num) ?_)
    rw [he, abs_of_pos hq]
    have := le_max_left (Int.log 2 q) emin
    omega
  have hm : (2 : ℚ) ^ (e + 1) / 2 ^ (e + 1 - (prec : Int)) = ((2 ^ prec : Int) : ℚ) := by
    rw [← zpow_sub₀ (by norm_num), Int.cast_pow, Int.cast_ofNat, ← zpow_natCast]
    congr 1
    omega
  have h1 : q / 2 ^ (e + 1 - (prec : Int)) ≤ ((2 ^ prec : Int) : ℚ) := by
    rw [← hm]
    exact div_le_div_of_nonneg_right (le_of_lt hlt) (le_of_lt hU)
  have h2 : (roundEven (q / 2 ^ (e + 1 - (prec : Int))) : ℚ) ≤ ((2 ^ prec : Int) : ℚ) := by
    exact_mod_cast roundEven_le _ _ h1
  rw [hr, ← he]
  calc (roundEven (q / 2 ^ (e + 1 - (prec : Int))) : ℚ) * 2 ^ (e + 1 - (prec : Int))
      ≤ ((2 ^ prec : Int) : ℚ) * 2 ^ (e + 1 - (prec : Int)) :=
        mul_le_mul_of_nonneg_right h2 (le_of_lt hU)
    _ = 2 ^ (e + 1) := by
        rw [← hm]
        field_simp

/-- The rounding is monotone on the non-negative values. -/
theorem roundBin_mono (prec : Nat) (emin : Int) (q r : ℚ) (hp : 0 < prec) (hq : 0 ≤ q)
    (h : q ≤ r) : roundBin prec emin q ≤ roundBin prec emin r := by
  rcases eq_or_lt_of_le hq with hq0 | hq0
  · rw [← hq0, roundBin_zero]
    exact roundBin_nonneg prec emin r (le_trans hq h)
  have hr0 : 0 < r := lt_of_lt_of_le hq0 h
  have hL : Int.log 2 |q| ≤ Int.log 2 |r| := by
    rw [abs_of_pos hq0, abs_of_pos hr0]
    exact Int.log_mono_right hq0 h
  rcases eq_or_lt_of_le (max_le_max hL (le_refl emin)) with he | he
  · unfold roundBin
    simp only []
    rw [he]
    apply mul_le_mul_of_nonneg_right _ (le_of_lt (ulp_pos _))
    have := roundEven_mono _ _
      (div_le_div_of_nonneg_right h (le_of_lt (ulp_pos (max (Int.log 2 |r|) emin + 1 - (prec : Int)))))
    exact_mod_cast this
  · have hmax : max (Int.log 2 |r|) emin = Int.log 2 |r| := by
      rcases le_total (Int.log 2 |r|) emin with hle | hle
      · rw [max_eq_right hle] at he
        have := le_max_right (Int.log 2 |q|) emin
        omega
      · exact max_eq_left hle
    have hle : emin ≤ Int.log 2 |r| := by
      rw [← hmax]; exact le_max_right _ _
    have h1 := roundBin_le_pow prec emin q hq0
    have h2 : (2 : ℚ) ^ Int.log 2 |r| ≤ roundBin prec emin r := by
      apply le_roundBin_pow prec emin r _ hp (by omega)
      have := Int.zpow_log_le_self (b := 2) (r := |r|) (by norm_num) (abs_pos.mpr (ne_of_gt hr0))
      rw [Nat.cast_ofNat] at this
      rw [abs_of_pos hr0] at this ⊢
      exact this
    have h3 : (2 : ℚ) ^ (max (Int.log 2 |q|) emin + 1) ≤ 2 ^ Int.log 2 |r| := by
      apply zpow_le_zpow_right₀ (by norm_num)
      rw [hmax] at he
      omega
    linarith

/-! ## The constructor: C11, C12 -/

/-- When an enforced bound is violated, one of the checks throws. -/
theorem eedi3_error_of_not_bounds (a : CtorArgs) (vi : VideoInfo) (h : ¬ EnforcedBounds a) :
    ∃ e, eedi3 a vi = .error e := by
  unfold eedi3
  by_cases h1 : a.field < -2 ∨ a.field > 3
  · exact ⟨_, if_pos h1⟩
  rw [if_neg h1]
  by_cases h2 : a.dh = true ∧ (a.field < -1 ∨ a.field > 1)
  · exact ⟨_, if_pos h2⟩
  rw [if_neg h2]
  by_cases h3 : a.alpha < 0 ∨ a.alpha > 1
  · exact ⟨_, if_pos h3⟩
  rw [if_neg h3]
  by_cases h4 : a.beta < 0 ∨ a.beta > 1
  · exact ⟨_, if_pos h4⟩
  rw [if_neg h4]
  by_cases h5 : toFloat (a.alpha + a.beta) > 1
  · exact ⟨_, if_pos h5⟩
  rw [if_neg h5]
  by_cases h6 : a.gamma < 0
  · exact ⟨_, if_pos h6⟩
  rw [if_neg h6]
  by_cases h7 : a.nrad < 0 ∨ a.nrad > 3
  · exact ⟨_, if_pos h7⟩
  rw [if_neg h7]
  by_cases h8 : a.mdis < 1 ∨ a.mdis > 40
  · exact ⟨_, if_pos h8⟩
  rw [if_neg h8]
  by_cases h9 : a.vcheck < 0 ∨ a.vcheck > 3
  · exact ⟨_, if_pos h9⟩
  rw [if_neg h9]
  by_cases h10 : a.vcheck > 0 ∧ (a.vthresh0 ≤ 0 ∨ a.vthresh1 ≤ 0 ∨ a.vthresh2 ≤ 0)
  · exact ⟨_, if_pos h10⟩
  exfalso
  apply h
  have h5b : a.alpha + a.beta ≤ 1 + 1 / 2 ^ 24 :=
    not_lt.mp (fun hh => h5 ((toFloat_gt_one_iff _).mpr hh))
  simp only [not_or, not_lt, not_and, not_le, gt_iff_lt] at h3 h4 h6 h7 h8 h9 h10
  exact ⟨h3.1, h3.2, h4.1, h4.2, h5b, h6, h7.1, h7.2, h8.1, h8.2, h9.1, h9.2, h10⟩

/-- When the enforced bounds hold, no parameter check throws. -/
theorem eedi3_no_param_error (a : CtorArgs) (vi : VideoInfo) (h : EnforcedBounds a)
    (e : CtorError) (he : eedi3 a vi = .error e) : ¬ e.isParam := by
  obtain ⟨a0, a1, b0, b1, ab, g0, n0, n1, m0, m1, v0, v1, vt⟩ := h
  have h3 : ¬ (a.alpha < 0 ∨ a.alpha > 1) := by
    simp only [not_or, not_lt, gt_iff_lt]; exact ⟨a0, a1⟩
  have h4 : ¬ (a.beta < 0 ∨ a.beta > 1) := by
    simp only [not_or, not_lt, gt_iff_lt]; exact ⟨b0, b1⟩
  have h5 : ¬ (toFloat (a.alpha + a.beta) > 1) :=
    fun hh => absurd ((toFloat_gt_one_iff _).mp hh) (not_lt.mpr ab)
  have h6 : ¬ (a.gamma < 0) := not_lt.mpr g0
  have h7 : ¬ (a.nrad < 0 ∨ a.nrad > 3) := by omega
  have h8 : ¬ (a.mdis < 1 ∨ a.mdis > 40) := by omega
  have h9 : ¬ (a.vcheck < 0 ∨ a.vcheck > 3) := by omega
  have h10 : ¬ (a.vcheck > 0 ∧ (a.vthresh0 ≤ 0 ∨ a.vthresh1 ≤ 0 ∨ a.vthresh2 ≤ 0)) := by
    rintro ⟨hv, hh⟩
    obtain ⟨t0, t1, t2⟩ := vt hv
    rcases hh with hh | hh | hh
    · exact absurd t0 (not_lt.mpr hh)
    · exact absurd t1 (not_lt.mpr hh)
    · exact absurd t2 (not_lt.mpr hh)
  unfold eedi3 at he
  rw [if_neg h3, if_neg h4, if_neg h5, if_neg h6, if_neg h7, if_neg h8, if_neg h9, if_neg h10]
    at he
  unfold CtorError.isParam
  split_ifs at he <;> cases he <;> decide

/-- The bounds with `alpha+beta ≤ 1` imply the enforced ones. -/
theorem enforced_of_bounds (a : CtorArgs) (h : BoundsHold a) : EnforcedBounds a := by
  obtain ⟨a0, a1, b0, b1, ab, rest⟩ := h
  refine ⟨a0, a1, b0, b1, ?_, rest⟩
  have : (0 : ℚ) ≤ 1 / 2 ^ 24 := by norm_num
  linarith

/-- Claim C11, amended. The constructor reports an error for every argument set that
violates any of `0 ≤ alpha ≤ 1`, `0 ≤ beta ≤ 1`, `alpha+beta ≤ 1 + 2^-24`, `gamma ≥ 0`,
`0 ≤ nrad ≤ 3`, `1 ≤ mdis ≤ 40`, `0 ≤ vcheck ≤ 3` and, when `vcheck > 0`, positivity of the
three thresholds; when all these bounds hold, whatever error the constructor still reports
is not one of the errors of these parameter checks (the thresholds being unconstrained when
`vcheck = 0`); they hold in particular when `alpha+beta ≤ 1`. The sum is a `float` sum: the
test on it throws exactly when the sum rounded to single precision exceeds `1`, which is
when `alpha+beta > 1 + 2^-24`. -/
theorem configuration_validation (a : CtorArgs) (vi : VideoInfo) :
    (¬ EnforcedBounds a → ∃ e, eedi3 a vi = .error e) ∧
    (EnforcedBounds a → ∀ e, eedi3 a vi = .error e → ¬ e.isParam) ∧
    (BoundsHold a → EnforcedBounds a) ∧
    (toFloat (a.alpha + a.beta) > 1 ↔ a.alpha + a.beta > 1 + 1 / 2 ^ 24) :=
  ⟨eedi3_error_of_not_bounds a vi, eedi3_no_param_error a vi, enforced_of_bounds a,
    toFloat_gt_one_iff _⟩

/-- The sample arguments with `alpha = 0.2` satisfy the bounds. -/
theorem sampleArgs_bounds (vcheck : Int) (sclip : Option VideoInfo) (mallocOk : Bool)
    (h0 : 0 ≤ vcheck) (h1 : vcheck ≤ 3) : BoundsHold (sampleArgs 0.2 vcheck sclip mallocOk) := by
  unfold BoundsHold sampleArgs
  norm_num
  exact ⟨h0, h1⟩

set_option maxRecDepth 100000 in
/-- Instances of `configuration_validation`: `alpha = 2` is refused, and with the default
weights a failed allocation is reported by an error that is not a parameter error. -/
theorem configuration_validation_witness :
    (∃ e, eedi3 (sampleArgs 2 0 none true) sampleInfo = .error e) ∧
    ¬ CtorError.malloc.isParam :=
  ⟨(configuration_validation (sampleArgs 2 0 none true) sampleInfo).1
      (by unfold EnforcedBounds sampleArgs; norm_num),
    (configuration_validation (sampleArgs 0.2 0 none false) sampleInfo).2.1
      (enforced_of_bounds _ (sampleArgs_bounds 0 none false (by decide) (by decide)))
      .malloc (by decide!)⟩

set_option maxRecDepth 100000 in
/-- Claim C11 as stated fails: `alpha = 0.5f` and `beta = 0.5f + 2^-24` are `float` values
within `[0, 1]` whose sum exceeds `1`, so the bound `alpha+beta ≤ 1` is violated; their
`float` sum is `1.0f`, no check throws and the constructor returns normally. -/
theorem configuration_validation_counterexample :
    toFloat edgeArgs.alpha = edgeArgs.alpha ∧ toFloat edgeArgs.beta = edgeArgs.beta ∧
    edgeArgs.alpha + edgeArgs.beta > 1 ∧ ¬ BoundsHold edgeArgs ∧
    toFloat (edgeArgs.alpha + edgeArgs.beta) = 1 ∧
    eedi3 edgeArgs sampleInfo = .ok (1, sampleInfo) := by
  refine ⟨by decide!, by decide!, by decide!, ?_, by decide!, by decide!⟩
  intro h
  exact absurd h.2.2.2.2.1 (by decide!)

/-- A difference in one of the four compared members makes the test true. -/
theorem sclipDiffers_of_ne (vi vi2 : VideoInfo)
    (h : vi.height ≠ vi2.height ∨ vi.width ≠ vi2.width ∨ vi.num_frames ≠ vi2.num_frames ∨
      vi.colorspace ≠ vi2.colorspace) : sclipDiffers (some vi2) vi = true := by
  unfold sclipDiffers
  exact decide_eq_true h

/-- Either one of the checks before the secondary-clip test throws, or the constructor
returns what that test decides. -/
theorem eedi3_cases (a : CtorArgs) (vi : VideoInfo) :
    (∃ e, eedi3 a vi = .error e ∧ e ≠ .sclip) ∨
    eedi3 a vi = (if a.vcheck > 0 ∧ sclipDiffers a.sclip (outputInfo a vi) = true
      then .error .sclip else .ok (resolveField a, outputInfo a vi)) := by
  unfold eedi3
  by_cases h1 : a.field < -2 ∨ a.field > 3
  · exact Or.inl ⟨_, if_pos h1, by decide⟩
  rw [if_neg h1]
  by_cases h2 : a.dh = true ∧ (a.field < -1 ∨ a.field > 1)
  · exact Or.inl ⟨_, if_pos h2, by decide⟩
  rw [if_neg h2]
  by_cases h3 : a.alpha < 0 ∨ a.alpha > 1
  · exact Or.inl ⟨_, if_pos h3, by decide⟩
  rw [if_neg h3]
  by_cases h4 : a.beta < 0 ∨ a.beta > 1
  · exact Or.inl ⟨_, if_pos h4, by decide⟩
  rw [if_neg h4]
  by_cases h5 : toFloat (a.alpha + a.beta) > 1
  · exact Or.inl ⟨_, if_pos h5, by decide⟩
  rw [if_neg h5]
  by_cases h6 : a.gamma < 0
  · exact Or.inl ⟨_, if_pos h6, by decide⟩
  rw [if_neg h6]
  by_cases h7 : a.nrad < 0 ∨ a.nrad > 3
  · exact Or.inl ⟨_, if_pos h7, by decide⟩
  rw [if_neg h7]
  by_cases h8 : a.mdis < 1 ∨ a.mdis > 40
  · exact Or.inl ⟨_, if_pos h8, by decide⟩
  rw [if_neg h8]
  by_cases h9 : a.vcheck < 0 ∨ a.vcheck > 3
  · exact Or.inl ⟨_, if_pos h9, by decide⟩
  rw [if_neg h9]
  by_cases h10 : a.vcheck > 0 ∧ (a.vthresh0 ≤ 0 ∨ a.vthresh1 ≤ 0 ∨ a.vthresh2 ≤ 0)
  · exact Or.inl ⟨_, if_pos h10, by decide⟩
  rw [if_neg h10]
  by_cases h11 : a.mallocOk = false
  · exact Or.inl ⟨_, if_pos h11, by decide⟩
  rw [if_neg h11]
  exact Or.inr rfl

/-- Claim C12, amended. Whenever `vcheck > 0` and a secondary clip is supplied whose
height, width, frame count or colour space differs from the output's (the child's
`VideoInfo` after the doubling of `num_frames` and `height`), the constructor fails, and it
fails with the error "sclip doesn't match" once `field`, the parameter bounds and the
allocations are in order. With `vcheck ≤ 0` that error is never reported, and with
`vcheck = 0` and everything else in order the constructor succeeds although the secondary
clip differs. -/
theorem sclip_compatibility (a : CtorArgs) (vi vi2 : VideoInfo) (hs : a.sclip = some vi2)
    (hdiff : (outputInfo a vi).height ≠ vi2.height ∨ (outputInfo a vi).width ≠ vi2.width ∨
      (outputInfo a vi).num_frames ≠ vi2.num_frames ∨
      (outputInfo a vi).colorspace ≠ vi2.colorspace) :
    (0 < a.vcheck → ∃ e, eedi3 a vi = .error e) ∧
    (0 < a.vcheck → -2 ≤ a.field → a.field ≤ 3 → (a.dh = true → -1 ≤ a.field ∧ a.field ≤ 1) →
      BoundsHold a → a.mallocOk = true → eedi3 a vi = .error .sclip) ∧
    (a.vcheck ≤ 0 → eedi3 a vi ≠ .error .sclip) ∧
    (a.vcheck = 0 → -2 ≤ a.field → a.field ≤ 3 → (a.dh = true → -1 ≤ a.field ∧ a.field ≤ 1) →
      BoundsHold a → a.mallocOk = true →
      eedi3 a vi = .ok (resolveField a, outputInfo a vi)) := by
  have hsd : sclipDiffers a.sclip (outputInfo a vi) = true := by
    rw [hs]; exact sclipDiffers_of_ne _ _ hdiff
  have pass : -2 ≤ a.field → a.field ≤ 3 → (a.dh = true → -1 ≤ a.field ∧ a.field ≤ 1) →
      BoundsHold a → a.mallocOk = true →
      eedi3 a vi = (if a.vcheck > 0 ∧ sclipDiffers a.sclip (outputInfo a vi) = true
        then .error .sclip else .ok (resolveField a, outputInfo a vi)) := by
    intro f0 f1 fd hb hmo
    obtain ⟨a0, a1, b0, b1, ab, g0, n0, n1, m0, m1, v0, v1, vt⟩ := hb
    have h1 : ¬ (a.field < -2 ∨ a.field > 3) := by omega
    have h2 : ¬ (a.dh = true ∧ (a.field < -1 ∨ a.field > 1)) := by
      rintro ⟨hd, hh⟩
      have := fd hd
      omega
    have h3 : ¬ (a.alpha < 0 ∨ a.alpha > 1) := by
      simp only [not_or, not_lt, gt_iff_lt]; exact ⟨a0, a1⟩
    have h4 : ¬ (a.beta < 0 ∨ a.beta > 1) := by
      simp only [not_or, not_lt, gt_iff_lt]; exact ⟨b0, b1⟩
    have h5 : ¬ (toFloat (a.alpha + a.beta) > 1) := not_lt.mpr (toFloat_le_one _ ab)
    have h6 : ¬ (a.gamma < 0) := not_lt.mpr g0
    have h7 : ¬ (a.nrad < 0 ∨ a.nrad > 3) := by omega
    have h8 : ¬ (a.mdis < 1 ∨ a.mdis > 40) := by omega
    have h9 : ¬ (a.vcheck < 0 ∨ a.vcheck > 3) := by omega
    have h10 : ¬ (a.vcheck > 0 ∧ (a.vthresh0 ≤ 0 ∨ a.vthresh1 ≤ 0 ∨ a.vthresh2 ≤ 0)) := by
      rintro ⟨hv, hh⟩
      obtain ⟨t0, t1, t2⟩ := vt hv
      rcases hh with hh | hh | hh
      · exact absurd t0 (not_lt.mpr hh)
      · exact absurd t1 (not_lt.mpr hh)
      · exact absurd t2 (not_lt.mpr hh)
    have h11 : ¬ (a.mallocOk = false) := by rw [hmo]; decide
    unfold eedi3
    rw [if_neg h1, if_neg h2, if_neg h3, if_neg h4, if_neg h5, if_neg h6, if_neg h7, if_neg h8,
      if_neg h9, if_neg h10, if_neg h11]
  refine ⟨?_, ?_, ?_, ?_⟩
  · intro hv
    rcases eedi3_cases a vi with ⟨e, he, _⟩ | he
    · exact ⟨e, he⟩
    · rw [he, if_pos ⟨hv, hsd⟩]
      exact ⟨_, rfl⟩
  · intro hv f0 f1 fd hb hmo
    rw [pass f0 f1 fd hb hmo, if_pos ⟨hv, hsd⟩]
  · intro hv
    rcases eedi3_cases a vi with ⟨e, he, hne⟩ | he
    · rw [he]
      intro h
      cases h
      exact hne rfl
    · rw [he, if_neg (by omega)]
      intro h
      cases h
  · intro hv f0 f1 fd hb hmo
    rw [pass f0 f1 fd hb hmo, if_neg (by omega)]

set_option maxRecDepth 100000 in
/-- Instance of `sclip_compatibility`: a secondary clip of 720 by 576 against an output of
720 by 480 with `vcheck = 1`. -/
theorem sclip_compatibility_witness :
    eedi3 (sampleArgs 0.2 1 (some ⟨720, 576, 100, 0⟩) true) sampleInfo = .error .sclip :=
  (sclip_compatibility (sampleArgs 0.2 1 (some ⟨720, 576, 100, 0⟩) true) sampleInfo
    ⟨720, 576, 100, 0⟩ rfl (Or.inl (by decide))).2.1 (by decide) (by decide) (by decide)
    (fun h => absurd h (by decide))
    (sampleArgs_bounds 1 _ true (by decide) (by decide)) rfl

set_option maxRecDepth 100000 in
/-- Claim C12 as stated fails: with `vcheck = 0`, a secondary clip of 720 by 576 against an
output of 720 by 480 raises no error; the constructor returns normally. -/
theorem sclip_compatibility_counterexample :
    (sampleArgs 0.2 0 (some ⟨720, 576, 100, 0⟩) true).vcheck = 0 ∧
    (sampleArgs 0.2 0 (some ⟨720, 576, 100, 0⟩) true).sclip = some ⟨720, 576, 100, 0⟩ ∧
    (outputInfo (sampleArgs 0.2 0 (some ⟨720, 576, 100, 0⟩) true) sampleInfo).height = 480 ∧
    eedi3 (sampleArgs 0.2 0 (some ⟨720, 576, 100, 0⟩) true) sampleInfo = .ok (1, sampleInfo) := by
  refine ⟨rfl, rfl, by decide, ?_⟩
  decide!

/-! ## Interpolation, field selection, cost signs: C13, C15, C16, C20 -/

/-- The guard keeps non-negative values non-negative. -/
theorem satur_nonneg (y : ℚ) (h : 0 ≤ y) : 0 ≤ satur y := by
  unfold satur
  exact le_min h (by unfold FLT_MAX; norm_num)

/-- Every path cost of a solved scanline is non-negative when all cell costs are. -/
theorem Solved.pcosts_nonneg {sc : Int} {pen : ℚ} {width mdis : Int} {gamma : ℚ}
    {cell : Int → Int → ℚ} {idx0 : Int} {s : Scratch}
    (h : Solved sc pen width mdis gamma cell idx0 s) (hsc : sc = 1 ∨ sc = 2) (hm : 0 ≤ mdis)
    (hg : 0 ≤ gamma) (hpen : 0 ≤ pen)
    (hc : ∀ x u, ValidCell sc width mdis x u → 0 ≤ cell x u) :
    ∀ x u, ValidCell sc width mdis x u → 0 ≤ s.pcosts (cellIdx sc mdis x u) := by
  have key : ∀ n : Nat, ∀ u, ValidCell sc width mdis (n : Int) u →
      0 ≤ s.pcosts (cellIdx sc mdis (n : Int) u) := by
    intro n
    induction n with
    | zero =>
      intro u hv
      have hu : u = 0 := by
        unfold ValidCell umaxAt at hv
        rcases hsc with rfl | rfl <;> omega
      subst hu
      simp only [Nat.cast_zero] at hv ⊢
      rw [h.base]
      exact hc 0 0 hv
    | succ m ih =>
      intro u hv
      have hx : (1 : Int) ≤ ((m + 1 : Nat) : Int) := by push_cast; omega
      have hp := (h.step _ u hx hv).pred hsc hm hx hv
      have e : ((m + 1 : Nat) : Int) - 1 = (m : Int) := by push_cast; ring
      rw [hp.2.2.2.1]
      apply satur_nonneg
      apply add_nonneg
      · unfold predCost
        apply satur_nonneg
        apply add_nonneg
        · have hv1 := hp.1
          rw [e] at hv1 ⊢
          exact ih _ hv1
        · apply mul_nonneg (mul_nonneg hg _) hpen
          exact_mod_cast abs_nonneg _
      · rw [h.cost _ u hv]
        exact hc _ u hv
  intro x u hv
  have h0 := hv.1
  have := key x.toNat u (by rwa [Int.toNat_of_nonneg h0])
  rwa [Int.toNat_of_nonneg h0] at this

/-- Claim C20 (half-pixel interpolation at even displacement). For every column `x`, every
even displacement `d`, all reference rows and either value of `ucubic`, the sample that
`interpLineHP` writes for displacement `d` equals the sample that the interpolation rule of
`interpLineFP` gives for displacement `d/2`; in particular this holds when
`|d/2| ≤ min(x, width-1-x)`. The second part states it on the row written by
`interpLineHP` at a column whose displacement-map entry is `d`. -/
theorem half_pel_even_displacement (ucubic : Bool) (r : Rows) (width x d : Int)
    (hd : d % 2 = 0) :
    interpPixelHP ucubic r width x d = interpPixelFP ucubic r width x (d / 2) ∧
    ∀ (mem : Row) (p : Params) (temp : Scratch) (out : Output), 0 ≤ x → x < width →
      (interpLineHP r mem width p temp out).dmap x = d →
      (interpLineHP r mem width p temp out).dstp x = interpPixelFP p.ucubic r width x (d / 2) := by
  have key : ∀ uc : Bool, interpPixelHP uc r width x d = interpPixelFP uc r width x (d / 2) := by
    intro uc
    unfold interpPixelHP interpPixelFP
    rw [if_pos hd, shr_one]
  refine ⟨key ucubic, ?_⟩
  intro mem p temp out h0 h1 hdm
  have hs := (interpolate_spec (interpPixelHP p.ucubic r width) width
    (solveHP r mem width p temp).fpath out (by omega) x).1 ⟨h0, h1⟩
  unfold interpLineHP at hdm ⊢
  rw [hs.2, ← hs.1, hdm]
  exact key p.ucubic

/-- Instance of `half_pel_even_displacement` at column 8, `d = 2`, on the diagonal edge. -/
theorem half_pel_even_displacement_witness :
    interpPixelHP true (diagRows 8) 16 8 2 = interpPixelFP true (diagRows 8) 16 8 (2 / 2) :=
  (half_pel_even_displacement true (diagRows 8) 16 8 2 (by decide)).1

/-- Claim C15 (field parity selection). For `field` in `{0,1}` every output frame `n` uses
`field_n = field` and source frame `n`. For `field` in `{2,3}` output frame `n` uses source
frame `floor(n/2)`, `field_n(n+1) = 1 - field_n(n)` for every `n`, and `field_n(0)` is `0`
for `field = 2` and `1` for `field = 3`. -/
theorem field_parity_selection :
    (∀ n, field_n 0 n = 0 ∧ srcFrame 0 n = n) ∧
    (∀ n, field_n 1 n = 1 ∧ srcFrame 1 n = n) ∧
    (∀ n, srcFrame 2 n = n / 2 ∧ field_n 2 (n + 1) = 1 - field_n 2 n) ∧
    (∀ n, srcFrame 3 n = n / 2 ∧ field_n 3 (n + 1) = 1 - field_n 3 n) ∧
    field_n 2 0 = 0 ∧ field_n 3 0 = 1 := by
  refine ⟨fun n => ⟨rfl, rfl⟩, fun n => ⟨rfl, rfl⟩, fun n => ⟨?_, ?_⟩, fun n => ⟨?_, ?_⟩,
    rfl, rfl⟩
  · unfold srcFrame; rw [if_pos (by decide), shr_one]
  · unfold field_n
    simp only [show (2 : Int) > 1 by decide, if_true, show ¬ ((2 : Int) = 3) by decide, if_false]
    split_ifs <;> omega
  · unfold srcFrame; rw [if_pos (by decide), shr_one]
  · unfold field_n
    simp only [show (3 : Int) > 1 by decide, if_true]
    split_ifs <;> omega

/-- Claim C13 (full-pixel interpolation formula). For every column `x` of the scanline, with
`d = dmap[x]` the solved displacement, `interpLineFP` writes
`dstp[x] = clamp((36*(src1p[x+d]+src1n[x-d]) - 4*(src3p[x+3d]+src3n[x-3d]) + 32) >> 6, 0, 255)`
when `ucubic` holds and `3|d| ≤ x ≤ width-1-3|d|`, and `dstp[x] = (src1p[x+d]+src1n[x-d]+1) >> 1`
otherwise; in both cases the result is in `[0,255]`, and `dmap[x]` is the entry of the
backtracked path. The rows hold 8-bit samples. -/
theorem full_pixel_interpolation (r : Rows) (width : Int) (p : Params) (temp : Scratch)
    (out : Output) (x : Int) (hr : RowsU8 r) (h0 : 0 ≤ x) (h1 : x < width) :
    (interpLineFP r width p temp out).dmap x = (solveFP r width p temp).fpath x ∧
    (interpLineFP r width p temp out).dstp x =
      (if p.ucubic = true ∧ 3 * |(interpLineFP r width p temp out).dmap x| ≤ x ∧
          x ≤ width - 1 - 3 * |(interpLineFP r width p temp out).dmap x| then
        clamp255 ((36 * (r.src1p (x + (interpLineFP r width p temp out).dmap x)
            + r.src1n (x - (interpLineFP r width p temp out).dmap x))
          - 4 * (r.src3p (x + 3 * (interpLineFP r width p temp out).dmap x)
            + r.src3n (x - 3 * (interpLineFP r width p temp out).dmap x)) + 32) / 2 ^ 6)
      else
        (r.src1p (x + (interpLineFP r width p temp out).dmap x)
          + r.src1n (x - (interpLineFP r width p temp out).dmap x) + 1) / 2 ^ 1) ∧
    0 ≤ (interpLineFP r width p temp out).dstp x ∧
    (interpLineFP r width p temp out).dstp x ≤ 255 := by
  have hs := (interpolate_spec (interpPixelFP p.ucubic r width) width
    (solveFP r width p temp).fpath out (by omega) x).1 ⟨h0, h1⟩
  have hd : (interpLineFP r width p temp out).dmap x = (solveFP r width p temp).fpath x := hs.1
  have hv : (interpLineFP r width p temp out).dstp x
      = interpPixelFP p.ucubic r width x ((solveFP r width p temp).fpath x) := hs.2
  obtain ⟨u3p, u1p, u1n, u3n⟩ := hr
  have b1 := u1p (x + (solveFP r width p temp).fpath x)
  have b2 := u1n (x - (solveFP r width p temp).fpath x)
  have havg : 0 ≤ (r.src1p (x + (solveFP r width p temp).fpath x)
      + r.src1n (x - (solveFP r width p temp).fpath x) + 1) / 2 ^ 1 ∧
      (r.src1p (x + (solveFP r width p temp).fpath x)
      + r.src1n (x - (solveFP r width p temp).fpath x) + 1) / 2 ^ 1 ≤ 255 := by
    omega
  have hval : interpPixelFP p.ucubic r width x ((solveFP r width p temp).fpath x) =
      (if p.ucubic = true ∧ 3 * |(solveFP r width p temp).fpath x| ≤ x ∧
          x ≤ width - 1 - 3 * |(solveFP r width p temp).fpath x| then
        clamp255 ((36 * (r.src1p (x + (solveFP r width p temp).fpath x)
            + r.src1n (x - (solveFP r width p temp).fpath x))
          - 4 * (r.src3p (x + 3 * (solveFP r width p temp).fpath x)
            + r.src3n (x - 3 * (solveFP r width p temp).fpath x)) + 32) / 2 ^ 6)
      else
        (r.src1p (x + (solveFP r width p temp).fpath x)
          + r.src1n (x - (solveFP r width p temp).fpath x) + 1) / 2 ^ 1) := by
    unfold interpPixelFP shr
    simp only [ge_iff_le, mul_comm _ (3 : Int)]
    split_ifs
    · exact toU8_of_range _ (clamp255_range _).1 (clamp255_range _).2
    · exact toU8_of_range _ havg.1 havg.2
  refine ⟨hd, ?_, ?_, ?_⟩
  · rw [hv, hd]; exact hval
  · rw [hv, hval]
    split_ifs
    · exact (clamp255_range _).1
    · exact havg.1
  · rw [hv, hval]
    split_ifs
    · exact (clamp255_range _).2
    · exact havg.2

set_option maxRecDepth 1000000 in
/-- Instance of `full_pixel_interpolation` on the diagonal edge: column 8 gets displacement
`-1` and the cubic sample `255`. -/
theorem full_pixel_interpolation_witness :
    (interpLineFP (diagRows 8) 16 (defaultWeights 2 4 true false) zeroScratch zeroOutput).dmap 8
      = -1 ∧
    (interpLineFP (diagRows 8) 16 (defaultWeights 2 4 true false) zeroScratch zeroOutput).dstp 8
      = 255 := by
  have h := full_pixel_interpolation (diagRows 8) 16 (defaultWeights 2 4 true false)
    zeroScratch zeroOutput 8 (diagRows_u8 8) (by decide) (by decide)
  have hd : (interpLineFP (diagRows 8) 16 (defaultWeights 2 4 true false) zeroScratch
      zeroOutput).dmap 8 = -1 := by decide!
  refine ⟨hd, ?_⟩
  rw [h.2.1, hd]
  decide

/-- Claim C16 (non-negative costs). For every validated parameter set, all 8-bit reference
rows, every column `x` and every valid displacement `u`, the cost computed by
`interpLineFP` and by `interpLineHP` for the cell `(x,u)`, with or without `cost3`, is
`≥ 0`, it is the entry of the cost table, and the cumulative path cost of the cell is
`≥ 0` as well. -/
theorem costs_nonneg (r : Rows) (mem : Row) (width : Int) (p : Params) (temp : Scratch)
    (hw : 1 ≤ width) (hp : Validated p) (hr : RowsU8 r) (hmem : IsU8 mem) :
    (∀ x u, ValidCell 1 width p.mdis x u →
      0 ≤ ccostFP p r width x u ∧
      (solveFP r width p temp).ccosts (cellIdx 1 p.mdis x u) = ccostFP p r width x u ∧
      0 ≤ (solveFP r width p temp).pcosts (cellIdx 1 p.mdis x u)) ∧
    (∀ x u, ValidCell 2 width p.mdis x u →
      0 ≤ ccostHP p r (halfPelRows p.ucubic width r mem) width x u ∧
      (solveHP r mem width p temp).ccosts (cellIdx 2 p.mdis x u)
        = ccostHP p r (halfPelRows p.ucubic width r mem) width x u ∧
      0 ≤ (solveHP r mem width p temp).pcosts (cellIdx 2 p.mdis x u)) := by
  have hm : 0 ≤ p.mdis := by have := hp.2.2.2.2.2.2.2.2.1; omega
  have hg : 0 ≤ p.gamma := hp.2.2.2.2.2.1
  have sF := solveFP_solved r width p temp hm hw
  have sH := solveHP_solved r mem width p temp hm hw
  have cF : ∀ x u, ValidCell 1 width p.mdis x u → 0 ≤ ccostFP p r width x u :=
    fun x u hv => (ccostFP_bounds p r width x u hp hr hv).1
  have cH : ∀ x u, ValidCell 2 width p.mdis x u →
      0 ≤ ccostHP p r (halfPelRows p.ucubic width r mem) width x u :=
    fun x u hv => (ccostHP_bounds p r _ width x u hp hr (halfPelRows_u8 _ _ _ _ hmem) hv).1
  constructor
  · intro x u hv
    exact ⟨cF x u hv, sF.cost x u hv,
      sF.pcosts_nonneg (Or.inl rfl) hm hg zero_le_one cF x u hv⟩
  · intro x u hv
    exact ⟨cH x u hv, sH.cost x u hv,
      sH.pcosts_nonneg (Or.inr rfl) hm hg (by norm_num) cH x u hv⟩

/-- Instance of `costs_nonneg`: the path cost of the cell `(5,-2)` on the diagonal edge
with `cost3`. -/
theorem costs_nonneg_witness :
    0 ≤ (solveFP (diagRows 8) 16 (defaultWeights 2 4 true true) zeroScratch).pcosts
      (cellIdx 1 (defaultWeights 2 4 true true).mdis 5 (-2)) :=
  ((costs_nonneg (diagRows 8) (fun _ => 0) 16 (defaultWeights 2 4 true true) zeroScratch
    (by decide) (defaultWeights_validated 2 4 true true (by decide) (by decide) (by decide)
      (by decide))
    (diagRows_u8 8) (fun _ => ⟨le_refl 0, show (0 : Int) ≤ 255 by decide⟩)).1 5 (-2)
    (by decide)).2.2

/-! ## The vcheck pass: C17, C19 -/

/-- Claim C17, amended. For a column of a checked row with non-zero displacement `dirc`
whose neighbours' displacements `dirt` and `dirb` both have sign opposite to `dirc`, or are
both zero, the checker stores the centre estimate `cint` (the sample of the secondary clip,
or the clamped vertical cubic of the four rows around the checked row); the output equals
the pre-check sample exactly when `cint` does. -/
theorem vcheck_disagreement_skip (v : VParams) (w : VRows) (width : Int) (tline0 : Row)
    (x : Int) (h0 : 0 ≤ x) (h1 : x < width) (hd : w.dmapC x ≠ 0)
    (hskip : (w.dmapC x * w.dmapT x < 0 ∧ w.dmapC x * w.dmapB x < 0) ∨
      (w.dmapT x = 0 ∧ w.dmapB x = 0))
    (hs : ∀ s, w.scpp = some s → IsU8 s) :
    vcheckRow v w width tline0 x = cintAt w x ∧
    (vcheckRow v w width tline0 x = w.dstp x ↔ cintAt w x = w.dstp x) := by
  have key : vcheckRow v w width tline0 x = cintAt w x := by
    rw [vcheckRow_apply v w width tline0 x h0 h1]
    unfold vcheckPixel
    have hc : max (w.dmapC x * w.dmapT x) (w.dmapC x * w.dmapB x) < 0 ∨
        (w.dmapT x = w.dmapB x ∧ w.dmapT x = 0) := by
      rcases hskip with ⟨a, b⟩ | ⟨a, b⟩
      · exact Or.inl (max_lt a b)
      · exact Or.inr ⟨by rw [a, b], a⟩
    simp only [hd, if_false, hc, if_true]
    exact toU8_of_range _ (cintAt_range w x hs).1 (cintAt_range w x hs).2
  exact ⟨key, by rw [key]⟩

/-- Instance of `vcheck_disagreement_skip` with `dirc = 1`, `dirt = dirb = -1`. -/
theorem vcheck_disagreement_skip_witness :
    vcheckRow (defaultThresholds 2 false) (peakNeighbours none (-1) 1 (-1)) 16 (fun _ => 0) 8
      = cintAt (peakNeighbours none (-1) 1 (-1)) 8 :=
  (vcheck_disagreement_skip (defaultThresholds 2 false) (peakNeighbours none (-1) 1 (-1)) 16
    (fun _ => 0) 8 (by decide) (by decide) (by decide) (Or.inl ⟨by decide, by decide⟩)
    (fun s hs => by simp [peakNeighbours] at hs)).1

set_option maxRecDepth 100000 in
/-- Claim C17 as stated fails: between known rows `0, 100, 100, 0`, a column reconstructed
with displacement `1` without `ucubic` holds `100` before the check; with neighbours of
displacement `-1`, or both of displacement `0`, it holds `113` after the check, and the
sample `7` of the secondary clip when one is supplied. -/
theorem vcheck_disagreement_skip_counterexample :
    (peakNeighbours none (-1) 1 (-1)).dmapC 8 = 1 ∧
    (peakNeighbours none (-1) 1 (-1)).dmapT 8 = -1 ∧
    (peakNeighbours none (-1) 1 (-1)).dmapB 8 = -1 ∧
    (peakNeighbours none (-1) 1 (-1)).dstp 8 = 100 ∧
    vcheckRow (defaultThresholds 2 false) (peakNeighbours none (-1) 1 (-1)) 16 (fun _ => 0) 8
      = 113 ∧
    vcheckRow (defaultThresholds 2 false) (peakNeighbours none 0 1 0) 16 (fun _ => 0) 8
      = 113 ∧
    vcheckRow (defaultThresholds 2 false) (peakNeighbours (some (fun _ => 7)) 0 1 0) 16
      (fun _ => 0) 8 = 7 := by
  decide!

/-- The blend with the arithmetic taken exactly. For a column that is not skipped, the
byte of the exact reading is `trunc((1-a)*rec + a*cint)` with
`a = min(max(a0, a1, a2), 1)`, `a0 = mdiff0/vthresh0`, `a1 = mdiff1/vthresh1` and
`a2 = max((vthresh2 - m)/vthresh2, 0)`, where `m = |d|` in full-pixel mode and
`floor(|d|/2)` in half-pixel mode; `a2` is `1 - m/vthresh2` up to `m = vthresh2` and is `0`
exactly when `m ≥ vthresh2`, so a column with `m ≥ vthresh2` and `mdiff0 = mdiff1 = 0` is
left unchanged. -/
theorem vcheck_blend_exact (v : VParams) (w : VRows) (width : Int) (tline0 : Row) (x : Int)
    (h0 : 0 ≤ x) (h1 : x < width) (hd : w.dmapC x ≠ 0)
    (hns : ¬ (max (w.dmapC x * w.dmapT x) (w.dmapC x * w.dmapB x) < 0 ∨
      (w.dmapT x = w.dmapB x ∧ w.dmapT x = 0)))
    (hdst : 0 ≤ w.dstp x ∧ w.dstp x ≤ 255) (hs : ∀ s, w.scpp = some s → IsU8 s)
    (ht : 0 < v.vthresh2) :
    blendWeight v w x =
      min (max (max (((mdiffsAt v w x).1 : ℚ) / v.vthresh0)
        (((mdiffsAt v w x).2 : ℚ) / v.vthresh1))
        (a2Of v.vthresh2 (dircvOf v.hp (w.dmapC x)))) 1 ∧
    vcheckRow v w width tline0 x =
      truncToInt ((1 - blendWeight v w x) * (w.dstp x : ℚ)
        + blendWeight v w x * (cintAt w x : ℚ)) ∧
    dircvOf v.hp (w.dmapC x) = (if v.hp = true then |w.dmapC x| / 2 else |w.dmapC x|) ∧
    (∀ m : Int, ((m : ℚ) ≤ v.vthresh2 → a2Of v.vthresh2 m = 1 - (m : ℚ) / v.vthresh2) ∧
      (a2Of v.vthresh2 m = 0 ↔ v.vthresh2 ≤ (m : ℚ))) ∧
    (v.vthresh2 ≤ (dircvOf v.hp (w.dmapC x) : ℚ) → (mdiffsAt v w x).1 = 0 →
      (mdiffsAt v w x).2 = 0 → vcheckRow v w width tline0 x = w.dstp x) := by
  have hne : v.vthresh2 ≠ 0 := ne_of_gt ht
  have hw : blendWeight v w x =
      min (max (max (((mdiffsAt v w x).1 : ℚ) / v.vthresh0)
        (((mdiffsAt v w x).2 : ℚ) / v.vthresh1))
        (a2Of v.vthresh2 (dircvOf v.hp (w.dmapC x)))) 1 := rfl
  have hc := cintAt_range w x hs
  have hb := blend_between (blendWeight v w x) (w.dstp x) (cintAt w x)
    (blendWeight_range v w x) hdst.1 hc.1
  have hrow : vcheckRow v w width tline0 x =
      truncToInt ((1 - blendWeight v w x) * (w.dstp x : ℚ)
        + blendWeight v w x * (cintAt w x : ℚ)) := by
    rw [vcheckRow_apply v w width tline0 x h0 h1]
    unfold vcheckPixel
    simp only [hd, if_false, hns]
    exact toU8_of_range _ (le_trans (le_min hdst.1 hc.1) hb.1)
      (le_trans hb.2 (max_le hdst.2 hc.2))
  have ha2 : ∀ m : Int, ((m : ℚ) ≤ v.vthresh2 → a2Of v.vthresh2 m = 1 - (m : ℚ) / v.vthresh2) ∧
      (a2Of v.vthresh2 m = 0 ↔ v.vthresh2 ≤ (m : ℚ)) := by
    intro m
    have e : (v.vthresh2 - (m : ℚ)) / v.vthresh2 = 1 - (m : ℚ) / v.vthresh2 := by
      field_simp
    unfold a2Of
    rw [e]
    constructor
    · intro hm
      apply max_eq_left
      rw [sub_nonneg, div_le_one ht]
      exact hm
    · rw [max_eq_right_iff, sub_nonpos, one_le_div ht]
  refine ⟨hw, hrow, ?_, ha2, ?_⟩
  · unfold dircvOf
    rw [shr_one]
  · intro hm e0 e1
    have hz : blendWeight v w x = 0 := by
      rw [hw, e0, e1, ((ha2 _).2).mpr hm]
      simp
    rw [hrow, hz]
    simp [truncToInt]

/-- The rounded weight lies in `[0, 1]`. -/
theorem blendWeightFloat_range (v : VParams) (w : VRows) (x : Int) :
    0 ≤ blendWeightFloat v w x ∧ blendWeightFloat v w x ≤ 1 := by
  simp only [blendWeightFloat]
  exact ⟨le_min (le_max_of_le_right (le_max_right _ _)) zero_le_one, min_le_right _ _⟩

/-- The blend as the code rounds it is non-negative and within `2^-15` of the exact
blend, for a weight in `[0, 1]` and 8-bit samples. -/
theorem blendFloat_close (a : ℚ) (d c : Int) (ha : 0 ≤ a ∧ a ≤ 1) (hd : 0 ≤ d ∧ d ≤ 255)
    (hc : 0 ≤ c ∧ c ≤ 255) :
    0 ≤ blendFloat a d c ∧
    |blendFloat a d c - ((1 - a) * (d : ℚ) + a * (c : ℚ))| ≤ 1 / 2 ^ 15 := by
  have hd0 : (0 : ℚ) ≤ d := by exact_mod_cast hd.1
  have hd1 : (d : ℚ) ≤ 255 := by exact_mod_cast hd.2
  have hc0 : (0 : ℚ) ≤ c := by exact_mod_cast hc.1
  have hc1 : (c : ℚ) ≤ 255 := by exact_mod_cast hc.2
  have hfc : toFloat (c : ℚ) = c := by
    apply toFloat_int
    rw [abs_of_nonneg hc0]
    have : (255 : ℚ) < 2 ^ 24 := by norm_num
    linarith
  have h1a : 0 ≤ 1 - a := by linarith
  obtain ⟨A, hA⟩ : ∃ A, A = toDouble (1 - a) := ⟨_, rfl⟩
  obtain ⟨P, hP⟩ : ∃ P, P = toDouble (A * d) := ⟨_, rfl⟩
  obtain ⟨Q, hQ⟩ : ∃ Q, Q = toFloat (a * c) := ⟨_, rfl⟩
  have hS : blendFloat a d c = toDouble (P + Q) := by
    unfold blendFloat
    rw [hfc, hP, hA, hQ]
  -- the weight `1 - a`
  have A0 : 0 ≤ A := by rw [hA]; exact roundBin_nonneg 53 (-1022) _ h1a
  have Ae := toDouble_err (1 - a)
  rw [← hA, abs_of_nonneg h1a, abs_le] at Ae
  have A1 : A ≤ 1 + 1 / 2 ^ 52 := by
    have : (1 - a) / 2 ^ 53 ≤ 1 / 2 ^ 53 := div_le_div_of_nonneg_right (by linarith) (by norm_num)
    have : (1 : ℚ) / 2 ^ 53 + 1 / 2 ^ 60 ≤ 1 / 2 ^ 52 := by norm_num
    linarith [Ae.2]
  -- the product with `dstp[x]`
  have Ad0 : 0 ≤ A * d := mul_nonneg A0 hd0
  have Ad1 : A * d ≤ 256 := by
    have := mul_le_mul A1 hd1 hd0 (by norm_num : (0 : ℚ) ≤ 1 + 1 / 2 ^ 52)
    have e : ((1 : ℚ) + 1 / 2 ^ 52) * 255 ≤ 256 := by norm_num
    linarith
  have P0 : 0 ≤ P := by rw [hP]; exact roundBin_nonneg 53 (-1022) _ Ad0
  have Pe := toDouble_err (A * d)
  rw [← hP, abs_of_nonneg Ad0, abs_le] at Pe
  have Ad53 : A * d / 2 ^ 53 ≤ 256 / 2 ^ 53 := div_le_div_of_nonneg_right Ad1 (by norm_num)
  -- the `float` product
  have ac0 : 0 ≤ a * c := mul_nonneg ha.1 hc0
  have ac1 : a * c ≤ 255 := by
    have := mul_le_mul ha.2 hc1 hc0 zero_le_one
    linarith
  have Q0 : 0 ≤ Q := by rw [hQ]; exact roundBin_nonneg 24 (-126) _ ac0
  have Qe := toFloat_err (a * c)
  rw [← hQ, abs_of_nonneg ac0, abs_le] at Qe
  have ac24 : a * c / 2 ^ 24 ≤ 255 / 2 ^ 24 := div_le_div_of_nonneg_right ac1 (by norm_num)
  -- the sum
  have PQ0 : 0 ≤ P + Q := add_nonneg P0 Q0
  have PQ1 : P + Q ≤ 512 := by
    have : (256 : ℚ) + (256 / 2 ^ 53 + 1 / 2 ^ 60) + (255 + (255 / 2 ^ 24 + 1 / 2 ^ 60)) ≤ 512 := by
      norm_num
    linarith [Pe.2, Qe.2]
  have Se := toDouble_err (P + Q)
  rw [← hS, abs_of_nonneg PQ0, abs_le] at Se
  have PQ53 : (P + Q) / 2 ^ 53 ≤ 512 / 2 ^ 53 := div_le_div_of_nonneg_right PQ1 (by norm_num)
  -- the error carried by `1 - a` into the product
  have Ada : |A * d - (1 - a) * d| ≤ (1 / 2 ^ 53 + 1 / 2 ^ 60) * 255 := by
    rw [← sub_mul, abs_mul, abs_of_nonneg hd0]
    have h1 : |A - (1 - a)| ≤ 1 / 2 ^ 53 + 1 / 2 ^ 60 := by
      rw [abs_le]
      have : (1 - a) / 2 ^ 53 ≤ 1 / 2 ^ 53 := div_le_div_of_nonneg_right (by linarith) (by norm_num)
      constructor <;> linarith [Ae.1, Ae.2]
    exact mul_le_mul h1 hd1 hd0 (by norm_num)
  rw [abs_le] at Ada
  constructor
  · rw [hS]; exact roundBin_nonneg 53 (-1022) _ PQ0
  · rw [abs_le]
    have e : (512 : ℚ) / 2 ^ 53 + 1 / 2 ^ 60 + (256 / 2 ^ 53 + 1 / 2 ^ 60)
        + (1 / 2 ^ 53 + 1 / 2 ^ 60) * 255 + (255 / 2 ^ 24 + 1 / 2 ^ 60) ≤ 1 / 2 ^ 15 := by
      norm_num
    constructor <;> linarith [Se.1, Se.2, Pe.1, Pe.2, Qe.1, Qe.2, Ada.1, Ada.2]

/-- Two non-negative values less than `1` apart truncate to integers at most `1` apart. -/
theorem truncToInt_close (s e : ℚ) (hs : 0 ≤ s) (he : 0 ≤ e) (h : |s - e| < 1) :
    |truncToInt s - truncToInt e| ≤ 1 := by
  unfold truncToInt
  rw [if_pos hs, if_pos he, abs_le]
  rw [abs_lt] at h
  have a1 := Int.floor_le s
  have a2 := Int.lt_floor_add_one s
  have b1 := Int.floor_le e
  have b2 := Int.lt_floor_add_one e
  have c1 : (⌊s⌋ : ℚ) < ⌊e⌋ + 2 := by linarith
  have c2 : (⌊e⌋ : ℚ) < ⌊s⌋ + 2 := by linarith
  have c1 : ⌊s⌋ < ⌊e⌋ + 2 := by exact_mod_cast c1
  have c2 : ⌊e⌋ < ⌊s⌋ + 2 := by exact_mod_cast c2
  constructor <;> omega

/-- At and beyond the threshold the rounded factor `a2` is zero. -/
theorem a2Float_zero_of_le (t : ℚ) (m : Int) (ht : 0 < t) (hr : toFloat t = t)
    (hm : t ≤ (m : ℚ)) : a2Float t m = 0 := by
  have h1 : t ≤ toFloat (m : ℚ) := by
    have := roundBin_mono 24 (-126) t m (by decide) (le_of_lt ht) hm
    unfold toFloat at hr ⊢
    rw [hr] at this
    exact this
  have h2 : toFloat (t - toFloat (m : ℚ)) ≤ 0 :=
    roundBin_nonpos 24 (-126) _ (by linarith)
  have h3 : toFloat (toFloat (t - toFloat (m : ℚ)) / t) ≤ 0 :=
    roundBin_nonpos 24 (-126) _ (div_nonpos_of_nonpos_of_nonneg h2 (le_of_lt ht))
  unfold a2Float
  exact max_eq_right h3

/-- Below the threshold the rounded factor `a2` is positive: the difference of the
threshold, a `float`, and a smaller integer is at least one unit in the last place of the
threshold, and the quotient does not underflow. -/
theorem a2Float_pos (t : ℚ) (m : Int) (ht : 0 < t) (hr : toFloat t = t) (hf : t < 2 ^ 128)
    (hm1 : |(m : ℚ)| < 2 ^ 24) (hlt : (m : ℚ) < t) : 0 < a2Float t m := by
  have hFm : toFloat (m : ℚ) = m := toFloat_int m hm1
  obtain ⟨e, he⟩ : ∃ e, e = max (Int.log 2 |t|) (-126) := ⟨_, rfl⟩
  have he126 : -126 ≤ e := by rw [he]; exact le_max_right _ _
  have hk : ((roundEven (t / 2 ^ (e + 1 - ((24 : Nat) : Int))) : Int) : ℚ)
      * 2 ^ (e + 1 - ((24 : Nat) : Int)) = t := by
    rw [he]; exact hr
  have hte : t < 2 ^ (e + 1) := by
    have := Int.lt_zpow_succ_log_self (b := 2) (by norm_num) |t|
    rw [Nat.cast_ofNat, abs_of_pos ht] at this
    refine lt_of_lt_of_le this (zpow_le_zpow_right₀ (by norm_num) ?_)
    rw [he, abs_of_pos ht]
    have := le_max_left (Int.log 2 t) (-126)
    omega
  obtain ⟨E, hE⟩ : ∃ E, E = e + 1 - ((24 : Nat) : Int) := ⟨_, rfl⟩
  rw [← hE] at hk
  have hU := ulp_pos E
  have hd : 0 < t - (m : ℚ) := by linarith
  -- a power of two `2^j` below both the difference and, times `2^149`, the threshold
  obtain ⟨j, hj1, hj2, hj3⟩ : ∃ j : Int, -149 ≤ j ∧ (2 : ℚ) ^ j ≤ t - (m : ℚ) ∧
      t ≤ 2 ^ (j + 149) := by
    rcases le_or_lt E 0 with hE0 | hE0
    · refine ⟨E, by rw [hE]; push_cast; omega, ?_, ?_⟩
      · have hm := int_div_ulp m E hE0
        have e1 : t - (m : ℚ)
            = ((roundEven (t / 2 ^ E) - m * 2 ^ (-E).toNat : Int) : ℚ) * 2 ^ E := by
          rw [Int.cast_sub, sub_mul, hk, ← hm]
          field_simp
        have hpos : 0 < ((roundEven (t / 2 ^ E) - m * 2 ^ (-E).toNat : Int) : ℚ) := by
          rw [e1] at hd
          exact pos_of_mul_pos_left hd (le_of_lt hU)
        have hone : (1 : ℚ) ≤ ((roundEven (t / 2 ^ E) - m * 2 ^ (-E).toNat : Int) : ℚ) := by
          have : 0 < (roundEven (t / 2 ^ E) - m * 2 ^ (-E).toNat : Int) := by
            exact_mod_cast hpos
          have : 1 ≤ (roundEven (t / 2 ^ E) - m * 2 ^ (-E).toNat : Int) := by omega
          exact_mod_cast this
        rw [e1]
        calc (2 : ℚ) ^ E = 1 * 2 ^ E := (one_mul _).symm
          _ ≤ _ := mul_le_mul_of_nonneg_right hone (le_of_lt hU)
      · refine le_trans (le_of_lt hte) (zpow_le_zpow_right₀ (by norm_num) ?_)
        rw [hE]; push_cast; omega
    · refine ⟨0, by decide, ?_, ?_⟩
      · have e1 : t - (m : ℚ) = ((roundEven (t / 2 ^ E) * 2 ^ E.toNat - m : Int) : ℚ) := by
          rw [Int.cast_sub, Int.cast_mul, Int.cast_pow, Int.cast_ofNat, ← zpow_natCast,
            show ((E.toNat : Int)) = E by omega, hk]
        have hpos : 0 < ((roundEven (t / 2 ^ E) * 2 ^ E.toNat - m : Int) : ℚ) := by
          rw [← e1]; exact hd
        have : 0 < (roundEven (t / 2 ^ E) * 2 ^ E.toNat - m : Int) := by exact_mod_cast hpos
        have : 1 ≤ (roundEven (t / 2 ^ E) * 2 ^ E.toNat - m : Int) := by omega
        rw [e1, zpow_zero]
        exact_mod_cast this
      · refine le_trans (le_of_lt hf) ?_
        rw [show (0 : Int) + 149 = ((149 : Nat) : Int) by decide, zpow_natCast]
        norm_num
  have hN : (2 : ℚ) ^ j ≤ toFloat (t - toFloat (m : ℚ)) := by
    rw [hFm]
    exact le_roundBin_pow 24 (-126) _ j (by decide) (by push_cast; omega) hj2
  have hq : (2 : ℚ) ^ (-149 : Int) ≤ toFloat (t - toFloat (m : ℚ)) / t := by
    rw [le_div_iff₀ ht]
    calc (2 : ℚ) ^ (-149 : Int) * t ≤ 2 ^ (-149 : Int) * 2 ^ (j + 149) :=
          mul_le_mul_of_nonneg_left hj3 (le_of_lt (ulp_pos _))
      _ = 2 ^ j := by
          rw [← zpow_add₀ (by norm_num)]
          congr 1
          omega
      _ ≤ _ := hN
  have hG : (2 : ℚ) ^ (-149 : Int) ≤ toFloat (toFloat (t - toFloat (m : ℚ)) / t) :=
    le_roundBin_pow 24 (-126) _ (-149) (by decide) (by decide) hq
  unfold a2Float
  exact lt_of_lt_of_le (lt_of_lt_of_le (ulp_pos (-149)) hG) (le_max_left _ _)

/-- Up to the threshold, the rounded factor `a2` is within `3 * 2^-24` of `1 - m/vthresh2`. -/
theorem a2Float_close (t : ℚ) (m : Int) (ht : 0 < t) (hr : toFloat t = t) (hm0 : 0 ≤ m)
    (hm1 : |(m : ℚ)| < 2 ^ 24) (hle : (m : ℚ) ≤ t) :
    |a2Float t m - (1 - (m : ℚ) / t)| ≤ 3 / 2 ^ 24 := by
  have hFm : toFloat (m : ℚ) = m := toFloat_int m hm1
  have hne : t ≠ 0 := ne_of_gt ht
  unfold a2Float
  rw [hFm]
  rcases eq_or_lt_of_le hm0 with h0 | h0
  · rw [← h0, Int.cast_zero, sub_zero, hr, div_self hne, zero_div, sub_zero]
    have := toFloat_int 1 (by norm_num)
    rw [Int.cast_one] at this
    rw [this, max_eq_left zero_le_one, sub_self, abs_zero]
    norm_num
  have hm1q : (1 : ℚ) ≤ m := by exact_mod_cast (show (1 : Int) ≤ m by omega)
  have ht1 : 1 ≤ t := le_trans hm1q hle
  have hd0 : 0 ≤ t - (m : ℚ) := by linarith
  obtain ⟨N, hN⟩ : ∃ N, N = toFloat (t - (m : ℚ)) := ⟨_, rfl⟩
  rw [← hN]
  have N0 : 0 ≤ N := by rw [hN]; exact roundBin_nonneg 24 (-126) _ hd0
  have Ne := toFloat_err (t - (m : ℚ))
  rw [← hN, abs_of_nonneg hd0, abs_le] at Ne
  have hinv : 1 / t ≤ 1 := by rw [div_le_one ht]; exact ht1
  have hinv0 : 0 ≤ 1 / t := le_of_lt (one_div_pos.mpr ht)
  have hdt0 : 0 ≤ (t - (m : ℚ)) / t := div_nonneg hd0 (le_of_lt ht)
  have hdt : (t - (m : ℚ)) / t ≤ 1 := by rw [div_le_one ht]; linarith
  have hdt2 : (t - (m : ℚ)) / t = 1 - (m : ℚ) / t := by field_simp
  -- the quotient before its rounding
  have re : |N / t - (t - (m : ℚ)) / t| ≤ 1 / 2 ^ 24 + 1 / 2 ^ 60 := by
    rw [← sub_div, abs_div, abs_of_pos ht, div_le_iff₀ ht, abs_le]
    have a1 : (t - (m : ℚ)) / 2 ^ 24 ≤ 1 / 2 ^ 24 * t := by
      rw [div_le_iff₀ (by norm_num)]
      have : (1 : ℚ) / 2 ^ 24 * t * 2 ^ 24 = t := by field_simp
      rw [this]; linarith
    have a2 : (1 : ℚ) / 2 ^ 60 ≤ 1 / 2 ^ 60 * t := by
      have := mul_le_mul_of_nonneg_left ht1 (by norm_num : (0 : ℚ) ≤ 1 / 2 ^ 60)
      linarith
    constructor <;> linarith [Ne.1, Ne.2]
  rw [abs_le] at re
  have r0 : 0 ≤ N / t := div_nonneg N0 (le_of_lt ht)
  have r1 : N / t ≤ 1 + (1 / 2 ^ 24 + 1 / 2 ^ 60) := by linarith [re.2]
  have G0 : 0 ≤ toFloat (N / t) := roundBin_nonneg 24 (-126) _ r0
  have Ge := toFloat_err (N / t)
  rw [abs_of_nonneg r0, abs_le] at Ge
  have r24 : N / t / 2 ^ 24 ≤ (1 + (1 / 2 ^ 24 + 1 / 2 ^ 60)) / 2 ^ 24 :=
    div_le_div_of_nonneg_right r1 (by norm_num)
  rw [max_eq_left G0, ← hdt2, abs_le]
  have e : ((1 : ℚ) + (1 / 2 ^ 24 + 1 / 2 ^ 60)) / 2 ^ 24 + 1 / 2 ^ 60
      + (1 / 2 ^ 24 + 1 / 2 ^ 60) ≤ 3 / 2 ^ 24 := by norm_num
  constructor <;> linarith [Ge.1, Ge.2, re.1, re.2]

/-- The blend with weight zero, as the code rounds it, is the reconstructed sample. -/
theorem blendFloat_zero (d c : Int) (hd : 0 ≤ d ∧ d ≤ 255) : blendFloat 0 d c = d := by
  have hd0 : (0 : ℚ) ≤ d := by exact_mod_cast hd.1
  have hd1 : (d : ℚ) ≤ 255 := by exact_mod_cast hd.2
  have h1 : toDouble 1 = 1 := by
    have := toDouble_int 1 (by norm_num)
    rw [Int.cast_one] at this
    exact this
  have h2 : toDouble (d : ℚ) = d := by
    apply toDouble_int
    rw [abs_of_nonneg hd0]
    have : (255 : ℚ) < 2 ^ 53 := by norm_num
    linarith
  have h3 : toFloat 0 = 0 := roundBin_zero 24 (-126)
  unfold blendFloat
  rw [sub_zero, h1, one_mul, h2, zero_mul, h3, add_zero, h2]

/-- Claim C19, amended. For a column that is not skipped, the weight is
`a = min(max(a0, a1, a2), 1)` with `a0`, `a1`, `a2` the single-precision values of
`mdiff0/vthresh0`, `mdiff1/vthresh1` and `max((vthresh2 - m)/vthresh2, 0)`, where `m = |d|`
in full-pixel mode and `floor(|d|/2)` in half-pixel mode; the output is the truncation of
the blend `(1-a)*rec + a*cint` as the code rounds it (`1-a`, its product with `rec` and the
sum in double precision, `a*cint` in single precision), which is within `1` of
`trunc((1-a)*rec + a*cint)`. For a threshold `vthresh2` that is a positive finite `float`
and `0 ≤ m < 2^24`, `a2` is within `3 * 2^-24` of `1 - m/vthresh2` while `m ≤ vthresh2` and
is `0` exactly when `m ≥ vthresh2`, so a column with `m ≥ vthresh2` and
`mdiff0 = mdiff1 = 0` is output unchanged. -/
theorem vcheck_blend_weight (v : VParams) (w : VRows) (width : Int) (tline0 : Row) (x : Int)
    (h0 : 0 ≤ x) (h1 : x < width) (hd : w.dmapC x ≠ 0)
    (hns : ¬ (max (w.dmapC x * w.dmapT x) (w.dmapC x * w.dmapB x) < 0 ∨
      (w.dmapT x = w.dmapB x ∧ w.dmapT x = 0)))
    (hdst : 0 ≤ w.dstp x ∧ w.dstp x ≤ 255) (hs : ∀ s, w.scpp = some s → IsU8 s)
    (ht : 0 < v.vthresh2) (hr : toFloat v.vthresh2 = v.vthresh2) (hf : v.vthresh2 < 2 ^ 128) :
    blendWeightFloat v w x =
      min (max (max (toFloat (toFloat ((mdiffsAt v w x).1 : ℚ) / v.vthresh0))
        (toFloat (toFloat ((mdiffsAt v w x).2 : ℚ) / v.vthresh1)))
        (a2Float v.vthresh2 (dircvOf v.hp (w.dmapC x)))) 1 ∧
    vcheckRowFloat v w width tline0 x =
      truncToInt (toDouble (toDouble (toDouble (1 - blendWeightFloat v w x) * (w.dstp x : ℚ))
        + toFloat (blendWeightFloat v w x * toFloat (cintAt w x : ℚ)))) ∧
    |vcheckRowFloat v w width tline0 x
      - truncToInt ((1 - blendWeightFloat v w x) * (w.dstp x : ℚ)
        + blendWeightFloat v w x * (cintAt w x : ℚ))| ≤ 1 ∧
    dircvOf v.hp (w.dmapC x) = (if v.hp = true then |w.dmapC x| / 2 else |w.dmapC x|) ∧
    (∀ m : Int, 0 ≤ m → (m : ℚ) < 2 ^ 24 →
      ((m : ℚ) ≤ v.vthresh2 →
        |a2Float v.vthresh2 m - (1 - (m : ℚ) / v.vthresh2)| ≤ 3 / 2 ^ 24) ∧
      (a2Float v.vthresh2 m = 0 ↔ v.vthresh2 ≤ (m : ℚ))) ∧
    (v.vthresh2 ≤ (dircvOf v.hp (w.dmapC x) : ℚ) → (mdiffsAt v w x).1 = 0 →
      (mdiffsAt v w x).2 = 0 → vcheckRowFloat v w width tline0 x = w.dstp x) := by
  have hw : blendWeightFloat v w x =
      min (max (max (toFloat (toFloat ((mdiffsAt v w x).1 : ℚ) / v.vthresh0))
        (toFloat (toFloat ((mdiffsAt v w x).2 : ℚ) / v.vthresh1)))
        (a2Float v.vthresh2 (dircvOf v.hp (w.dmapC x)))) 1 := rfl
  have hc := cintAt_range w x hs
  have ha := blendWeightFloat_range v w x
  have hcl := blendFloat_close (blendWeightFloat v w x) (w.dstp x) (cintAt w x) ha hdst hc
  -- the exact blend lies in `[0, 255]`
  have hE0 : 0 ≤ (1 - blendWeightFloat v w x) * (w.dstp x : ℚ)
      + blendWeightFloat v w x * (cintAt w x : ℚ) :=
    add_nonneg (mul_nonneg (by linarith [ha.2]) (by exact_mod_cast hdst.1))
      (mul_nonneg ha.1 (by exact_mod_cast hc.1))
  have hE1 : (1 - blendWeightFloat v w x) * (w.dstp x : ℚ)
      + blendWeightFloat v w x * (cintAt w x : ℚ) ≤ 255 := by
    have e1 := mul_le_mul_of_nonneg_left
      (show (w.dstp x : ℚ) ≤ 255 by exact_mod_cast hdst.2)
      (show 0 ≤ 1 - blendWeightFloat v w x by linarith [ha.2])
    have e2 := mul_le_mul_of_nonneg_left
      (show (cintAt w x : ℚ) ≤ 255 by exact_mod_cast hc.2) ha.1
    linarith
  have hS1 : blendFloat (blendWeightFloat v w x) (w.dstp x) (cintAt w x) < 256 := by
    have := (abs_le.mp hcl.2).2
    have e : (1 : ℚ) / 2 ^ 15 < 1 := by norm_num
    linarith
  have hrow : vcheckRowFloat v w width tline0 x =
      truncToInt (blendFloat (blendWeightFloat v w x) (w.dstp x) (cintAt w x)) := by
    rw [vcheckRowFloat_apply v w width tline0 x h0 h1]
    unfold vcheckPixelFloat
    simp only [hd, if_false, hns]
    apply toU8_of_range
    · unfold truncToInt
      rw [if_pos hcl.1]
      exact Int.floor_nonneg.mpr hcl.1
    · unfold truncToInt
      rw [if_pos hcl.1]
      have : ⌊blendFloat (blendWeightFloat v w x) (w.dstp x) (cintAt w x)⌋ < 256 := by
        rw [Int.floor_lt]
        exact_mod_cast hS1
      omega
  have ha2 : ∀ m : Int, 0 ≤ m → (m : ℚ) < 2 ^ 24 →
      ((m : ℚ) ≤ v.vthresh2 →
        |a2Float v.vthresh2 m - (1 - (m : ℚ) / v.vthresh2)| ≤ 3 / 2 ^ 24) ∧
      (a2Float v.vthresh2 m = 0 ↔ v.vthresh2 ≤ (m : ℚ)) := by
    intro m hm0 hm1
    have hm : |(m : ℚ)| < 2 ^ 24 := by
      rw [abs_of_nonneg (by exact_mod_cast hm0)]
      exact hm1
    refine ⟨a2Float_close v.vthresh2 m ht hr hm0 hm, ?_, a2Float_zero_of_le v.vthresh2 m ht hr⟩
    intro hz
    by_contra hlt
    have := a2Float_pos v.vthresh2 m ht hr hf hm (not_le.mp hlt)
    linarith
  refine ⟨hw, hrow, ?_, ?_, ha2, ?_⟩
  · rw [hrow]
    apply truncToInt_close _ _ hcl.1 hE0
    have e : (1 : ℚ) / 2 ^ 15 < 1 := by norm_num
    exact lt_of_le_of_lt hcl.2 e
  · unfold dircvOf
    rw [shr_one]
  · intro hm e0 e1
    have hz : blendWeightFloat v w x = 0 := by
      have h3 : toFloat 0 = 0 := roundBin_zero 24 (-126)
      rw [hw, e0, e1, a2Float_zero_of_le v.vthresh2 _ ht hr hm]
      simp only [Int.cast_zero, h3, zero_div]
      simp
    rw [hrow, hz, blendFloat_zero _ _ hdst]
    simp [truncToInt]

set_option maxRecDepth 1000000 in
/-- Instance of `vcheck_blend_weight` in a flat area of value `170` with displacement `1`
and `vthresh2 = 3`. -/
theorem vcheck_blend_weight_witness :
    |vcheckRowFloat thirdThresholds (flatCheck 170 1) 16 (fun _ => 0) 8
      - truncToInt ((1 - blendWeightFloat thirdThresholds (flatCheck 170 1) 8)
          * ((flatCheck 170 1).dstp 8 : ℚ)
        + blendWeightFloat thirdThresholds (flatCheck 170 1) 8
          * (cintAt (flatCheck 170 1) 8 : ℚ))| ≤ 1 :=
  (vcheck_blend_weight thirdThresholds (flatCheck 170 1) 16 (fun _ => 0) 8
    (by decide) (by decide) (by decide) (by decide) (by decide)
    (fun s hs => by simp [flatCheck] at hs) (by unfold thirdThresholds; norm_num)
    (by decide!) (by unfold thirdThresholds; norm_num)).2.2.1

set_option maxRecDepth 1000000 in
/-- Claim C19 as stated fails: in a flat area of value `170`, a column of displacement `1`
whose neighbours have displacement `1` is not skipped; `rec = cint = 170`,
`mdiff0 = mdiff1 = 0` and, with `vthresh2 = 3`, `a = a2 = 2/3`, in single precision
`11184811 / 2^24`. With either weight `trunc((1-a)*rec + a*cint) = 170`, which is what the
blend taken exactly stores; the code stores `169`. -/
theorem vcheck_blend_weight_counterexample :
    (flatCheck 170 1).dmapC 8 = 1 ∧ (flatCheck 170 1).dmapT 8 = 1 ∧
    (flatCheck 170 1).dmapB 8 = 1 ∧ (flatCheck 170 1).dstp 8 = 170 ∧
    cintAt (flatCheck 170 1) 8 = 170 ∧
    mdiffsAt thirdThresholds (flatCheck 170 1) 8 = (0, 0) ∧
    blendWeight thirdThresholds (flatCheck 170 1) 8 = 2 / 3 ∧
    truncToInt ((1 - 2 / 3) * 170 + 2 / 3 * 170) = 170 ∧
    vcheckRow thirdThresholds (flatCheck 170 1) 16 (fun _ => 0) 8 = 170 ∧
    blendWeightFloat thirdThresholds (flatCheck 170 1) 8 = 11184811 / 2 ^ 24 ∧
    truncToInt ((1 - 11184811 / 2 ^ 24) * 170 + 11184811 / 2 ^ 24 * 170) = 170 ∧
    vcheckRowFloat thirdThresholds (flatCheck 170 1) 16 (fun _ => 0) 8 = 169 := by
  decide!

set_option maxRecDepth 1000000 in
/-- Values of the column body at column `8` of rows that vary along the line, where
`rec = 114` and `cint = 105`: the pair `(mdiff0, mdiff1)`, the weight and the byte stored,
in full-pixel mode for the displacements `3`, `-2` and `-1`, and in half-pixel mode for
the odd displacements `3` and `-5` and the even displacement `2`. -/
theorem vcheck_blend_samples :
    cintAt (wavyCheck 3) 8 = 105 ∧ (wavyCheck 3).dstp 8 = 114 ∧
    mdiffsAt { thirdThresholds with vcheck := 1 } (wavyCheck 3) 8 = (4, 3) ∧
    blendWeightFloat { thirdThresholds with vcheck := 1 } (wavyCheck 3) 8 = 1 / 8 ∧
    vcheckRowFloat { thirdThresholds with vcheck := 1 } (wavyCheck 3) 16 (fun _ => 0) 8
      = 112 ∧
    mdiffsAt thirdThresholds (wavyCheck (-2)) 8 = (6, 8) ∧
    blendWeightFloat thirdThresholds (wavyCheck (-2)) 8 = 11184811 / 2 ^ 25 ∧
    vcheckRowFloat thirdThresholds (wavyCheck (-2)) 16 (fun _ => 0) 8 = 110 ∧
    mdiffsAt ⟨1, 7, 9, 5, false⟩ (wavyCheck (-1)) 8 = (6, 1) ∧
    blendWeightFloat ⟨1, 7, 9, 5, false⟩ (wavyCheck (-1)) 8 = 14380471 / 2 ^ 24 ∧
    vcheckRowFloat ⟨1, 7, 9, 5, false⟩ (wavyCheck (-1)) 16 (fun _ => 0) 8 = 106 ∧
    mdiffsAt { thirdThresholds with vcheck := 3, hp := true } (wavyCheck 3) 8 = (7, 4) ∧
    blendWeightFloat { thirdThresholds with vcheck := 3, hp := true } (wavyCheck 3) 8
      = 11184811 / 2 ^ 24 ∧
    vcheckRowFloat { thirdThresholds with vcheck := 3, hp := true } (wavyCheck 3) 16
      (fun _ => 0) 8 = 107 ∧
    mdiffsAt { thirdThresholds with hp := true } (wavyCheck 2) 8 = (7, 4) ∧
    vcheckRowFloat { thirdThresholds with hp := true } (wavyCheck 2) 16 (fun _ => 0) 8
      = 107 ∧
    mdiffsAt { thirdThresholds with vcheck := 1, hp := true } (wavyCheck (-5)) 8 = (6, 4) ∧
    blendWeightFloat { thirdThresholds with vcheck := 1, hp := true } (wavyCheck (-5)) 8
      = 11184811 / 2 ^ 25 ∧
    vcheckRowFloat { thirdThresholds with vcheck := 1, hp := true } (wavyCheck (-5)) 16
      (fun _ => 0) 8 = 110 := by
  decide!

/-! ## The plane loop of `GetFrame` and `copyPad`: C14, C18 -/

/-- A property kept by every iteration of a loop of stride 2 holds after the loop. -/
theorem forUpBy2_pres {σ : Type} (lo hi : Int) (body : Int → σ → σ) (init : σ) (P : σ → Prop)
    (h0 : P init)
    (hs : ∀ y s, lo ≤ y → y < hi → (y - lo) % 2 = 0 → P s → P (body y s)) :
    P (forUpBy2 lo hi body init) := by
  unfold forUpBy2
  apply forUp_pres 0 _ _ init P h0
  intro k s hk1 hk2 hP
  exact hs _ s (by omega) (by omega) (by omega) hP

/-- Invariant rule for a loop of stride 2: `P y s` holds of the state before the
iteration at `y`. -/
theorem forUpBy2_inv {σ : Type} (lo hi : Int) (body : Int → σ → σ) (init : σ)
    (P : Int → σ → Prop) (h0 : P lo init)
    (hs : ∀ y s, lo ≤ y → y < hi → (y - lo) % 2 = 0 → P y s → P (y + 2) (body y s)) :
    ∃ y, lo ≤ y ∧ hi ≤ y ∧ (y - lo) % 2 = 0 ∧ (y ≤ max lo (hi + 1)) ∧
      P y (forUpBy2 lo hi body init) := by
  unfold forUpBy2
  by_cases hle : (0 : Int) ≤ (hi - 1 - lo) / 2 + 1
  · have key := forUp_inv 0 ((hi - 1 - lo) / 2) (fun k st => body (lo + 2 * k) st) init
      (fun k s => P (lo + 2 * k) s) hle (by simpa using h0)
      (by
        intro k s hk1 hk2 hP
        have := hs (lo + 2 * k) s (by omega) (by omega) (by omega) hP
        have e : lo + 2 * (k + 1) = lo + 2 * k + 2 := by ring
        rw [e]; exact this)
    exact ⟨_, by omega, by omega, by omega, by omega, key⟩
  · rw [forUp_of_lt _ _ _ _ (by omega)]
    exact ⟨lo, le_refl _, by omega, by omega, by omega, h0⟩

/-- The bytes written by a `BitBlt` of `height` rows. -/
theorem bitBlt_copied (dst : Plane) (dy dx dstep : Int) (src : Plane) (sy sx sstep : Int)
    (row_size height : Int) (hstep : dstep ≠ 0) (j x : Int) (hj0 : 0 ≤ j) (hj1 : j < height)
    (hx0 : dx ≤ x) (hx1 : x < dx + row_size) :
    bitBlt dst dy dx dstep src sy sx sstep row_size height (dy + dstep * j) x
      = src (sy + sstep * j) (sx + (x - dx)) := by
  have key := forUp_inv 0 (height - 1) (fun j (d : Plane) =>
    Function.update d (dy + dstep * j) (fun x =>
      if dx ≤ x ∧ x < dx + row_size then src (sy + sstep * j) (sx + (x - dx))
      else d (dy + dstep * j) x)) dst
    (fun i d => ∀ j, 0 ≤ j → j < i → d (dy + dstep * j) x = src (sy + sstep * j) (sx + (x - dx)))
    (by omega) (fun j a b => by omega)
    (by
      intro i d hi1 hi2 hP j2 a b
      by_cases hji : j2 = i
      · subst hji
        simp only [Function.update_same, hx0, hx1, and_self, if_true]
      · have hne : dy + dstep * j2 ≠ dy + dstep * i := by
          intro h
          have := mul_left_cancel₀ hstep (add_left_cancel h)
          exact hji this
        simp only [Function.update_noteq hne]
        exact hP j2 a (by omega))
  simp only [sub_add_cancel] at key
  exact key j hj0 hj1

/-- The bytes left alone by a `BitBlt`. -/
theorem bitBlt_other (dst : Plane) (dy dx dstep : Int) (src : Plane) (sy sx sstep : Int)
    (row_size height : Int) (y x : Int)
    (h : (∀ j, 0 ≤ j → j < height → y ≠ dy + dstep * j) ∨ ¬ (dx ≤ x ∧ x < dx + row_size)) :
    bitBlt dst dy dx dstep src sy sx sstep row_size height y x = dst y x := by
  unfold bitBlt
  apply forUp_pres 0 (height - 1) _ dst (fun d => d y x = dst y x) rfl
  intro j d hj1 hj2 hP
  by_cases hy : y = dy + dstep * j
  · rcases h with h | h
    · exact absurd hy (h j hj1 (by omega))
    · subst hy
      simp only [Function.update_same, h, if_false]
      exact hP
  · simp only [Function.update_noteq hy]
    exact hP

/-- The reconstruction loop writes only the rows `y-4` of `dstPF` for the padded rows `y`
it iterates. -/
theorem reconstructRows_other (p : Params) (hp : Bool) (srcPF : Plane) (width height fn : Int)
    (ws : Workspace) (st : PlaneState) (r : Int)
    (h : ∀ y, 4 + fn ≤ y → y < height - 4 → (y - (4 + fn)) % 2 = 0 → r ≠ y - 4) :
    (reconstructRows p hp srcPF width height fn ws st).dst r = st.dst r := by
  unfold reconstructRows
  apply forUpBy2_pres (4 + fn) (height - 4) _ st (fun s => s.dst r = st.dst r) rfl
  intro y s hy1 hy2 hy3 hP
  have hne : r ≠ fn + shr (y - 4 - fn) 1 * 2 := by
    have := h y hy1 hy2 hy3
    rw [shr_one]
    omega
  unfold reconstructRow
  exact (Function.update_noteq hne _ _).trans hP

/-- The vcheck loop writes only the rows `y-4` of `dstPF` for the padded rows `y` it
iterates with `6 ≤ y < height-6`, and nothing of `dmapa`. -/
theorem vcheckRows_other (v : VParams) (srcPF : Plane) (scpPF : Option Plane)
    (width height fn : Int) (ws : Workspace) (st : PlaneState) :
    (vcheckRows v srcPF scpPF width height fn ws st).dmapa = st.dmapa ∧
    ∀ r, (∀ y, 4 + fn ≤ y → y < height - 4 → (y - (4 + fn)) % 2 = 0 → 6 ≤ y →
        y < height - 6 → r ≠ y - 4) →
      (vcheckRows v srcPF scpPF width height fn ws st).dst r = st.dst r := by
  constructor
  · unfold vcheckRows
    apply forUpBy2_pres (4 + fn) (height - 4) _ st (fun s => s.dmapa = st.dmapa) rfl
    intro y s _ _ _ hP
    unfold vcheckStep
    split_ifs
    · exact hP
    · exact hP
  · intro r h
    unfold vcheckRows
    apply forUpBy2_pres (4 + fn) (height - 4) _ st (fun s => s.dst r = st.dst r) rfl
    intro y s hy1 hy2 hy3 hP
    unfold vcheckStep
    split_ifs with hc
    · have hne : r ≠ y - 4 := h y hy1 hy2 hy3 hc.1 hc.2
      exact (Function.update_noteq hne _ _).trans hP
    · exact hP

/-- The padding loops of `copyPad` leave the image area of the padded plane as the first
`BitBlt` filled it. -/
theorem copyPad_interior (dh : Bool) (fn : Int) (src : Plane)
    (rowSize srcHeight width height : Int) (srcPF : Plane) (y x : Int)
    (hfn : fn = 0 ∨ fn = 1) (hy0 : 4 ≤ y) (hy1 : y < height - 4) (hx0 : 12 ≤ x)
    (hx1 : x < width - 12) :
    copyPad dh fn src rowSize srcHeight width height srcPF y x =
      (if !dh then bitBlt srcPF (4 + (1 - fn)) 12 2 src (1 - fn) 0 2 rowSize (shr srcHeight 1)
        else bitBlt srcPF (4 + (1 - fn)) 12 2 src 0 0 1 rowSize srcHeight) y x := by
  unfold copyPad
  dsimp only
  generalize (if !dh then bitBlt srcPF (4 + (1 - fn)) 12 2 src (1 - fn) 0 2 rowSize
    (shr srcHeight 1) else bitBlt srcPF (4 + (1 - fn)) 12 2 src 0 0 1 rowSize srcHeight) = s1
  -- bottom padding
  have h4 : ∀ s3 : Plane, ∀ c0 : Int,
      (forUpBy2 (height - 4 + (1 - fn)) height (fun y (sc : Plane × Int) =>
        (bitBlt sc.1 y 0 1 sc.1 (y - sc.2) 0 1 width 1, sc.2 + 4)) (s3, c0)).1 y x = s3 y x := by
    intro s3 c0
    apply forUpBy2_pres _ _ _ (s3, c0) (fun sc => sc.1 y x = s3 y x) rfl
    intro y2 sc a b _ hP
    dsimp only
    rw [bitBlt_other _ _ _ _ _ _ _ _ _ _ _ _ (Or.inl (fun j _ _ => by omega))]
    exact hP
  rw [h4]
  -- top padding
  have h3 : ∀ s2 : Plane,
      (forUpBy2 (1 - fn) 4 (fun y s => bitBlt s y 0 1 s (8 - y) 0 1 width 1) s2) y x
        = s2 y x := by
    intro s2
    apply forUpBy2_pres _ _ _ s2 (fun s => s y x = s2 y x) rfl
    intro y2 s a b _ hP
    dsimp only
    rw [bitBlt_other _ _ _ _ _ _ _ _ _ _ _ _ (Or.inl (fun j _ _ => by omega))]
    exact hP
  rw [h3]
  -- horizontal padding
  apply forUpBy2_pres _ _ _ s1 (fun s => s y x = s1 y x) rfl
  intro y2 s a b _ hP
  dsimp only
  by_cases hy : y = y2
  · subst hy
    rw [Function.update_same]
    have hl : ∀ row0 : Row, forUp 0 11 (fun x (rw : Row) => Function.update rw x (rw (24 - x)))
        row0 x = row0 x := by
      intro row0
      apply forUp_pres 0 11 _ row0 (fun rw => rw x = row0 x) rfl
      intro i rw hi1 hi2 hQ
      have hne : x ≠ i := by omega
      exact (Function.update_noteq hne _ _).trans hQ
    have hr : ∀ row0 : Row, (forUp (width - 12) (width - 1) (fun x (rc : Row × Int) =>
        (Function.update rc.1 x (rc.1 (x - rc.2)), rc.2 + 2)) (row0, 2)).1 x = row0 x := by
      intro row0
      apply forUp_pres _ _ _ (row0, (2 : Int)) (fun rc => rc.1 x = row0 x) rfl
      intro i rc hi1 hi2 hQ
      have hne : x ≠ i := by omega
      exact (Function.update_noteq hne _ _).trans hQ
    rw [hr, hl]
    exact hP
  · rw [Function.update_noteq hy]
    exact hP

/-- Known rows pass through, as far as the `BitBlt` of `GetFrame` reaches. For a processed
plane of a YV12 clip, with the padded plane filled by `copyPad` from the plane `src` of the
child's frame, the rows `(1-field_n)+2j` of the output plane with `j < (height-8)/2` (all
rows of the kept parity when the plane height is even, or when `field_n = 0`) equal the
corresponding known input row: the same row index when `dh = false`, input row `j` when
`dh = true`. Neither the reconstruction loop nor the vcheck loop writes to any row whose
index is congruent to `1-field_n` modulo 2. -/
theorem known_rows_pass_through (p : Params) (v : VParams) (dh : Bool) (fn : Int) (src : Plane)
    (rowSize srcHeight width height : Int) (srcPF0 : Plane) (scpPF : Option Plane)
    (ws : Workspace) (st : PlaneState) (hfn : fn = 0 ∨ fn = 1) (hw : width = rowSize + 24)
    (hh : height = (if dh = true then 2 * srcHeight else srcHeight) + 8) :
    (∀ j x, 0 ≤ j → j < (height - 8) / 2 → 0 ≤ x → x < rowSize →
      (getFramePlane p v (copyPad dh fn src rowSize srcHeight width height srcPF0) scpPF
        width height fn ws st).dst (1 - fn + 2 * j) x
      = src (if dh = true then j else 1 - fn + 2 * j) x) ∧
    (∀ (srcPF : Plane) (st2 : PlaneState) (r : Int), r % 2 = (1 - fn) % 2 →
      (reconstructRows p v.hp srcPF width height fn ws st2).dst r = st2.dst r ∧
      (vcheckRows v srcPF scpPF width height fn ws st2).dst r = st2.dst r) := by
  have keep : ∀ (srcPF : Plane) (st2 : PlaneState) (r : Int), r % 2 = (1 - fn) % 2 →
      (reconstructRows p v.hp srcPF width height fn ws st2).dst r = st2.dst r ∧
      (vcheckRows v srcPF scpPF width height fn ws st2).dst r = st2.dst r := by
    intro srcPF st2 r hr
    constructor
    · apply reconstructRows_other
      intro y _ _ hy
      rcases hfn with rfl | rfl <;> omega
    · apply (vcheckRows_other v srcPF scpPF width height fn ws st2).2
      intro y _ _ hy _ _
      rcases hfn with rfl | rfl <;> omega
  refine ⟨?_, keep⟩
  intro j x hj0 hj1 hx0 hx1
  have hpar : (1 - fn + 2 * j) % 2 = (1 - fn) % 2 := by omega
  have hpass : (getFramePlane p v (copyPad dh fn src rowSize srcHeight width height srcPF0)
      scpPF width height fn ws st).dst (1 - fn + 2 * j) x
      = bitBlt st.dst (1 - fn) 0 2 (copyPad dh fn src rowSize srcHeight width height srcPF0)
        (4 + 1 - fn) 12 2 (width - 24) (shr (height - 8) 1) (1 - fn + 2 * j) x := by
    unfold getFramePlane
    dsimp only
    split_ifs
    · rw [(keep _ _ _ hpar).2, (keep _ _ _ hpar).1]
    · rw [(keep _ _ _ hpar).1]
  rw [hpass, bitBlt_copied _ _ _ _ _ _ _ _ _ _ (by decide) j x hj0 (by rw [shr_one]; exact hj1)
    hx0 (by omega)]
  rw [copyPad_interior dh fn src rowSize srcHeight width height srcPF0 _ _ hfn
    (by rcases hfn with rfl | rfl <;> omega)
    (by cases dh <;> simp only [Bool.false_eq_true, if_false, if_true] at hh <;>
        rcases hfn with rfl | rfl <;> omega)
    (by omega) (by omega)]
  cases dh
  · simp only [Bool.not_false, if_true, Bool.false_eq_true, if_false] at hh ⊢
    have e : (4 + 1 - fn + 2 * j) = 4 + (1 - fn) + 2 * j := by ring
    rw [e, bitBlt_copied _ _ _ _ _ _ _ _ _ _ (by decide) j _ hj0
      (by rw [shr_one]; omega) (by omega) (by omega)]
    congr 1
    omega
  · simp only [Bool.not_true, Bool.false_eq_true, if_false, if_true] at hh ⊢
    have e : (4 + 1 - fn + 2 * j) = 4 + (1 - fn) + 2 * j := by ring
    rw [e, bitBlt_copied _ _ _ _ _ _ _ _ _ _ (by decide) j _ hj0
      (by omega) (by omega) (by omega)]
    congr 1
    · omega
    · omega

/-- Instance of `known_rows_pass_through`: a 16 by 8 plane, `field_n = 0`, output row 3,
column 5. -/
theorem known_rows_pass_through_witness :
    (getFramePlane (defaultWeights 2 4 true false) (defaultThresholds 2 false)
      (copyPad false 0 rampPlane 16 8 40 16 (fun _ _ => 0)) none 40 16 0 zeroWorkspace
      zeroPlanes).dst (1 - 0 + 2 * 1) 5
    = rampPlane (if false = true then 1 else 1 - 0 + 2 * 1) 5 :=
  (known_rows_pass_through (defaultWeights 2 4 true false) (defaultThresholds 2 false) false 0
    rampPlane 16 8 40 16 (fun _ _ => 0) none zeroWorkspace zeroPlanes (Or.inl rfl) (by decide)
    (by decide)).1 1 5 (by decide) (by decide) (by decide) (by decide)

/-- On a plane of odd height with `dh = false` and `field_n = 1`, the last row, of the kept
parity, is written by none of the three steps of the plane loop of `GetFrame`. -/
theorem last_row_untouched (p : Params) (v : VParams) (srcPF : Plane) (scpPF : Option Plane)
    (width srcHeight : Int) (ws : Workspace) (st : PlaneState) (hodd : srcHeight % 2 = 1) :
    (getFramePlane p v srcPF scpPF width (srcHeight + 8) 1 ws st).dst (srcHeight - 1)
      = st.dst (srcHeight - 1) := by
  have h1 : ∀ st2 : PlaneState,
      (reconstructRows p v.hp srcPF width (srcHeight + 8) 1 ws st2).dst (srcHeight - 1)
        = st2.dst (srcHeight - 1) := by
    intro st2
    apply reconstructRows_other
    intro y _ _ hy
    omega
  have h2 : ∀ st2 : PlaneState,
      (vcheckRows v srcPF scpPF width (srcHeight + 8) 1 ws st2).dst (srcHeight - 1)
        = st2.dst (srcHeight - 1) := by
    intro st2
    apply (vcheckRows_other v srcPF scpPF width (srcHeight + 8) 1 ws st2).2
    intro y _ _ hy _ _
    omega
  have h3 : bitBlt st.dst (1 - 1) 0 2 srcPF (4 + 1 - 1) 12 2 (width - 24)
      (shr (srcHeight + 8 - 8) 1) (srcHeight - 1) = st.dst (srcHeight - 1) := by
    funext x
    apply bitBlt_other
    left
    intro j hj0 hj1
    rw [shr_one] at hj1
    omega
  unfold getFramePlane
  dsimp only
  split_ifs
  · rw [h2, h1]; exact h3
  · rw [h1]; exact h3

set_option maxRecDepth 1000000 in
/-- Claim C14 (known rows pass through) fails on a plane of odd height. For a plane of 8
by 3 samples (a chroma plane of a YV12 clip of height 6) with `dh = false` and
`field_n = 1`, row 2 has the kept parity, yet after `copyPad` and the plane loop of
`GetFrame` row 2 of the output plane holds what it held before, whatever the input is:
on the input `rampPlane` and an output plane of zeros, column 5 of row 2 is `0` while the
input row holds `37`. -/
theorem known_row_left_unwritten (p : Params) (v : VParams) (src srcPF0 : Plane)
    (scpPF : Option Plane) (ws : Workspace) (st : PlaneState) :
    (2 : Int) % 2 = (1 - 1) % 2 ∧
    (getFramePlane p v (copyPad false 1 src 8 3 32 11 srcPF0) scpPF 32 11 1 ws st).dst 2
      = st.dst 2 ∧
    (getFramePlane (defaultWeights 2 4 true false) (defaultThresholds 2 false)
      (copyPad false 1 rampPlane 8 3 32 11 (fun _ _ => 0)) none 32 11 1 zeroWorkspace
      zeroPlanes).dst 2 5 = 0 ∧
    rampPlane 2 5 = 37 := by
  refine ⟨by decide, ?_, ?_, by decide⟩
  · exact last_row_untouched p v _ scpPF 32 3 ws st (by decide)
  · have := last_row_untouched (defaultWeights 2 4 true false) (defaultThresholds 2 false)
      (copyPad false 1 rampPlane 8 3 32 11 (fun _ _ => 0)) none 32 3 zeroWorkspace zeroPlanes
      (by decide)
    exact congrFun this 5

/-- Each reconstructed row and its displacement-map row hold what the call for that row
wrote, starting from what the rows held before the loop. -/
theorem reconstructRows_row (p : Params) (hp : Bool) (srcPF : Plane) (width height fn : Int)
    (ws : Workspace) (st : PlaneState) (y : Int) (hy : LoopRow height fn y) :
    (reconstructRows p hp srcPF width height fn ws st).dst (y - 4)
      = (interpRow p hp srcPF width fn ws y
          ⟨st.dst (y - 4), st.dmapa ((y - 4 - fn) / 2)⟩).dstp ∧
    (reconstructRows p hp srcPF width height fn ws st).dmapa ((y - 4 - fn) / 2)
      = (interpRow p hp srcPF width fn ws y
          ⟨st.dst (y - 4), st.dmapa ((y - 4 - fn) / 2)⟩).dmap := by
  obtain ⟨y1, y2, y3⟩ := hy
  have key := forUpBy2_inv (4 + fn) (height - 4) (reconstructRow p hp srcPF width fn ws) st
    (fun yy s =>
      (y < yy →
        s.dst (y - 4) = (interpRow p hp srcPF width fn ws y
            ⟨st.dst (y - 4), st.dmapa ((y - 4 - fn) / 2)⟩).dstp ∧
        s.dmapa ((y - 4 - fn) / 2) = (interpRow p hp srcPF width fn ws y
            ⟨st.dst (y - 4), st.dmapa ((y - 4 - fn) / 2)⟩).dmap) ∧
      (yy ≤ y → s.dst (y - 4) = st.dst (y - 4) ∧
        s.dmapa ((y - 4 - fn) / 2) = st.dmapa ((y - 4 - fn) / 2)))
    ⟨fun h => by omega, fun _ => ⟨rfl, rfl⟩⟩
    (by
      intro y0 s a b c hP
      have e1 : fn + shr (y0 - 4 - fn) 1 * 2 = y0 - 4 := by rw [shr_one]; omega
      have e2 : shr (y0 - 4 - fn) 1 = (y0 - 4 - fn) / 2 := shr_one _
      by_cases h0 : y = y0
      · subst h0
        refine ⟨fun _ => ?_, fun h => by omega⟩
        obtain ⟨q1, q2⟩ := hP.2 (le_refl _)
        unfold reconstructRow
        dsimp only
        rw [e1, e2, Function.update_same, Function.update_same, q1, q2]
        exact ⟨rfl, rfl⟩
      · have n1 : y - 4 ≠ fn + shr (y0 - 4 - fn) 1 * 2 := by rw [e1]; omega
        have n2 : (y - 4 - fn) / 2 ≠ shr (y0 - 4 - fn) 1 := by rw [e2]; omega
        have k1 : (reconstructRow p hp srcPF width fn ws y0 s).dst (y - 4) = s.dst (y - 4) :=
          Function.update_noteq n1 _ _
        have k2 : (reconstructRow p hp srcPF width fn ws y0 s).dmapa ((y - 4 - fn) / 2)
            = s.dmapa ((y - 4 - fn) / 2) := Function.update_noteq n2 _ _
        rw [k1, k2]
        exact ⟨fun h => hP.1 (by omega), fun h => hP.2 (by omega)⟩)
  obtain ⟨yy, _, h2, _, _, hP⟩ := key
  exact hP.1 (by omega)

/-- Claim C18 (vcheck never touches the first or last reconstructed row). For every even
padded plane height `≥ 12` and either field parity, the vcheck loop rewrites rows of the
output plane only at padded indices `y` with `6 ≤ y < height-6` that the loop iterates,
and leaves the displacement maps as they are. The reconstructed rows are the padded rows
`4+field_n, ..., height-6+field_n`; after the reconstruction loop and the vcheck loop the
topmost and the bottommost of them hold exactly what the interpolator call wrote. Every
checked row `y` has the reconstructed rows `y-2` and `y+2` next to it, whose
displacement-map rows are the rows above and below its own. -/
theorem vcheck_border_rows (p : Params) (v : VParams) (srcPF : Plane) (scpPF : Option Plane)
    (width height fn : Int) (ws : Workspace) (st : PlaneState) (hfn : fn = 0 ∨ fn = 1)
    (hh : 12 ≤ height) (he : height % 2 = 0) :
    (∀ r, (vcheckRows v srcPF scpPF width height fn ws st).dst r ≠ st.dst r →
      LoopRow height fn (r + 4) ∧ 6 ≤ r + 4 ∧ r + 4 < height - 6) ∧
    (vcheckRows v srcPF scpPF width height fn ws st).dmapa = st.dmapa ∧
    (LoopRow height fn (4 + fn) ∧ LoopRow height fn (height - 6 + fn) ∧
      ∀ y, LoopRow height fn y → 4 + fn ≤ y ∧ y ≤ height - 6 + fn) ∧
    ((vcheckRows v srcPF scpPF width height fn ws
        (reconstructRows p v.hp srcPF width height fn ws st)).dst fn
      = (interpRow p v.hp srcPF width fn ws (4 + fn) ⟨st.dst fn, st.dmapa 0⟩).dstp) ∧
    ((vcheckRows v srcPF scpPF width height fn ws
        (reconstructRows p v.hp srcPF width height fn ws st)).dst (height - 10 + fn)
      = (interpRow p v.hp srcPF width fn ws (height - 6 + fn)
          ⟨st.dst (height - 10 + fn), st.dmapa ((height - 10) / 2)⟩).dstp) ∧
    (∀ y, LoopRow height fn y → 6 ≤ y → y < height - 6 →
      LoopRow height fn (y - 2) ∧ LoopRow height fn (y + 2) ∧
      (y - 2 - 4 - fn) / 2 = (y - 4 - fn) / 2 - 1 ∧
      (y + 2 - 4 - fn) / 2 = (y - 4 - fn) / 2 + 1) := by
  have hvo := vcheckRows_other v srcPF scpPF width height fn ws
  have lt : LoopRow height fn (4 + fn) := by
    unfold LoopRow; rcases hfn with rfl | rfl <;> omega
  have lb : LoopRow height fn (height - 6 + fn) := by
    unfold LoopRow; rcases hfn with rfl | rfl <;> omega
  refine ⟨?_, (hvo st).1, ⟨lt, lb, ?_⟩, ?_, ?_, ?_⟩
  · intro r hr
    by_contra hcon
    apply hr
    apply (hvo st).2
    intro y a b c d e hry
    apply hcon
    subst hry
    rw [sub_add_cancel]
    exact ⟨⟨a, b, c⟩, d, e⟩
  · intro y hy
    unfold LoopRow at hy
    rcases hfn with rfl | rfl <;> omega
  · rw [(hvo _).2 fn (by intro y _ _ _ _ _; rcases hfn with rfl | rfl <;> omega)]
    have := (reconstructRows_row p v.hp srcPF width height fn ws st (4 + fn) lt).1
    have e1 : 4 + fn - 4 = fn := by ring
    have e2 : (fn - fn) / 2 = 0 := by rw [sub_self]; rfl
    rw [e1, e2] at this
    exact this
  · rw [(hvo _).2 (height - 10 + fn)
      (by intro y _ _ _ _ _; rcases hfn with rfl | rfl <;> omega)]
    have := (reconstructRows_row p v.hp srcPF width height fn ws st (height - 6 + fn) lb).1
    have e1 : height - 6 + fn - 4 = height - 10 + fn := by ring
    have e2 : height - 10 + fn - fn = height - 10 := by ring
    rw [e1, e2] at this
    exact this
  · intro y hy h6 hlt
    unfold LoopRow at hy ⊢
    rcases hfn with rfl | rfl <;> omega

/-- Instance of `vcheck_border_rows` on a padded plane of height 16 with `field_n = 0`: the
topmost reconstructed row after both loops. -/
theorem vcheck_border_rows_witness :
    (vcheckRows (defaultThresholds 2 false) (copyPad false 0 rampPlane 16 8 40 16 (fun _ _ => 0))
        none 40 16 0 zeroWorkspace
        (reconstructRows (defaultWeights 2 4 true false) (defaultThresholds 2 false).hp
          (copyPad false 0 rampPlane 16 8 40 16 (fun _ _ => 0)) 40 16 0 zeroWorkspace
          zeroPlanes)).dst 0
      = (interpRow (defaultWeights 2 4 true false) (defaultThresholds 2 false).hp
          (copyPad false 0 rampPlane 16 8 40 16 (fun _ _ => 0)) 40 0 zeroWorkspace (4 + 0)
          ⟨zeroPlanes.dst 0, zeroPlanes.dmapa 0⟩).dstp :=
  (vcheck_border_rows (defaultWeights 2 4 true false) (defaultThresholds 2 false)
    (copyPad false 0 rampPlane 16 8 40 16 (fun _ _ => 0)) none 40 16 0 zeroWorkspace zeroPlanes
    (Or.inl rfl) (by decide) (by decide)).2.2.2.1

/-! ## Connection costs: C21, C22, C23 -/

/-- The two lines of the code that resolve `s1` and then `s2` give the sums of the
specification rule, `-1` marking a sum that was not computed: using the already replaced
`s1` when resolving `s2` makes no difference. -/
theorem sum3_eq_fallbackSpec (s0 : Int) (s1 s2 : Option Int) (h0 : 0 ≤ s0)
    (h1 : ∀ a, s1 = some a → 0 ≤ a) (h2 : ∀ b, s2 = some b → 0 ≤ b) :
    sum3 s0 (s1.getD (-1)) (s2.getD (-1))
      = s0 + (fallbackSpec s0 s1 s2).1 + (fallbackSpec s0 s1 s2).2 := by
  cases s1 with
  | none =>
    cases s2 with
    | none =>
      simp only [sum3, fallbackSpec, Option.getD_none]
      split_ifs <;> omega
    | some b =>
      have := h2 b rfl
      simp only [sum3, fallbackSpec, Option.getD_none, Option.getD_some]
      split_ifs <;> omega
  | some a =>
    have := h1 a rfl
    cases s2 with
    | none =>
      simp only [sum3, fallbackSpec, Option.getD_none, Option.getD_some]
      split_ifs <;> omega
    | some b =>
      have := h2 b rfl
      simp only [sum3, fallbackSpec, Option.getD_some]
      split_ifs <;> omega

theorem getD_ite (c : Prop) [Decidable c] (a : Int) :
    (if c then some a else none).getD (-1) = if c then a else -1 := by
  split_ifs <;> rfl

theorem some_nonneg_of_ite (c : Prop) [Decidable c] (a : Int) (ha : 0 ≤ a) :
    ∀ b, (if c then some a else none) = some b → 0 ≤ b := by
  intro b hb
  split_ifs at hb
  · cases hb; exact ha

/-- Claim C22 (cost3 fallback precedence). In `cost3` mode the cost of `interpLineFP` and
of `interpLineHP` is `alpha*(s0 + s1' + s2')*0.333333` plus the magnitude and the vertical
term, where `s1'` is `s1` if `s1` was computed, else `s2` if `s2` was computed, else `s0`,
and `s2'` is `s2` if computed, else `s1` if computed, else `s0`: the code's use of the
already replaced `s1` when resolving `s2` gives the value of this symmetric rule in every
case. -/
theorem cost3_fallback_precedence (p : Params) (r h : Rows) (width x u : Int)
    (hc : p.cost3 = true) :
    ccostFP p r width x u = ccost3SpecFP p r width x u ∧
    ccostHP p r h width x u = ccost3SpecHP p r h width x u := by
  constructor
  · unfold ccostFP ccost3SpecFP
    simp only [hc, Bool.not_true, Bool.false_eq_true, if_false]
    rw [← getD_ite (s1CondFP width x u), ← getD_ite (s2CondFP width x u),
      sum3_eq_fallbackSpec _ _ _ (sad_nonneg _ _ _ _)
        (some_nonneg_of_ite _ _ (sad_nonneg _ _ _ _))
        (some_nonneg_of_ite _ _ (sad_nonneg _ _ _ _))]
  · unfold ccostHP ccost3SpecHP
    simp only [hc, Bool.not_true, Bool.false_eq_true, if_false]
    have hs0 : 0 ≤ (if u % 2 = 0 then sad r p.nrad (x + shr u 1) (x - shr u 1)
        else sad h p.nrad (x + shr u 1) (x - shr u 1 - 1)) := by
      split_ifs
      · exact sad_nonneg _ _ _ _
      · exact sad_nonneg _ _ _ _
    rw [← getD_ite (s1CondHP width x u), ← getD_ite (s2CondHP width x u),
      sum3_eq_fallbackSpec _ _ _ hs0
        (some_nonneg_of_ite _ _ (sad_nonneg _ _ _ _))
        (some_nonneg_of_ite _ _ (sad_nonneg _ _ _ _))]

/-- Instance of `cost3_fallback_precedence` at the cell `(5,-2)` of the diagonal edge. -/
theorem cost3_fallback_precedence_witness :
    ccostFP (defaultWeights 2 4 true true) (diagRows 8) 16 5 (-2)
      = ccost3SpecFP (defaultWeights 2 4 true true) (diagRows 8) 16 5 (-2) :=
  (cost3_fallback_precedence (defaultWeights 2 4 true true) (diagRows 8) (diagRows 8) 16 5 (-2)
    rfl).1

/-- The guards of `s1` and `s2` in `interpLineHP` at `2u` are those of `interpLineFP` at
`u`. -/
theorem s1Cond_double (width x u : Int) : s1CondHP width x (2 * u) ↔ s1CondFP width x u := by
  unfold s1CondHP s1CondFP; omega

theorem s2Cond_double (width x u : Int) : s2CondHP width x (2 * u) ↔ s2CondFP width x u := by
  unfold s2CondHP s2CondFP; omega

/-- The half-pixel cost at the even displacement `2u` is the full-pixel cost at `u`. -/
theorem ccostHP_double (p : Params) (r h : Rows) (width x u : Int) :
    ccostHP p r h width x (2 * u) = ccostFP p r width x u := by
  have e1 : shr (2 * u) 1 = u := by rw [shr_one]; omega
  have e2 : (2 * u) % 2 = 0 := by omega
  have e3 : ((|2 * u| : Int) : ℚ) * 0.5 = ((|u| : Int) : ℚ) := by
    rw [abs_mul, abs_two]
    push_cast
    ring
  have e4 : x - 2 * u = x - u * 2 := by ring
  have e5 : x + 2 * u = x + u * 2 := by ring
  unfold ccostHP ccostFP
  simp only [e1, e2, if_true, mul_assoc, e3, e4, e5]
  by_cases hc : p.cost3 = true
  · simp only [hc, Bool.not_true, Bool.false_eq_true, if_false]
    by_cases c1 : s1CondFP width x u <;> by_cases c2 : s2CondFP width x u <;>
      simp only [c1, c2, (s1Cond_double width x u).mpr, (s2Cond_double width x u).mpr,
        s1Cond_double, s2Cond_double, if_true, if_false]
  · rw [Bool.not_eq_true] at hc
    simp only [hc, Bool.not_false, if_true]

/-- Claim C21 (half-pixel costs are on the full-pixel scale). For every column `x`, every
full-pixel displacement `u`, all reference rows and parameters, with or without `cost3`,
the cost of `interpLineHP` at the even displacement `2u` equals the cost of `interpLineFP`
at `u`; the half-pixel transition penalty between `2u` and `2v` is `gamma*|u-v|`, the
full-pixel penalty; and for `|u| ≤ min(x, width-1-x, mdis)` the entries of the two cost
tables are equal, whatever the scratch buffers and the half-pel bytes hold. -/
theorem half_pel_cost_scale (p : Params) (r : Rows) (mem : Row) (width x u v : Int) :
    ccostHP p r (halfPelRows p.ucubic width r mem) width x (2 * u) = ccostFP p r width x u ∧
    p.gamma * ((|2 * u - 2 * v| : Int) : ℚ) * 0.5 = p.gamma * ((|u - v| : Int) : ℚ) ∧
    (∀ pc : Int → ℚ, predCost 2 0.5 p.mdis p.gamma pc x (2 * u) (2 * v)
      = satur (pc (cellIdx 2 p.mdis (x - 1) (2 * v)) + p.gamma * ((|u - v| : Int) : ℚ))) ∧
    (∀ temp temp2 : Scratch, 1 ≤ width → 0 ≤ p.mdis → ValidCell 1 width p.mdis x u →
      ValidCell 2 width p.mdis x (2 * u) ∧
      (solveHP r mem width p temp).ccosts (cellIdx 2 p.mdis x (2 * u))
        = (solveFP r width p temp2).ccosts (cellIdx 1 p.mdis x u)) := by
  have epen : p.gamma * ((|2 * u - 2 * v| : Int) : ℚ) * 0.5
      = p.gamma * ((|u - v| : Int) : ℚ) := by
    have : 2 * u - 2 * v = 2 * (u - v) := by ring
    rw [this, abs_mul, abs_two]
    push_cast
    ring
  refine ⟨ccostHP_double p r _ width x u, epen, ?_, ?_⟩
  · intro pc
    unfold predCost
    rw [epen]
  · intro temp temp2 hw hm hv
    have hv2 : ValidCell 2 width p.mdis x (2 * u) := by
      unfold ValidCell at hv ⊢
      omega
    refine ⟨hv2, ?_⟩
    rw [(solveHP_solved r mem width p temp hm hw).cost x _ hv2,
      (solveFP_solved r width p temp2 hm hw).cost x u hv]
    exact ccostHP_double p r _ width x u

/-- Instance of `half_pel_cost_scale` at the cell `(5,-2)` of the diagonal edge. -/
theorem half_pel_cost_scale_witness :
    (solveHP (diagRows 8) (fun _ => 0) 16 (defaultWeights 2 4 true true) zeroScratch).ccosts
        (cellIdx 2 (defaultWeights 2 4 true true).mdis 5 (2 * (-2)))
      = (solveFP (diagRows 8) 16 (defaultWeights 2 4 true true) zeroScratch).ccosts
        (cellIdx 1 (defaultWeights 2 4 true true).mdis 5 (-2)) :=
  ((half_pel_cost_scale (defaultWeights 2 4 true true) (diagRows 8) (fun _ => 0) 16 5 (-2) 0).2.2.2
    zeroScratch zeroScratch (by decide) (show (0 : Int) ≤ 4 by decide) (by decide)).2

/-- Claim C23 (the scratch buffer is large enough). For every `width ≥ 1` not above the
clip width and `mdis` in `1..40`, the three tables of `width*tpitch` entries and the path
of `width` entries end at element `width*(3*tpitch+1)` of the buffer, with
`tpitch = 2*mdis+1` in `interpLineFP` and `4*mdis+1` in `interpLineHP`, which does not
exceed the `vi.width*max(4*mdis+1,16)*4` elements allocated per worker; every cell of the
trellis indexes inside its table; and the four half-pel rows of `width` bytes each start
at the first byte of the path region and end exactly at its last byte. -/
theorem scratch_large_enough (width viWidth mdis : Int) (hw : 1 ≤ width)
    (hvw : width ≤ viWidth) (hm1 : 1 ≤ mdis) (hm2 : mdis ≤ 40) :
    (tempLayout width (mdis * 2 + 1)).fpath + width = width * (3 * (2 * mdis + 1) + 1) ∧
    width * (3 * (2 * mdis + 1) + 1) ≤ workspaceFloats viWidth mdis ∧
    (tempLayout width (mdis * 4 + 1)).fpath + width = width * (3 * (4 * mdis + 1) + 1) ∧
    width * (3 * (4 * mdis + 1) + 1) ≤ workspaceFloats viWidth mdis ∧
    (∀ sc x u, sc = 1 ∨ sc = 2 → ValidCell sc width mdis x u →
      0 ≤ cellIdx sc mdis x u ∧ cellIdx sc mdis x u < width * (mdis * 2 * sc + 1)) ∧
    (∀ i, 0 ≤ i → i < width →
      4 * (tempLayout width (mdis * 4 + 1)).fpath ≤ 4 * (tempLayout width (mdis * 4 + 1)).fpath + i ∧
      4 * (tempLayout width (mdis * 4 + 1)).fpath + (width * 3 + i)
        < 4 * ((tempLayout width (mdis * 4 + 1)).fpath + width)) ∧
    4 * (tempLayout width (mdis * 4 + 1)).fpath + (width * 3 + width)
      = 4 * ((tempLayout width (mdis * 4 + 1)).fpath + width) := by
  have hmax : 4 * mdis + 1 ≤ max (mdis * 4 + 1) 16 := by
    have := le_max_left (mdis * 4 + 1) 16
    omega
  have hpos : 0 ≤ max (mdis * 4 + 1) 16 := by omega
  have hbig : ∀ c : Int, 0 ≤ c → c ≤ 4 * (4 * mdis + 1) →
      width * c ≤ workspaceFloats viWidth mdis := by
    intro c hc0 hc
    unfold workspaceFloats
    calc width * c ≤ viWidth * c := mul_le_mul_of_nonneg_right hvw hc0
      _ ≤ viWidth * (max (mdis * 4 + 1) 16 * 4) :=
          mul_le_mul_of_nonneg_left (by omega) (by omega)
      _ = viWidth * max (mdis * 4 + 1) 16 * 4 := by ring
  refine ⟨?_, hbig _ (by omega) (by omega), ?_, hbig _ (by omega) (by omega), ?_, ?_, ?_⟩
  · unfold tempLayout; ring
  · unfold tempLayout; ring
  · intro sc x u hsc hv
    exact cellIdx_range sc mdis width x u hsc hv
  · intro i hi0 hi1
    constructor <;> omega
  · ring

/-- Instance of `scratch_large_enough` at width 16, `mdis = 40`, half-pixel mode. -/
theorem scratch_large_enough_witness :
    (16 : Int) * (3 * (4 * 40 + 1) + 1) ≤ workspaceFloats 16 40 :=
  (scratch_large_enough 16 16 40 (by decide) (by decide) (by decide) (by decide)).2.2.2.1

/-! ## Interpolation of flat rows: C28 -/

/-- Claim C28 (constant preservation). If all four reference rows are uniformly equal to
one value `k` in `0..255`, every sample written by `interpLineFP` and by `interpLineHP`
equals `k`, with `ucubic` on or off and for every displacement: the cubic kernels
`(64k+32)>>6` and `(128k+64)>>7` and the rounding averages `(2k+1)>>1` and `(4k+2)>>2` all
return `k`. -/
theorem constant_preservation (k : Int) (ucubic : Bool) (width x d : Int) (hk0 : 0 ≤ k)
    (hk1 : k ≤ 255) :
    interpPixelFP ucubic (flatRows k) width x d = k ∧
    interpPixelHP ucubic (flatRows k) width x d = k ∧
    (36 * (k + k) - 4 * (k + k) + 32) / 2 ^ 6 = k ∧
    (36 * (k + k + (k + k)) - 4 * (k + k + (k + k)) + 64) / 2 ^ 7 = k ∧
    (k + k + 1) / 2 ^ 1 = k ∧ (k + k + k + k + 2) / 2 ^ 2 = k ∧
    (∀ (p : Params) (mem : Row) (temp : Scratch) (out : Output), 0 ≤ x → x < width →
      (interpLineFP (flatRows k) width p temp out).dstp x = k ∧
      (interpLineHP (flatRows k) mem width p temp out).dstp x = k) := by
  have c6 : (36 * (k + k) - 4 * (k + k) + 32) / 2 ^ 6 = k := by omega
  have c7 : (36 * (k + k + (k + k)) - 4 * (k + k + (k + k)) + 64) / 2 ^ 7 = k := by omega
  have a1 : (k + k + 1) / 2 ^ 1 = k := by omega
  have a2 : (k + k + k + k + 2) / 2 ^ 2 = k := by omega
  have hc : clamp255 k = k := by unfold clamp255; omega
  have hu : toU8 k = k := toU8_of_range k hk0 hk1
  have hF : ∀ (uc : Bool) (d : Int), interpPixelFP uc (flatRows k) width x d = k := by
    intro uc d
    unfold interpPixelFP flatRows shr
    dsimp only
    split_ifs
    · rw [c6, hc, hu]
    · rw [a1, hu]
  have hH : ∀ (uc : Bool) (d : Int), interpPixelHP uc (flatRows k) width x d = k := by
    intro uc d
    unfold interpPixelHP flatRows shr
    dsimp only
    split_ifs
    · rw [c6, hc, hu]
    · rw [a1, hu]
    · rw [c7, hc, hu]
    · rw [a2, hu]
  refine ⟨hF ucubic d, hH ucubic d, c6, c7, a1, a2, ?_⟩
  intro p mem temp out h0 h1
  constructor
  · have hs := (interpolate_spec (interpPixelFP p.ucubic (flatRows k) width) width
      (solveFP (flatRows k) width p temp).fpath out (by omega) x).1 ⟨h0, h1⟩
    unfold interpLineFP
    rw [hs.2]
    exact hF _ _
  · have hs := (interpolate_spec (interpPixelHP p.ucubic (flatRows k) width) width
      (solveHP (flatRows k) mem width p temp).fpath out (by omega) x).1 ⟨h0, h1⟩
    unfold interpLineHP
    rw [hs.2]
    exact hH _ _

/-- Instance of `constant_preservation` with `k = 200`, displacements `-2` and `3`. -/
theorem constant_preservation_witness :
    interpPixelFP true (flatRows 200) 16 8 (-2) = 200 ∧
    interpPixelHP true (flatRows 200) 16 8 3 = 200 :=
  ⟨(constant_preservation 200 true 16 8 (-2) (by decide) (by decide)).1,
    (constant_preservation 200 true 16 8 3 (by decide) (by decide)).2.1⟩

/-! ## The vcheck policies: C30 -/

/-- The guard keeps positive values positive. -/
theorem satur_pos (y : ℚ) (h : 0 < y) : 0 < satur y := by
  unfold satur
  exact lt_min h (by unfold FLT_MAX; norm_num)

/-- The recorded predecessor is the lowest among the candidates of least compared value. -/
theorem StepOK.lowest_tie {sc : Int} {pen : ℚ} {width mdis : Int} {gamma : ℚ}
    {cc pc : Int → ℚ} {bk : Int → Int} {idx0 x u : Int}
    (h : StepOK sc pen width mdis gamma cc pc bk idx0 x u) (hsc : sc = 1 ∨ sc = 2)
    (hm : 0 ≤ mdis) (hx : 1 ≤ x) (hv : ValidCell sc width mdis x u) (v : Int)
    (hv1 : ValidCell sc width mdis (x - 1) v) (h1 : u - sc ≤ v) (h2 : v ≤ u + sc)
    (hmin : ∀ w, ValidCell sc width mdis (x - 1) w → u - sc ≤ w → w ≤ u + sc →
      predCost sc pen mdis gamma pc x u v ≤ predCost sc pen mdis gamma pc x u w) :
    bk (cellIdx sc mdis (x - 1) u) ≤ v ∧
    predCost sc pen mdis gamma pc x u (bk (cellIdx sc mdis (x - 1) u))
      = predCost sc pen mdis gamma pc x u v := by
  obtain ⟨p1, p2, p3, _, p5, p6⟩ := h.pred hsc hm hx hv
  have hle := p5 v hv1 h1 h2
  have hge := hmin _ p1 p2 p3
  refine ⟨?_, le_antisymm hle hge⟩
  by_contra hcon
  have := p6 v hv1 h1 (by omega)
  exact absurd (lt_of_lt_of_le this hge) (lt_irrefl _)

/-- With non-negative cell costs that vanish on the zero path, and a penalty that makes
every other step or every other cell cost something, the backtracked path is zero. -/
theorem Solved.zero_of_penalty {sc : Int} {pen : ℚ} {width mdis : Int} {gamma : ℚ}
    {cell : Int → Int → ℚ} {idx0 : Int} {s : Scratch}
    (h : Solved sc pen width mdis gamma cell idx0 s) (hsc : sc = 1 ∨ sc = 2) (hm : 0 ≤ mdis)
    (hw : 1 ≤ width) (hg : 0 ≤ gamma) (hpen : 0 < pen)
    (hc : ∀ x u, ValidCell sc width mdis x u → 0 ≤ cell x u)
    (hz : ∀ x, cell x 0 = 0)
    (hact : 0 < gamma ∨ ∀ x u, ValidCell sc width mdis x u → u ≠ 0 → 0 < cell x u) :
    ∀ x, 0 ≤ x → x < width → s.fpath x = 0 := by
  have hnn := h.pcosts_nonneg hsc hm hg (le_of_lt hpen) hc
  have hv0 : ∀ x, 0 ≤ x → x < width → ValidCell sc width mdis x 0 := by
    intro x a b
    unfold ValidCell umaxAt
    rcases hsc with rfl | rfl <;> omega
  -- the path cost of the zero displacement is zero in every column
  have hp0 : ∀ n : Nat, (n : Int) < width → s.pcosts (cellIdx sc mdis (n : Int) 0) = 0 := by
    intro n
    induction n with
    | zero =>
      intro _
      simp only [Nat.cast_zero]
      rw [h.base, hz]
    | succ m ih =>
      intro hlt
      have hx : (1 : Int) ≤ ((m + 1 : Nat) : Int) := by push_cast; omega
      have hv := hv0 ((m + 1 : Nat) : Int) (by omega) hlt
      obtain ⟨p1, p2, p3, p4, p5, _⟩ := (h.step _ 0 hx hv).pred hsc hm hx hv
      have e : ((m + 1 : Nat) : Int) - 1 = (m : Int) := by push_cast; ring
      have hm1 : (m : Int) < width := by push_cast at hlt; omega
      have hle := p5 0 (by rw [e]; exact hv0 _ (by omega) hm1)
        (by rcases hsc with rfl | rfl <;> omega) (by rcases hsc with rfl | rfl <;> omega)
      have hzero : predCost sc pen mdis gamma s.pcosts ((m + 1 : Nat) : Int) 0 0 = 0 := by
        unfold predCost
        rw [e, ih hm1]
        simp only [sub_self, abs_zero, Int.cast_zero, mul_zero, zero_mul, add_zero]
        exact satur_zero
      have hge : 0 ≤ predCost sc pen mdis gamma s.pcosts ((m + 1 : Nat) : Int) 0
          (s.pbackt (cellIdx sc mdis (((m + 1 : Nat) : Int) - 1) 0)) := by
        unfold predCost
        apply satur_nonneg
        apply add_nonneg (hnn _ _ p1)
        apply mul_nonneg (mul_nonneg hg _) (le_of_lt hpen)
        exact_mod_cast abs_nonneg _
      rw [hzero] at hle
      rw [p4, le_antisymm hle hge, h.cost _ 0 hv, hz, add_zero]
      exact satur_zero
  -- path costs off the zero displacement are positive when only the cells cost
  have hpos : (∀ x u, ValidCell sc width mdis x u → u ≠ 0 → 0 < cell x u) →
      ∀ x u, ValidCell sc width mdis x u → u ≠ 0 → 0 < s.pcosts (cellIdx sc mdis x u) := by
    intro hcell x u hv hu
    have hx : 1 ≤ x := by
      unfold ValidCell umaxAt at hv
      rcases hsc with rfl | rfl <;> omega
    obtain ⟨p1, _, _, p4, _, _⟩ := (h.step x u hx hv).pred hsc hm hx hv
    rw [p4]
    apply satur_pos
    apply add_pos_of_nonneg_of_pos
    · unfold predCost
      apply satur_nonneg
      apply add_nonneg (hnn _ _ p1)
      apply mul_nonneg (mul_nonneg hg _) (le_of_lt hpen)
      exact_mod_cast abs_nonneg _
    · rw [h.cost x u hv]
      exact hcell x u hv hu
  -- the predecessor recorded for the zero displacement is zero
  have hbk : ∀ x, 1 ≤ x → x < width → s.pbackt (cellIdx sc mdis (x - 1) 0) = 0 := by
    intro x hx hlt
    have hv := hv0 x (by omega) hlt
    obtain ⟨p1, p2, p3, p4, p5, _⟩ := (h.step x 0 hx hv).pred hsc hm hx hv
    have hle := p5 0 (hv0 _ (by omega) (by omega))
      (by rcases hsc with rfl | rfl <;> omega) (by rcases hsc with rfl | rfl <;> omega)
    have hzero : predCost sc pen mdis gamma s.pcosts x 0 0 = 0 := by
      unfold predCost
      have := hp0 (x - 1).toNat (by omega)
      rw [Int.toNat_of_nonneg (by omega)] at this
      rw [this]
      simp only [sub_self, abs_zero, Int.cast_zero, mul_zero, zero_mul, add_zero]
      exact satur_zero
    rw [hzero] at hle
    by_contra hne
    have hb0 : (0 : ℚ) < ((|0 - s.pbackt (cellIdx sc mdis (x - 1) 0)| : Int) : ℚ) := by
      have : 0 < |0 - s.pbackt (cellIdx sc mdis (x - 1) 0)| := by
        rw [zero_sub, abs_neg]
        exact abs_pos.mpr hne
      exact_mod_cast this
    have hlt0 : 0 < predCost sc pen mdis gamma s.pcosts x 0
        (s.pbackt (cellIdx sc mdis (x - 1) 0)) := by
      unfold predCost
      apply satur_pos
      rcases hact with hgp | hcell
      · apply add_pos_of_nonneg_of_pos (hnn _ _ p1)
        exact mul_pos (mul_pos hgp hb0) hpen
      · apply add_pos_of_pos_of_nonneg (hpos hcell _ _ p1 hne)
        apply mul_nonneg (mul_nonneg hg (le_of_lt hb0)) (le_of_lt hpen)
    exact absurd (lt_of_lt_of_le hlt0 hle) (lt_irrefl _)
  -- backtrack
  have key : ∀ n : Nat, (n : Int) < width → s.fpath (width - 1 - n) = 0 := by
    intro n
    induction n with
    | zero =>
      intro _
      simp only [Nat.cast_zero, sub_zero]
      exact h.last
    | succ m ih =>
      intro hlt
      have hm1 : (m : Int) < width := by push_cast at hlt; omega
      have e1 : width - 1 - ((m + 1 : Nat) : Int) + 1 = width - 1 - (m : Int) := by
        push_cast; ring
      have hb := h.back (width - 1 - ((m + 1 : Nat) : Int)) (by push_cast at hlt ⊢; omega)
        (by push_cast; omega)
      rw [e1, ih hm1] at hb
      rw [hb]
      have := hbk (width - 1 - (m : Int)) (by push_cast at hlt; omega) (by omega)
      have e2 : width - 1 - (m : Int) - 1 = width - 1 - ((m + 1 : Nat) : Int) := by
        push_cast; ring
      rw [e2] at this
      exact this
  intro x h0 h1
  have := key (width - 1 - x).toNat (by omega)
  have e : width - 1 - ((width - 1 - x).toNat : Int) = x := by omega
  rw [e] at this
  exact this

/-- On flat rows every window sum is zero. -/
theorem sad_flat (k nrad i j : Int) : sad (flatRows k) nrad i j = 0 := by
  unfold sad flatRows
  apply forUp_pres (-nrad) nrad _ 0 (fun s => s = 0) rfl
  intro t s _ _ hs
  simp only [hs, sub_self, abs_zero, add_zero]

/-- On flat rows the cost of `interpLineFP` is the magnitude term `beta*|u|` alone. -/
theorem ccostFP_flat (p : Params) (k width x u : Int) :
    ccostFP p (flatRows k) width x u = p.beta * ((|u| : Int) : ℚ) := by
  have hip : shr (k + k + 1) 1 = k := by rw [shr_one]; omega
  have hs : ∀ a b : Int, (a = 0 ∨ a = -1) → (b = 0 ∨ b = -1) → sum3 0 a b = 0 := by
    intro a b ha hb
    simp only [sum3]
    rcases ha with rfl | rfl <;> rcases hb with rfl | rfl <;> decide
  unfold ccostFP
  simp only [sad_flat]
  have e1 : (flatRows k).src1p = fun _ => k := rfl
  have e2 : (flatRows k).src1n = fun _ => k := rfl
  simp only [e1, e2, hip, sub_self, abs_zero, add_zero, Int.cast_zero, mul_zero]
  split_ifs with c c1 c2 c2
  · simp
  · rw [hs 0 0 (Or.inl rfl) (Or.inl rfl)]; simp
  · rw [hs 0 (-1) (Or.inl rfl) (Or.inr rfl)]; simp
  · rw [hs (-1) 0 (Or.inr rfl) (Or.inl rfl)]; simp
  · rw [hs (-1) (-1) (Or.inr rfl) (Or.inr rfl)]; simp

/-- Claim C27 (flat input gives the zero path once a penalty is active). If all four
reference rows are uniformly equal to one value `k` and `beta > 0` or `gamma > 0` (both
non-negative, `alpha` arbitrary), every cost of `interpLineFP` is `beta*|u|` and
`interpLineFP` returns displacement `0` at every column, for every width, `mdis`, `nrad`,
either value of `cost3` and whatever the scratch buffer holds. -/
theorem flat_zero_path (k width : Int) (p : Params) (temp : Scratch) (out : Output)
    (hw : 1 ≤ width) (hm : 0 ≤ p.mdis) (hb : 0 ≤ p.beta) (hg : 0 ≤ p.gamma)
    (hact : 0 < p.beta ∨ 0 < p.gamma) :
    (∀ x u, ccostFP p (flatRows k) width x u = p.beta * ((|u| : Int) : ℚ)) ∧
    (∀ x, 0 ≤ x → x < width → (interpLineFP (flatRows k) width p temp out).dmap x = 0) := by
  refine ⟨ccostFP_flat p k width, ?_⟩
  intro x h0 h1
  rw [interpLineFP_dmap _ width p temp out x h0 h1]
  have habs : ∀ u : Int, (0 : ℚ) ≤ ((|u| : Int) : ℚ) := fun u => by exact_mod_cast abs_nonneg u
  apply (solveFP_solved (flatRows k) width p temp hm hw).zero_of_penalty (Or.inl rfl) hm hw hg
    zero_lt_one
  · intro x u _
    rw [ccostFP_flat]
    exact mul_nonneg hb (habs u)
  · intro x
    rw [ccostFP_flat]
    simp
  · rcases hact with hbp | hgp
    · right
      intro x u _ hu
      rw [ccostFP_flat]
      apply mul_pos hbp
      have : 0 < |u| := abs_pos.mpr hu
      exact_mod_cast this
    · exact Or.inl hgp
  · exact h0
  · exact h1

/-- Instance of `flat_zero_path` with the default weights at width 16, column 5. -/
theorem flat_zero_path_witness :
    (interpLineFP (flatRows 128) 16 (defaultWeights 2 4 true true) zeroScratch zeroOutput).dmap 5
      = 0 :=
  (flat_zero_path 128 16 (defaultWeights 2 4 true true) zeroScratch zeroOutput (by decide)
    (show (0 : Int) ≤ 4 by decide) (by unfold defaultWeights; norm_num)
    (by unfold defaultWeights; norm_num)
    (Or.inl (by unfold defaultWeights; norm_num))).2 5 (by decide) (by decide)

/-- Claim C26 (tie-breaking picks the lowest predecessor). In the forward pass of
`interpLineFP` and of `interpLineHP`, whenever a candidate `v` attains the least compared
value among the predecessor candidates of a cell, the recorded predecessor attains it too
and is not above `v`: it is the smallest candidate of least value. The compared value is
`prevPathCost(v) + penalty(u,v)` whenever that sum is below the saturation level. In
particular, when all trellis and transition costs are `0` and `width ≥ 3`, the backtracked
displacement at column `width-2` is `-1` in `interpLineFP` (and `-2`, one pixel, in the
half-pixel units of `interpLineHP`), not `0`. -/
theorem tie_break_lowest (r : Rows) (mem : Row) (width : Int) (p : Params) (temp : Scratch)
    (out : Output) (hw : 1 ≤ width) (hm : 1 ≤ p.mdis) :
    (∀ x u v, 1 ≤ x → ValidCell 1 width p.mdis x u → ValidCell 1 width p.mdis (x - 1) v →
      u - 1 ≤ v → v ≤ u + 1 →
      (∀ w, ValidCell 1 width p.mdis (x - 1) w → u - 1 ≤ w → w ≤ u + 1 →
        predCost 1 1 p.mdis p.gamma (solveFP r width p temp).pcosts x u v
          ≤ predCost 1 1 p.mdis p.gamma (solveFP r width p temp).pcosts x u w) →
      (solveFP r width p temp).pbackt (cellIdx 1 p.mdis (x - 1) u) ≤ v ∧
      predCost 1 1 p.mdis p.gamma (solveFP r width p temp).pcosts x u
          ((solveFP r width p temp).pbackt (cellIdx 1 p.mdis (x - 1) u))
        = predCost 1 1 p.mdis p.gamma (solveFP r width p temp).pcosts x u v) ∧
    (∀ x u v, 1 ≤ x → ValidCell 2 width p.mdis x u → ValidCell 2 width p.mdis (x - 1) v →
      u - 2 ≤ v → v ≤ u + 2 →
      (∀ w, ValidCell 2 width p.mdis (x - 1) w → u - 2 ≤ w → w ≤ u + 2 →
        predCost 2 0.5 p.mdis p.gamma (solveHP r mem width p temp).pcosts x u v
          ≤ predCost 2 0.5 p.mdis p.gamma (solveHP r mem width p temp).pcosts x u w) →
      (solveHP r mem width p temp).pbackt (cellIdx 2 p.mdis (x - 1) u) ≤ v ∧
      predCost 2 0.5 p.mdis p.gamma (solveHP r mem width p temp).pcosts x u
          ((solveHP r mem width p temp).pbackt (cellIdx 2 p.mdis (x - 1) u))
        = predCost 2 0.5 p.mdis p.gamma (solveHP r mem width p temp).pcosts x u v) ∧
    (3 ≤ width → p.gamma = 0 →
      (∀ x u, ValidCell 1 width p.mdis x u → ccostFP p r width x u = 0) →
      (interpLineFP r width p temp out).dmap (width - 2) = -1) ∧
    (3 ≤ width → p.gamma = 0 →
      (∀ x u, ValidCell 2 width p.mdis x u →
        ccostHP p r (halfPelRows p.ucubic width r mem) width x u = 0) →
      (interpLineHP r mem width p temp out).dmap (width - 2) = -2) ∧
    (∀ (pc : Int → ℚ) (x u v : Int),
      (pc (cellIdx 1 p.mdis (x - 1) v) + p.gamma * ((|u - v| : Int) : ℚ) ≤ FLT_MAX * 0.9 →
        predCost 1 1 p.mdis p.gamma pc x u v
          = pc (cellIdx 1 p.mdis (x - 1) v) + p.gamma * ((|u - v| : Int) : ℚ)) ∧
      (pc (cellIdx 2 p.mdis (x - 1) v) + p.gamma * ((|u - v| : Int) : ℚ) * 0.5
          ≤ FLT_MAX * 0.9 →
        predCost 2 0.5 p.mdis p.gamma pc x u v
          = pc (cellIdx 2 p.mdis (x - 1) v) + p.gamma * ((|u - v| : Int) : ℚ) * 0.5)) := by
  have hm0 : 0 ≤ p.mdis := by omega
  have sF := solveFP_solved r width p temp hm0 hw
  have sH := solveHP_solved r mem width p temp hm0 hw
  refine ⟨?_, ?_, ?_, ?_, ?_⟩
  · intro x u v hx hv hv1 h1 h2 hmin
    exact (sF.step x u hx hv).lowest_tie (Or.inl rfl) hm0 hx hv v hv1 h1 h2 hmin
  · intro x u v hx hv hv1 h1 h2 hmin
    exact (sH.step x u hx hv).lowest_tie (Or.inr rfl) hm0 hx hv v hv1 h1 h2 hmin
  · intro h3 hg hc
    rw [interpLineFP_dmap r width p temp out (width - 2) (by omega) (by omega),
      sF.lowest_of_zero (Or.inl rfl) hm0 hw hg hc (width - 2) (by omega) (by omega)]
    unfold umaxAt
    omega
  · intro h3 hg hc
    rw [interpLineHP_dmap r mem width p temp out (width - 2) (by omega) (by omega),
      sH.lowest_of_zero (Or.inr rfl) hm0 hw hg hc (width - 2) (by omega) (by omega)]
    unfold umaxAt
    omega
  · intro pc x u v
    constructor
    · intro h
      unfold predCost
      rw [mul_one]
      exact satur_of_le _ h
    · intro h
      unfold predCost
      exact satur_of_le _ h

/-- Instance of `tie_break_lowest` on the flat 3-column scanline with zero weights. -/
theorem tie_break_lowest_witness :
    (interpLineFP (flatRows 128) 3 (zeroWeights 2 4 true false) zeroScratch zeroOutput).dmap
      (3 - 2) = -1 :=
  (tie_break_lowest (flatRows 128) (fun _ => 0) 3 (zeroWeights 2 4 true false) zeroScratch
    zeroOutput (by decide) (by decide)).2.2.1 (by decide) rfl
    (fun x u _ => ccostFP_flat_zero (zeroWeights 2 4 true false) 128 3 x u rfl rfl)

/-- Claim C25 (the full-pixel solver reads only what it wrote). In `interpLineFP`, for every
`width ≥ 1` and `mdis ≥ 1`: for every column `x ≥ 1` and valid `u` the predecessor
candidate range `[max(-umax2,u-1), min(umax2,u+1)]` is non-empty and lies in the valid
range of column `x-1`; the predecessor recorded lies in that range whatever the scratch
buffer held; the backtrack reads the entry recorded for the valid cell `(x+1, fpath[x+1])`;
the cost, path-cost and backtrack entries of the trellis and the path are the same for any
two prior contents of the scratch buffer; hence the displacement map and the output row
are a function of the reference rows and parameters only. -/
theorem solver_reads_own_writes (r : Rows) (width : Int) (p : Params) (hw : 1 ≤ width)
    (hm : 1 ≤ p.mdis) :
    (∀ x u, 1 ≤ x → ValidCell 1 width p.mdis x u →
      max (-(min (min (x - 1) (width - x)) p.mdis)) (u - 1)
        ≤ min (min (min (x - 1) (width - x)) p.mdis) (u + 1) ∧
      ∀ v, max (-(min (min (x - 1) (width - x)) p.mdis)) (u - 1) ≤ v →
        v ≤ min (min (min (x - 1) (width - x)) p.mdis) (u + 1) →
        ValidCell 1 width p.mdis (x - 1) v) ∧
    (∀ (temp : Scratch) (x u : Int), 1 ≤ x → ValidCell 1 width p.mdis x u →
      max (-(min (min (x - 1) (width - x)) p.mdis)) (u - 1)
        ≤ (solveFP r width p temp).pbackt (cellIdx 1 p.mdis (x - 1) u) ∧
      (solveFP r width p temp).pbackt (cellIdx 1 p.mdis (x - 1) u)
        ≤ min (min (min (x - 1) (width - x)) p.mdis) (u + 1)) ∧
    (∀ (temp : Scratch) (x : Int), 0 ≤ x → x < width - 1 →
      ValidCell 1 width p.mdis (x + 1) ((solveFP r width p temp).fpath (x + 1)) ∧
      (solveFP r width p temp).fpath x
        = (solveFP r width p temp).pbackt
            (cellIdx 1 p.mdis (x + 1 - 1) ((solveFP r width p temp).fpath (x + 1)))) ∧
    (∀ (temp temp2 : Scratch),
      (∀ x u, ValidCell 1 width p.mdis x u →
        (solveFP r width p temp).ccosts (cellIdx 1 p.mdis x u)
          = (solveFP r width p temp2).ccosts (cellIdx 1 p.mdis x u) ∧
        (solveFP r width p temp).pcosts (cellIdx 1 p.mdis x u)
          = (solveFP r width p temp2).pcosts (cellIdx 1 p.mdis x u)) ∧
      (∀ x u, 1 ≤ x → ValidCell 1 width p.mdis x u →
        (solveFP r width p temp).pbackt (cellIdx 1 p.mdis (x - 1) u)
          = (solveFP r width p temp2).pbackt (cellIdx 1 p.mdis (x - 1) u)) ∧
      (∀ x, 0 ≤ x → x < width →
        (solveFP r width p temp).fpath x = (solveFP r width p temp2).fpath x)) ∧
    (∀ (temp temp2 : Scratch) (out out2 : Output) (x : Int), 0 ≤ x → x < width →
      (interpLineFP r width p temp out).dmap x = (interpLineFP r width p temp2 out2).dmap x ∧
      (interpLineFP r width p temp out).dstp x = (interpLineFP r width p temp2 out2).dstp x) := by
  have hm0 : 0 ≤ p.mdis := by omega
  have sF := fun temp => solveFP_solved r width p temp hm0 hw
  refine ⟨?_, ?_, ?_, ?_, ?_⟩
  · intro x u hx hv
    have h1 := predRange_nonempty 1 width p.mdis x u (Or.inl rfl) hm0 hx hv
    simp only [mul_one] at h1
    refine ⟨h1, ?_⟩
    intro v a b
    apply predRange_valid 1 width p.mdis x u v (Or.inl rfl) hx hv
    · simp only [mul_one]; exact a
    · simp only [mul_one]; exact b
  · intro temp x u hx hv
    obtain ⟨p1, p2, p3, _, _, _⟩ := ((sF temp).step x u hx hv).pred (Or.inl rfl) hm0 hx hv
    unfold ValidCell umaxAt at p1
    omega
  · intro temp x h0 h1
    refine ⟨(sF temp).valid (Or.inl rfl) hm0 hw (x + 1) (by omega) (by omega), ?_⟩
    rw [add_sub_cancel_right]
    exact (sF temp).back x h0 h1
  · intro temp temp2
    obtain ⟨u1, u2, u3⟩ := (sF temp).unique (sF temp2) (Or.inl rfl) hm0 hw
    refine ⟨?_, u2, u3⟩
    intro x u hv
    refine ⟨?_, u1 x u hv⟩
    rw [(sF temp).cost x u hv, (sF temp2).cost x u hv]
  · intro temp temp2 out out2 x h0 h1
    have e := ((sF temp).unique (sF temp2) (Or.inl rfl) hm0 hw).2.2 x h0 h1
    have s1 := (interpolate_spec (interpPixelFP p.ucubic r width) width
      (solveFP r width p temp).fpath out (by omega) x).1 ⟨h0, h1⟩
    have s2 := (interpolate_spec (interpPixelFP p.ucubic r width) width
      (solveFP r width p temp2).fpath out2 (by omega) x).1 ⟨h0, h1⟩
    unfold interpLineFP
    rw [s1.1, s1.2, s2.1, s2.2, e]
    exact ⟨rfl, rfl⟩

set_option maxRecDepth 1000000 in
/-- Instance of `solver_reads_own_writes`: two different scratch buffers, column 8 of the
diagonal edge. -/
theorem solver_reads_own_writes_witness :
    (interpLineFP (diagRows 8) 16 (defaultWeights 2 4 true false) zeroScratch zeroOutput).dmap 8
      = (interpLineFP (diagRows 8) 16 (defaultWeights 2 4 true false)
          ⟨fun _ => 7, fun _ => 9, fun _ => 3, fun _ => 1, 5⟩ ⟨fun _ => 1, fun _ => 1⟩).dmap 8 :=
  ((solver_reads_own_writes (diagRows 8) 16 (defaultWeights 2 4 true false) (by decide)
    (by decide)).2.2.2.2 zeroScratch ⟨fun _ => 7, fun _ => 9, fun _ => 3, fun _ => 1, 5⟩
    zeroOutput ⟨fun _ => 1, fun _ => 1⟩ 8 (by decide) (by decide)).1

/-! ## The padding of `copyPad`: C24 -/

/-- A loop of stride 2 with two iterations. -/
theorem forUpBy2_two {σ : Type} (lo hi : Int) (body : Int → σ → σ) (init : σ)
    (h : (hi - 1 - lo) / 2 = 1) :
    forUpBy2 lo hi body init = body (lo + 2) (body lo init) := by
  unfold forUpBy2 forUp
  rw [h]
  have : ((1 : Int) + 1 - 0).toNat = 2 := by decide
  rw [this]
  simp [List.range_succ]

/-- A `BitBlt` of one row of `width` bytes from column 0. -/
theorem bitBlt_row (dst src : Plane) (dy sy width y x : Int) :
    bitBlt dst dy 0 1 src sy 0 1 width 1 y x
      = if y = dy ∧ 0 ≤ x ∧ x < width then src sy x else dst y x := by
  by_cases hc : y = dy ∧ 0 ≤ x ∧ x < width
  · rw [if_pos hc]
    obtain ⟨rfl, h0, h1⟩ := hc
    have := bitBlt_copied dst y 0 1 src sy 0 1 width 1 one_ne_zero 0 x le_rfl one_pos h0
      (by omega)
    simpa using this
  · rw [if_neg hc]
    apply bitBlt_other
    by_cases hy : y = dy
    · right; omega
    · left
      intro j hj0 hj1
      omega

/-- The function `copyPad` is its two vertical padding loops run on `copyPadRows`. -/
theorem copyPad_eq (dh : Bool) (fn : Int) (src : Plane) (rowSize srcHeight width height : Int)
    (srcPF : Plane) :
    copyPad dh fn src rowSize srcHeight width height srcPF =
      (forUpBy2 (height - 4 + (1 - fn)) height (fun y (sc : Plane × Int) =>
        (bitBlt sc.1 y 0 1 sc.1 (y - sc.2) 0 1 width 1, sc.2 + 4))
        (forUpBy2 (1 - fn) 4 (fun y s => bitBlt s y 0 1 s (8 - y) 0 1 width 1)
          (copyPadRows dh fn src rowSize srcHeight width height srcPF), 2 + 2 * (1 - fn))).1 :=
  rfl

/-- After `copyPad`, within the `width` columns, row `y` holds row `padSource y` of the
plane before the vertical padding; outside these columns nothing is copied. -/
theorem copyPad_vertical (dh : Bool) (fn : Int) (src : Plane)
    (rowSize srcHeight width height : Int) (srcPF : Plane) (y x : Int)
    (hfn : fn = 0 ∨ fn = 1) :
    copyPad dh fn src rowSize srcHeight width height srcPF y x =
      if 0 ≤ x ∧ x < width then
        copyPadRows dh fn src rowSize srcHeight width height srcPF
          (padSource (1 - fn) height y) x
      else copyPadRows dh fn src rowSize srcHeight width height srcPF y x := by
  rw [copyPad_eq]
  generalize copyPadRows dh fn src rowSize srcHeight width height srcPF = s2
  have e1 : (4 - 1 - (1 - fn)) / 2 = 1 := by rcases hfn with rfl | rfl <;> decide
  have e2 : (height - 1 - (height - 4 + (1 - fn))) / 2 = 1 := by
    rcases hfn with rfl | rfl <;> omega
  rw [forUpBy2_two _ _ _ _ e1, forUpBy2_two _ _ _ _ e2]
  simp only [bitBlt_row]
  unfold padSource
  by_cases hx : 0 ≤ x ∧ x < width
  · simp only [hx, and_self, and_true, if_true]
    rcases hfn with rfl | rfl
    · split_ifs <;> first | rfl | omega | (congr 1; omega)
    · split_ifs <;> first | rfl | omega | (congr 1; omega)
  · have hx2 : ¬ (0 ≤ x ∧ x < width) := hx
    simp only [hx, and_false, if_false]

/-- The rows of the padded plane that neither the first `BitBlt` nor the horizontal padding
of `copyPad` writes keep what the plane held on entry. -/
theorem copyPadRows_untouched (dh : Bool) (fn : Int) (src : Plane)
    (rowSize srcHeight width height : Int) (srcPF : Plane) (y x : Int)
    (hb : ∀ j : Int, 0 ≤ j → j < (if dh = true then srcHeight else srcHeight / 2) →
      y ≠ 4 + (1 - fn) + 2 * j)
    (hl : ¬ (4 + (1 - fn) ≤ y ∧ y < height - 4 ∧ (y - (4 + (1 - fn))) % 2 = 0)) :
    copyPadRows dh fn src rowSize srcHeight width height srcPF y x = srcPF y x := by
  unfold copyPadRows
  have h1 : (if !dh then bitBlt srcPF (4 + (1 - fn)) 12 2 src (1 - fn) 0 2 rowSize
      (shr srcHeight 1) else bitBlt srcPF (4 + (1 - fn)) 12 2 src 0 0 1 rowSize srcHeight) y x
      = srcPF y x := by
    cases dh
    · simp only [Bool.not_false, if_true, Bool.false_eq_true, if_false] at hb ⊢
      exact bitBlt_other _ _ _ _ _ _ _ _ _ _ _ _
        (Or.inl (fun j hj0 hj1 => hb j hj0 (by rw [shr_one] at hj1; exact hj1)))
    · simp only [Bool.not_true, Bool.false_eq_true, if_false, if_true] at hb ⊢
      exact bitBlt_other _ _ _ _ _ _ _ _ _ _ _ _ (Or.inl (fun j hj0 hj1 => hb j hj0 hj1))
  rw [← h1]
  generalize (if !dh then bitBlt srcPF (4 + (1 - fn)) 12 2 src (1 - fn) 0 2 rowSize
    (shr srcHeight 1) else bitBlt srcPF (4 + (1 - fn)) 12 2 src 0 0 1 rowSize srcHeight) = s1
  apply forUpBy2_pres _ _ _ s1 (fun s => s y x = s1 y x) rfl
  intro y2 s a b c hP
  have hy : y ≠ y2 := by
    intro e
    subst e
    exact hl ⟨a, b, c⟩
  rw [Function.update_noteq hy]
  exact hP

/-- Vertical padding is a mirror of known rows, for planes tall enough or of odd height:
inside the `width` columns the top padding rows `off` and `off+2` equal the rows `8-y`,
the bottom padding rows `height-4+off` and `height-2+off` equal the rows `2*(height-5)-y`;
the rows `8-y` have the known parity, and so have the rows `2*(height-5)-y` when the height
is even. -/
theorem vertical_padding_mirror (dh : Bool) (fn : Int) (src : Plane)
    (rowSize srcHeight width height : Int) (srcPF : Plane) (y x : Int)
    (hfn : fn = 0 ∨ fn = 1) (hh : 13 - 2 * (1 - fn) ≤ height ∨ (8 ≤ height ∧ height % 2 = 1))
    (hx0 : 0 ≤ x) (hx1 : x < width) :
    ((y = 1 - fn ∨ y = 1 - fn + 2) →
      copyPad dh fn src rowSize srcHeight width height srcPF y x
        = copyPad dh fn src rowSize srcHeight width height srcPF (8 - y) x ∧
      (8 - y) % 2 = (4 + (1 - fn)) % 2) ∧
    ((y = height - 4 + (1 - fn) ∨ y = height - 2 + (1 - fn)) →
      copyPad dh fn src rowSize srcHeight width height srcPF y x
        = copyPad dh fn src rowSize srcHeight width height srcPF (2 * (height - 5) - y) x ∧
      (height % 2 = 0 → (2 * (height - 5) - y) % 2 = (4 + (1 - fn)) % 2)) := by
  have hsrc : ∀ a b : Int, padSource (1 - fn) height a = padSource (1 - fn) height b →
      copyPad dh fn src rowSize srcHeight width height srcPF a x
        = copyPad dh fn src rowSize srcHeight width height srcPF b x := by
    intro a b e
    rw [copyPad_vertical _ _ _ _ _ _ _ _ a x hfn, copyPad_vertical _ _ _ _ _ _ _ _ b x hfn,
      if_pos ⟨hx0, hx1⟩, if_pos ⟨hx0, hx1⟩, e]
  constructor
  · intro hy
    refine ⟨hsrc _ _ ?_, by rcases hfn with rfl | rfl <;> omega⟩
    unfold padSource
    dsimp only
    rcases hfn with rfl | rfl <;> split_ifs <;> omega
  · intro hy
    refine ⟨hsrc _ _ ?_, fun he => by rcases hfn with rfl | rfl <;> omega⟩
    unfold padSource
    dsimp only
    rcases hfn with rfl | rfl <;> split_ifs <;> omega

/-- Instance of `vertical_padding_mirror`: top padding row 1 of a padded plane of height 16
with `off = 1`. -/
theorem vertical_padding_mirror_witness :
    copyPad false 0 rampPlane 16 8 40 16 (fun _ _ => 0) 1 20
      = copyPad false 0 rampPlane 16 8 40 16 (fun _ _ => 0) (8 - 1) 20 :=
  ((vertical_padding_mirror false 0 rampPlane 16 8 40 16 (fun _ _ => 0) 1 20 (Or.inl rfl)
    (Or.inl (by decide)) (by decide) (by decide)).1 (Or.inl (by decide))).1

set_option maxRecDepth 1000000 in
/-- Claim C24 (vertical padding is a mirror of known rows) fails on planes of odd height
and on planes of four rows. On the padded plane of height 11 of a plane of 8 by 3 samples
(a chroma plane of a YV12 clip of height 6) with `off = 0`, the bottom padding row
`7 = h-4+off` is filled from row `2*(h-5)-7 = 5`, which has not the known parity and which
`copyPad` never writes, so that row 7 holds what the padded plane held in row 5 on entry;
row 8, the row of known parity below the image, is not written at all. On the padded
plane of height 12 of a plane of 8 by 4 samples with `off = 0`, the top padding row 0 is
filled from row 8 before the bottom padding writes row 8: on the input `rampPlane` and a
padded plane of zeros, column 15 holds `0` in row 0 and `35` in row 8. -/
theorem vertical_padding_unknown_rows (src srcPF0 : Plane) (x : Int) :
    ((7 : Int) = 11 - 4 + (1 - 1) ∧ (2 * (11 - 5) - 7 : Int) = 5 ∧
      (5 : Int) % 2 ≠ (4 + (1 - 1)) % 2) ∧
    (0 ≤ x → x < 32 → copyPad false 1 src 8 3 32 11 srcPF0 7 x = srcPF0 5 x) ∧
    copyPad false 1 src 8 3 32 11 srcPF0 8 x = srcPF0 8 x ∧
    ((0 : Int) = 1 - 1 ∧
      copyPad false 1 rampPlane 8 4 32 12 (fun _ _ => 0) 0 15 = 0 ∧
      copyPad false 1 rampPlane 8 4 32 12 (fun _ _ => 0) (8 - 0) 15 = 35) := by
  refine ⟨by decide, ?_, ?_, rfl, ?_, ?_⟩
  · intro h0 h1
    rw [copyPad_vertical _ _ _ _ _ _ _ _ 7 x (Or.inr rfl), if_pos ⟨h0, h1⟩]
    have e : padSource (1 - 1) 11 7 = 5 := by decide
    rw [e]
    apply copyPadRows_untouched
    · intro j hj0 hj1
      simp only [Bool.false_eq_true, if_false] at hj1
      omega
    · omega
  · rw [copyPad_vertical _ _ _ _ _ _ _ _ 8 x (Or.inr rfl)]
    have e : padSource (1 - 1) 11 8 = 8 := by decide
    rw [e, ite_self]
    apply copyPadRows_untouched
    · intro j hj0 hj1
      simp only [Bool.false_eq_true, if_false] at hj1
      omega
    · omega
  · decide!
  · decide!

/-! ## The vcheck pass on zero-displacement columns: C29 -/

/-- The row written by the vcheck loop for a checked row: the check saw a state whose
displacement maps, kept rows and row under check are those before the loop. -/
theorem vcheckRows_row (v : VParams) (srcPF : Plane) (scpPF : Option Plane)
    (width height fn : Int) (ws : Workspace) (st : PlaneState) (y : Int)
    (hy : LoopRow height fn y) (h6 : 6 ≤ y) (hlt : y < height - 6) :
    ∃ s : PlaneState, s.dmapa = st.dmapa ∧ (∀ r, (r - fn) % 2 ≠ 0 → s.dst r = st.dst r) ∧
      s.dst (y - 4) = st.dst (y - 4) ∧
      (vcheckRows v srcPF scpPF width height fn ws st).dst (y - 4)
        = vcheckRowFloat v (checkRowsAt srcPF scpPF fn y s) (width - 24) (ws.tline y) := by
  obtain ⟨y1, y2, y3⟩ := hy
  have key := forUpBy2_inv (4 + fn) (height - 4) (vcheckStep v srcPF scpPF width height fn ws) st
    (fun yy s =>
      s.dmapa = st.dmapa ∧ (∀ r, (r - fn) % 2 ≠ 0 → s.dst r = st.dst r) ∧
      (yy ≤ y → s.dst (y - 4) = st.dst (y - 4)) ∧
      (y < yy → ∃ s0 : PlaneState, s0.dmapa = st.dmapa ∧
        (∀ r, (r - fn) % 2 ≠ 0 → s0.dst r = st.dst r) ∧ s0.dst (y - 4) = st.dst (y - 4) ∧
        s.dst (y - 4)
          = vcheckRowFloat v (checkRowsAt srcPF scpPF fn y s0) (width - 24) (ws.tline y)))
    ⟨rfl, fun _ _ => rfl, fun _ => rfl, fun h => by omega⟩
    (by
      intro y0 s a b c hP
      obtain ⟨q1, q2, q3, q4⟩ := hP
      unfold vcheckStep
      by_cases hc : y0 ≥ 6 ∧ y0 < height - 6
      · rw [if_pos hc]
        dsimp only
        refine ⟨q1, ?_, ?_, ?_⟩
        · intro r hr
          have hne : r ≠ y0 - 4 := by omega
          rw [Function.update_noteq hne]
          exact q2 r hr
        · intro hle
          have hne : y - 4 ≠ y0 - 4 := by omega
          rw [Function.update_noteq hne]
          exact q3 (by omega)
        · intro hgt
          by_cases h0 : y = y0
          · subst h0
            rw [Function.update_same]
            exact ⟨s, q1, q2, q3 (le_refl _), rfl⟩
          · have hne : y - 4 ≠ y0 - 4 := by omega
            rw [Function.update_noteq hne]
            exact q4 (by omega)
      · rw [if_neg hc]
        refine ⟨q1, q2, fun hle => q3 (by omega), fun hgt => ?_⟩
        have hne : y ≠ y0 := by
          intro e
          subst e
          exact hc ⟨h6, hlt⟩
        exact q4 (by omega))
  obtain ⟨yy, _, k2, _, _, hP⟩ := key
  obtain ⟨s0, r1, r2, r3, r4⟩ := hP.2.2.2 (by omega)
  exact ⟨s0, r1, r2, r3, r4⟩

/-- What the reconstruction call writes at a column that gets displacement `0` with
`ucubic`: the cubic of the four known samples, in full-pixel and half-pixel mode. -/
theorem interpRow_zero_cubic (p : Params) (hp : Bool) (srcPF : Plane) (width height fn : Int)
    (ws : Workspace) (out : Output) (y x : Int) (hu : p.ucubic = true)
    (hy : LoopRow height fn y) (hx0 : 0 ≤ x) (hx1 : x < width - 24)
    (hd : (interpRow p hp srcPF width fn ws y out).dmap x = 0) :
    (interpRow p hp srcPF width fn ws y out).dstp x = cubicAt srcPF y x := by
  obtain ⟨y1, y2, y3⟩ := hy
  have e : 4 + fn + shr (y - 4 - fn) 1 * 2 = y := by rw [shr_one]; omega
  have hz := interpPixel_zero_cubic (rowsAt srcPF y) (width - 24) x hx0 hx1
  unfold interpRow at hd ⊢
  dsimp only at hd ⊢
  rw [e] at hd ⊢
  cases hp
  · simp only [Bool.false_eq_true, if_false] at hd ⊢
    have hs := (interpolate_spec (interpPixelFP p.ucubic (rowsAt srcPF y) (width - 24))
      (width - 24) (solveFP (rowsAt srcPF y) (width - 24) p (ws.temp y)).fpath out (by omega)
      x).1 ⟨hx0, hx1⟩
    unfold interpLineFP at hd ⊢
    rw [hs.1] at hd
    rw [hs.2, hd, hu, hz.1]
    rfl
  · simp only [if_true] at hd ⊢
    have hs := (interpolate_spec (interpPixelHP p.ucubic (rowsAt srcPF y) (width - 24))
      (width - 24) (solveHP (rowsAt srcPF y) (ws.mem y) (width - 24) p (ws.temp y)).fpath out
      (by omega) x).1 ⟨hx0, hx1⟩
    unfold interpLineHP at hd ⊢
    rw [hs.1] at hd
    rw [hs.2, hd, hu, hz.2]
    rfl

/-- Claim C29 (with cubic interpolation and no secondary clip the checker is the identity on
zero-displacement columns). If `ucubic = true`, `vcheck > 0` and no secondary clip is
supplied, then for every checked row `y` (`6 ≤ y < height-6`) of a processed plane and
every column whose displacement-map entry is `0`, the sample written by the interpolator
and the sample left by the vcheck pass are both the clamped 4-tap vertical cubic of the
four known samples at rows `y-3`, `y-1`, `y+1`, `y+3`: the output with the check equals
the output without it. -/
theorem vcheck_identity_zero_cubic (p : Params) (v : VParams) (srcPF : Plane)
    (width height fn : Int) (ws : Workspace) (st : PlaneState) (y x : Int)
    (hfn : fn = 0 ∨ fn = 1) (hu : p.ucubic = true) (hv : 0 < v.vcheck)
    (hy : LoopRow height fn y) (h6 : 6 ≤ y) (hlt : y < height - 6) (hx0 : 0 ≤ x)
    (hx1 : x < width - 24)
    (hd : (getFramePlane p v srcPF none width height fn ws st).dmapa ((y - 4 - fn) / 2) x = 0) :
    (getFramePlane p { v with vcheck := 0 } srcPF none width height fn ws st).dst (y - 4) x
      = cubicAt srcPF y x ∧
    (getFramePlane p v srcPF none width height fn ws st).dst (y - 4) x
      = cubicAt srcPF y x ∧
    (getFramePlane p v srcPF none width height fn ws st).dst (y - 4) x
      = (getFramePlane p { v with vcheck := 0 } srcPF none width height fn ws st).dst (y - 4) x
    := by
  obtain ⟨y1, y2, y3⟩ := id hy
  -- the three stages
  obtain ⟨st1, hst1⟩ : ∃ st1 : PlaneState, st1 = ⟨bitBlt st.dst (1 - fn) 0 2 srcPF (4 + 1 - fn)
    12 2 (width - 24) (shr (height - 8) 1), st.dmapa⟩ := ⟨_, rfl⟩
  have eG : getFramePlane p v srcPF none width height fn ws st
      = vcheckRows v srcPF none width height fn ws
          (reconstructRows p v.hp srcPF width height fn ws st1) := by
    rw [hst1]
    unfold getFramePlane
    dsimp only
    rw [if_pos hv]
  have eG0 : getFramePlane p { v with vcheck := 0 } srcPF none width height fn ws st
      = reconstructRows p v.hp srcPF width height fn ws st1 := by
    rw [hst1]
    unfold getFramePlane
    dsimp only
    rw [if_neg (by decide)]
  rw [eG0]
  rw [eG] at hd ⊢
  -- kept rows next to the checked row hold the known samples
  have hk : ∀ r, (r - fn) % 2 ≠ 0 → 0 ≤ r → r < height - 9 →
      st1.dst r x = srcPF (r + 4) (12 + x) := by
    intro r hr hr0 hr1
    rw [hst1]
    have := bitBlt_copied st.dst (1 - fn) 0 2 srcPF (4 + 1 - fn) 12 2 (width - 24)
      (shr (height - 8) 1) (by decide) ((r - (1 - fn)) / 2) x
      (by rcases hfn with rfl | rfl <;> omega)
      (by rw [shr_one]; rcases hfn with rfl | rfl <;> omega) hx0 (by omega)
    have e1 : 1 - fn + 2 * ((r - (1 - fn)) / 2) = r := by
      rcases hfn with rfl | rfl <;> omega
    have e2 : 4 + 1 - fn + 2 * ((r - (1 - fn)) / 2) = r + 4 := by
      rcases hfn with rfl | rfl <;> omega
    rw [e1, e2, sub_zero] at this
    exact this
  have hrec := reconstructRows_row p v.hp srcPF width height fn ws st1 y hy
  have hvo := vcheckRows_other v srcPF none width height fn ws
    (reconstructRows p v.hp srcPF width height fn ws st1)
  rw [hvo.1, hrec.2] at hd
  -- the interpolator wrote the cubic
  have hI : (reconstructRows p v.hp srcPF width height fn ws st1).dst (y - 4) x
      = cubicAt srcPF y x := by
    rw [hrec.1]
    exact interpRow_zero_cubic p v.hp srcPF width height fn ws _ y x hu hy hx0 hx1 hd
  -- the check stores the same cubic
  obtain ⟨s, s1, s2, s3, s4⟩ := vcheckRows_row v srcPF none width height fn ws
    (reconstructRows p v.hp srcPF width height fn ws st1) y hy h6 hlt
  have hkeep : ∀ r, (r - fn) % 2 ≠ 0 → 0 ≤ r → r < height - 9 →
      s.dst r x = srcPF (r + 4) (12 + x) := by
    intro r hr hr0 hr1
    rw [s2 r hr, reconstructRows_other p v.hp srcPF width height fn ws st1 r
      (by intro y' _ _ hy'; omega)]
    exact hk r hr hr0 hr1
  have hC : (vcheckRows v srcPF none width height fn ws
      (reconstructRows p v.hp srcPF width height fn ws st1)).dst (y - 4) x
      = cubicAt srcPF y x := by
    rw [s4, vcheckRowFloat_apply v _ (width - 24) (ws.tline y) x hx0 hx1]
    have hdc : (checkRowsAt srcPF none fn y s).dmapC x = 0 := by
      show s.dmapa ((y - 4 - fn) / 2) x = 0
      rw [s1, hrec.2]
      exact hd
    unfold vcheckPixelFloat
    simp only [hdc, if_true]
    have hcint : cintAt (checkRowsAt srcPF none fn y s) x = cubicAt srcPF y x := by
      unfold cintAt cubicAt checkRowsAt
      simp only [Option.map_none']
      have a1 := hkeep (y - 4 - 1) (by omega) (by omega) (by omega)
      have a2 := hkeep (y - 4 + 1) (by omega) (by omega) (by omega)
      have e1 : y - 4 - 1 + 4 = y - 1 := by ring
      have e2 : y - 4 + 1 + 4 = y + 1 := by ring
      rw [e1] at a1
      rw [e2] at a2
      rw [a1, a2]
    rw [hcint]
    unfold cubicAt
    exact toU8_of_range _ (clamp255_range _).1 (clamp255_range _).2
  exact ⟨hI, hC, hC.trans hI.symm⟩

set_option maxRecDepth 1000000 in
/-- Instance of `vcheck_identity_zero_cubic`: column 0 of the checked row 6 of a padded plane
of height 16. -/
theorem vcheck_identity_zero_cubic_witness :
    (getFramePlane (defaultWeights 2 4 true false) (defaultThresholds 2 false) rampPlane none 40
        16 0 zeroWorkspace zeroPlanes).dst (6 - 4) 0
      = (getFramePlane (defaultWeights 2 4 true false)
          { defaultThresholds 2 false with vcheck := 0 } rampPlane none 40 16 0 zeroWorkspace
          zeroPlanes).dst (6 - 4) 0 :=
  (vcheck_identity_zero_cubic (defaultWeights 2 4 true false) (defaultThresholds 2 false)
    rampPlane 40 16 0 zeroWorkspace zeroPlanes 6 0 (Or.inl rfl) rfl
    (show (0 : Int) < 2 by decide) (by decide) (by decide) (by decide) (by decide) (by decide)
    (by decide!)).2.2

/-! ## Vertical-flip symmetry of the cost field: C31 -/

/-- The window sum of the exchanged rows is the window sum of the rows with the two
centres exchanged. -/
theorem sad_flip (r : Rows) (nrad i j : Int) : sad (flipRows r) nrad i j = sad r nrad j i := by
  unfold sad flipRows
  apply forUp_congr
  intro k s _ _
  dsimp only
  rw [abs_sub_comm (r.src3n (i + k)) (r.src1n (j + k)),
    abs_sub_comm (r.src1n (i + k)) (r.src1p (j + k)),
    abs_sub_comm (r.src1p (i + k)) (r.src3p (j + k))]
  ring

/-- Claim C31 (vertical-flip symmetry of the cost field). Without `cost3`, exchanging the
rows above the gap with the rows below it (`src3p` with `src3n`, `src1p` with `src1n`)
negates the displacement axis of the cost trellis of `interpLineFP`: for every column `x`
and every `u`, the cost of the exchanged rows at `(x,u)` equals the cost of the rows at
`(x,-u)`; for valid `u` the cell `(x,-u)` is valid too and the entries of the two cost
tables are equal, whatever the scratch buffers held. -/
theorem vertical_flip_symmetry (p : Params) (r : Rows) (width x u : Int)
    (hc : p.cost3 = false) :
    ccostFP p (flipRows r) width x u = ccostFP p r width x (-u) ∧
    (∀ temp temp2 : Scratch, 1 ≤ width → 0 ≤ p.mdis → ValidCell 1 width p.mdis x u →
      ValidCell 1 width p.mdis x (-u) ∧
      (solveFP (flipRows r) width p temp).ccosts (cellIdx 1 p.mdis x u)
        = (solveFP r width p temp2).ccosts (cellIdx 1 p.mdis x (-u))) := by
  have key : ccostFP p (flipRows r) width x u = ccostFP p r width x (-u) := by
    unfold ccostFP
    simp only [hc, Bool.not_false, if_true, sad_flip, abs_neg]
    have e1 : x + -u = x - u := by ring
    have e2 : x - -u = x + u := by ring
    have e3 : (flipRows r).src1p = r.src1n := rfl
    have e4 : (flipRows r).src1n = r.src1p := rfl
    rw [e1, e2, e3, e4, add_comm (r.src1n (x + u)) (r.src1p (x - u)),
      add_comm |r.src1n x - shr (r.src1p (x - u) + r.src1n (x + u) + 1) 1|
        |r.src1p x - shr (r.src1p (x - u) + r.src1n (x + u) + 1) 1|]
  refine ⟨key, ?_⟩
  intro temp temp2 hw hm hv
  have hv2 : ValidCell 1 width p.mdis x (-u) := by
    unfold ValidCell at hv ⊢
    omega
  refine ⟨hv2, ?_⟩
  rw [(solveFP_solved (flipRows r) width p temp hm hw).cost x u hv,
    (solveFP_solved r width p temp2 hm hw).cost x (-u) hv2]
  exact key

/-- Instance of `vertical_flip_symmetry` at the cell `(5,-2)` of the diagonal edge. -/
theorem vertical_flip_symmetry_witness :
    ccostFP (defaultWeights 2 4 true false) (flipRows (diagRows 8)) 16 5 (-2)
      = ccostFP (defaultWeights 2 4 true false) (diagRows 8) 16 5 (-(-2)) :=
  (vertical_flip_symmetry (defaultWeights 2 4 true false) (diagRows 8) 16 5 (-2) rfl).1

set_option maxRecDepth 1000000 in
/-- With `cost3` the symmetry does not hold: at the valid cell `(2,2)` of the diagonal edge
the guard of `s1` fails for `u = 2` and holds for `u = -2`, and the two costs differ. -/
theorem vertical_flip_cost3_differs :
    ValidCell 1 16 (defaultWeights 2 4 true true).mdis 2 2 ∧
    ¬ s1CondFP 16 2 2 ∧ s1CondFP 16 2 (-2) ∧
    ccostFP (defaultWeights 2 4 true true) (flipRows (diagRows 8)) 16 2 2
      ≠ ccostFP (defaultWeights 2 4 true true) (diagRows 8) 16 2 (-2) := by
  refine ⟨by decide, by decide, by decide, ?_⟩
  decide!

end Eedi3
